import Mathlib

/-!
xv6 with huge pages: buddy allocator (`kernel/kalloc.c`) and paging layer (`kernel/vm.c`)

A shallow embedding of the buddy allocator and of the user part of the
virtual-memory code, followed by theorems about them.

Conventions of the embedding.

* Pointers and `uint` values are natural numbers; where the C code relies on
  32-bit wrap-around the reduction `% 2 ^ 32` is written out.  The null pointer
  is `0`.
* A `char*` bitmap is a function from the byte index to the byte stored there.
* An intrusive free list is the list of the block addresses in link order
  (head first).
* The array `free_area_list.free_areas[MAXORDER]` is rendered field by field:
  `free_list i`, `allocated i` and `split i` stand for
  `free_areas[i].free_list`, `.allocated` and `.split`.
* A function that can dereference a null pointer, read outside an array or
  loop for ever returns an `Option`; `none` means that the C code has no
  defined result.
* The one store outside an array that is not rendered so is the final
  `list_push` of `buddy_free`: when its loop runs out (`i = MAXORDER`) the C
  code stores one past the array `free_areas[MAXORDER]`.  The embedding gives
  this store a slot of its own, `free_list MAXORDER`, which no other function
  reads, so that the state in which the store happens can be written down.
  `free_in_array` says that a call of `buddy_free` does not make this store;
  the histories of `Reach` consist of such calls only, and the general
  statements about `deallocuvm` and about the rollback of `allocuvm` describe
  the state after calls of `kfree` that leave the slot as it was
  (`frees_in_array`).
-/

namespace HugePages

/-! ## Constants of `mmu.h` -/

/-- Modelled from the spec: `mmu.h` is not among the sources; the base page size
`PAGE_SIZE` is 4 KiB. -/
def PGSIZE : Nat := 4096

/-- Modelled from the spec: `MAXSIZE` is the largest order (`MAX_ORDER = 10`,
a 4 MiB block); `buddy_init` threads the blocks of that order into
`free_areas[MAXSIZE].free_list`. -/
def MAXSIZE : Nat := 10

/-- Modelled from the spec: `MAXORDER` is the number of orders `0..MAXSIZE`, the
length of the array `free_areas[MAXORDER]` (the scan `for(i = min; i < MAXORDER; i++)`
is the spec's scan `i = m, …, MAX_ORDER`). -/
def MAXORDER : Nat := 11

/-- Modelled from the spec: macro `BLOCKSIZE(o)`, the block size at order `o`,
`PAGE_SIZE · 2^o`. -/
def BLOCKSIZE (o : Nat) : Nat := PGSIZE * 2 ^ o

/-- Modelled from the spec: macro `MAXPGSIZE`, the huge-page size `HUGE_SIZE`
(4 MiB). -/
def MAXPGSIZE : Nat := BLOCKSIZE MAXSIZE

/-- Modelled from the spec: macro `ROUNDUP(a, o)`, `a` rounded up to a multiple
of the block size of order `o` (`BASE = round_up(kernel_end, HUGE_SIZE)` is
`ROUNDUP(end, MAXSIZE)`). -/
def ROUNDUP (a o : Nat) : Nat := (a + BLOCKSIZE o - 1) / BLOCKSIZE o * BLOCKSIZE o

/-- Modelled from the spec: macro `ROUNDDOWN(a, o)`, `a` rounded down to a
multiple of the block size of order `o`. -/
def ROUNDDOWN (a o : Nat) : Nat := a / BLOCKSIZE o * BLOCKSIZE o

/-! ## Bit vectors (`bit_is_set`, `set_bit`, `clear_bit`) -/

/-- Value of a `char` holding the byte `c` after promotion to a 32-bit `int`
(two's complement, so bytes from 128 on are sign-extended). -/
def char_to_int (c : Nat) : Nat :=
  if c % 256 < 128 then c % 256 else c % 256 + (2 ^ 32 - 256)

/-- The byte stored by `char b = 1 << (index & 7)`. -/
def bit_mask (index : Nat) : Nat := (1 <<< (index &&& 7)) % 256

/-- Source `bit_is_set`: `a = arr[index >> 3]; b = 1 << (index & 7); return (a & b) == b`. -/
def bit_is_set (arr : Nat → Nat) (index : Nat) : Bool :=
  let a := char_to_int (arr (index >>> 3))
  let b := char_to_int (bit_mask index)
  (a &&& b) == b

/-- Source `set_bit`: `arr[index >> 3] = (a | b)`, truncated to a byte. -/
def set_bit (arr : Nat → Nat) (index : Nat) : Nat → Nat :=
  let a := char_to_int (arr (index >>> 3))
  let b := char_to_int (bit_mask index)
  Function.update arr (index >>> 3) ((a ||| b) % 256)

/-- Source `clear_bit`: `arr[index >> 3] = (a & ~b)`, truncated to a byte. -/
def clear_bit (arr : Nat → Nat) (index : Nat) : Nat → Nat :=
  let a := char_to_int (arr (index >>> 3))
  let b := char_to_int (bit_mask index)
  Function.update arr (index >>> 3) ((a &&& (2 ^ 32 - 1 - b)) % 256)

/-! ## Intrusive lists (`list_pop`, `list_push`, `list_remove`) -/

/-- Source `list_pop`: `p = *n; *n = (*n)->next; return p`.  On an empty list
`(*n)->next` dereferences the null pointer: no result. -/
def list_pop : List Nat → Option (Nat × List Nat)
  | [] => none
  | p :: rest => some (p, rest)

/-- Source `list_push`: `p->next = *n; *n = p`. -/
def list_push (n : List Nat) (p : Nat) : List Nat := p :: n

/-- Source `list_remove` for a non-null `p`: pop when the head is `p`, else
walk to the node whose `next` is `p` and unlink it; nothing changes when the
walk reaches the end. -/
def list_remove : List Nat → Nat → List Nat
  | [], _ => []
  | temp :: rest, p => if temp = p then rest else temp :: list_remove rest p

/-! ## The allocator state -/

/-- The global `free_area_list` without its lock: one free list, one `allocated`
bitmap and one `split` bitmap per order.  Index `MAXORDER` and above lie past the
end of the C array; the embedding keeps a slot for them so that what the code
does to the slots `0..MAXSIZE` stays defined. -/
structure FreeAreaList where
  free_list : Nat → List Nat
  allocated : Nat → Nat → Nat
  split : Nat → Nat → Nat

/-- Source `get_index`: `int n = (uint)p - ROUNDUP(end, MAXSIZE); return n / BLOCKSIZE(o)`
(`kend` is the linker symbol `end`).  For `p` at or above the base `n` is the
difference.  For `p` below the base `n` is negative; the quotient, rounded
toward zero, is 0 as long as `p` is less than one block of order `o` below the
base, which is what the truncated subtraction gives; further below the base
the C index is negative and the embedding does not follow it. -/
def get_index (kend p o : Nat) : Nat := (p - ROUNDUP kend MAXSIZE) / BLOCKSIZE o

/-- Source `get_address`: `ROUNDUP(end, MAXSIZE) + i * BLOCKSIZE(o)`. -/
def get_address (kend i o : Nat) : Nat := ROUNDUP kend MAXSIZE + i * BLOCKSIZE o

/-- The second loop of `buddy_init`: thread every huge block that ends at or
below `PHYSTOP` into one list, starting at `offset`. -/
def init_chain (PHYSTOP : Nat) : Nat → Nat → List Nat
  | 0, _ => []
  | fuel + 1, offset =>
    if offset + MAXPGSIZE ≤ PHYSTOP then
      offset :: init_chain PHYSTOP fuel (offset + MAXPGSIZE)
    else []

/-- Source `buddy_init`: all bitmaps zeroed, `free_areas[MAXSIZE].free_list`
holds the huge blocks of `[base, PHYSTOP)`, the other lists are empty (zeroed
globals).  The region is assumed to hold at least one huge block. -/
def buddy_init (kend PHYSTOP : Nat) : FreeAreaList where
  free_list := fun i =>
    if i = MAXSIZE then init_chain PHYSTOP (PHYSTOP / MAXPGSIZE + 1) (ROUNDUP kend MAXSIZE)
    else []
  allocated := fun _ _ => 0
  split := fun _ _ => 0

/-- The loop of `min_order`: `while(size < n) { order++; size *= 2; }` with a
32-bit `size`; `none` when the fuel runs out. -/
def min_order_loop (n : Nat) : Nat → Nat → Nat → Option Nat
  | 0, _, _ => none
  | fuel + 1, order, size =>
    if size < n then min_order_loop n fuel (order + 1) ((size * 2) % 2 ^ 32)
    else some order

/-- Source `min_order`.  After 20 doublings `size` is 0 and stays 0, so 33
rounds decide whether the loop ends (see `min_order_loop_diverges`). -/
def min_order (n : Nat) : Option Nat := min_order_loop n 33 0 PGSIZE

/-- Store a new head in `free_areas[i].free_list`. -/
def FreeAreaList.with_free_list (s : FreeAreaList) (i : Nat) (l : List Nat) : FreeAreaList :=
  { s with free_list := Function.update s.free_list i l }

/-- Store a new content in the bitmap `free_areas[i].allocated`. -/
def FreeAreaList.with_allocated (s : FreeAreaList) (i : Nat) (arr : Nat → Nat) : FreeAreaList :=
  { s with allocated := Function.update s.allocated i arr }

/-- Store a new content in the bitmap `free_areas[i].split`. -/
def FreeAreaList.with_split (s : FreeAreaList) (i : Nat) (arr : Nat → Nat) : FreeAreaList :=
  { s with split := Function.update s.split i arr }

/-- The scan of `buddy_alloc`: `for(i = min; i < MAXORDER; i++) if(free_list[i]) break;`
returns the final `i`. -/
def scan_free (s : FreeAreaList) : Nat → Nat → Nat
  | 0, i => i
  | fuel + 1, i =>
    if i < MAXORDER then
      if s.free_list i ≠ [] then i else scan_free s fuel (i + 1)
    else i

/-- The splitting loop of `buddy_alloc`, `for( ; i > min; i--)`, with
`i = min + d` on entry. -/
def split_loop (kend p min : Nat) : Nat → FreeAreaList → FreeAreaList
  | 0, s => s
  | d + 1, s =>
    let i := min + d + 1
    let q := p + BLOCKSIZE (i - 1)
    let s1 := s.with_split i (set_bit (s.split i) (get_index kend p i))
    let s2 := s1.with_allocated (i - 1) (set_bit (s1.allocated (i - 1)) (get_index kend p (i - 1)))
    let s3 := s2.with_free_list (i - 1) (list_push (s2.free_list (i - 1)) q)
    split_loop kend p min d s3

/-- Source `buddy_alloc`.  The result is `none` when `min_order` does not return
or when `list_pop` runs on an empty slot; otherwise the returned pointer (0 for
`NULL`) and the new state. -/
def buddy_alloc (kend : Nat) (s : FreeAreaList) (size : Nat) : Option (Nat × FreeAreaList) :=
  match min_order size with
  | none => none
  | some min =>
    let i := scan_free s MAXORDER min
    if i = MAXORDER then some (0, s)
    else
      match list_pop (s.free_list i) with
      | none => none
      | some (p, rest) =>
        let s1 := s.with_free_list i rest
        let s2 := s1.with_allocated i (set_bit (s1.allocated i) (get_index kend p i))
        some (p, split_loop kend p min (i - min) s2)

/-- The loop of `size_of`: the first `i` in `i, i+1, …` below `MAXSIZE` with the
split bit of `p` at order `i + 1` set, else 0. -/
def size_of_loop (kend : Nat) (s : FreeAreaList) (p : Nat) : Nat → Nat → Nat
  | 0, _ => 0
  | fuel + 1, i =>
    if i < MAXSIZE then
      if bit_is_set (s.split (i + 1)) (get_index kend p (i + 1)) then i
      else size_of_loop kend s p fuel (i + 1)
    else 0

/-- Source `size_of`. -/
def size_of (kend : Nat) (s : FreeAreaList) (p : Nat) : Nat :=
  size_of_loop kend s p MAXSIZE 0

/-- The coalescing loop of `buddy_free`, `for(i = sz; i < MAXORDER; i++)`; returns
the final `i`, the final `p` and the state before the final push. -/
def free_loop (kend : Nat) : Nat → Nat → Nat → FreeAreaList → Nat × Nat × FreeAreaList
  | 0, i, p, s => (i, p, s)
  | fuel + 1, i, p, s =>
    if i < MAXORDER then
      let index := get_index kend p i
      let s1 := s.with_allocated i (clear_bit (s.allocated i) index)
      let buddy_index := if index % 2 = 0 then index + 1 else index - 1
      if bit_is_set (s1.allocated i) buddy_index then (i, p, s1)
      else
        let buddy_address := get_address kend buddy_index i
        let s2 := s1.with_free_list i (list_remove (s1.free_list i) buddy_address)
        let p2 := if buddy_index % 2 = 0 then buddy_address else p
        let s3 :=
          if i < MAXSIZE then
            s2.with_split (i + 1) (clear_bit (s2.split (i + 1)) (get_index kend p2 (i + 1)))
          else s2
        free_loop kend fuel (i + 1) p2 s3
    else (i, p, s)

/-- Source `buddy_free`: nothing happens when the allocated bit of `p` at the
order found by `size_of` is clear; otherwise coalesce and push the final block
onto `free_areas[i].free_list`.  When the loop runs out, `i = MAXORDER` and the
push goes one past the array `free_areas[MAXORDER]`: the block is then kept in
the slot `free_list MAXORDER`, which stands for the word behind the array and is
read by nothing else. -/
def buddy_free (kend : Nat) (s : FreeAreaList) (p : Nat) : FreeAreaList :=
  let sz := size_of kend s p
  if bit_is_set (s.allocated sz) (get_index kend p sz) then
    let r := free_loop kend MAXORDER sz p s
    r.2.2.with_free_list r.1 (list_push (r.2.2.free_list r.1) r.2.1)
  else s

/-! ## Histories of the allocator and the bookkeeping used in the proofs -/

/-- The allocated bit of block `j` of order `k`. -/
def Abit (s : FreeAreaList) (k j : Nat) : Bool := bit_is_set (s.allocated k) j

/-- The split bit of block `j` of order `k`. -/
def Sbit (s : FreeAreaList) (k j : Nat) : Bool := bit_is_set (s.split k) j

/-- Address `q` is the start of a block of order `k`. -/
def Aligned (kend k q : Nat) : Prop := ∃ j, q = get_address kend j k

/-- The byte ranges `[p, p + a)` and `[q, q + b)` do not overlap. -/
def range_disjoint (p a q b : Nat) : Prop := p + a ≤ q ∨ q + b ≤ p

/-- The order `min_order` returns for a request of `n` bytes (0 when it does not
return). -/
def order_of_request (n : Nat) : Nat := (min_order n).getD 0

/-- The index `i` with which `buddy_free(p)` leaves its loop
`for(i = sz; i < MAXORDER; i++)` once it is past the guard: the entry
`free_areas[i]` that the closing `list_push` is applied to. -/
def free_order (kend : Nat) (s : FreeAreaList) (p : Nat) : Nat :=
  (free_loop kend MAXORDER (size_of kend s p) p s).1

/-- The call `buddy_free(p)` stays inside the array `free_areas[MAXORDER]`: it
returns at its guard, or its loop ends at a `break` with `i <= MAXSIZE`, so that
the closing `list_push` is applied to an entry of the array.  When the loop
runs out instead (`i = MAXORDER`), the C code reads and writes
`free_areas[MAXORDER]`, one past the array. -/
def free_in_array (kend : Nat) (s : FreeAreaList) (p : Nat) : Prop :=
  bit_is_set (s.allocated (size_of kend s p)) (get_index kend p (size_of kend s p)) = true →
    free_order kend s p ≤ MAXSIZE

instance free_in_array_decidable (kend : Nat) (s : FreeAreaList) (p : Nat) :
    Decidable (free_in_array kend s p) := by
  unfold free_in_array
  infer_instance

/-- The states the allocator reaches from `buddy_init` through `buddy_alloc`
with requests of at most `MAXPGSIZE` bytes and `buddy_free` of live
allocations, together with the live allocations (pointer, requested size),
latest first.  Only calls of `buddy_free` that stay inside the array
`free_areas[MAXORDER]` are steps of a history: a call whose loop runs out
stores one past the array, and what the program does from there on is not
defined by the source. -/
inductive Reach (kend PHYSTOP : Nat) : FreeAreaList → List (Nat × Nat) → Prop
  | init : Reach kend PHYSTOP (buddy_init kend PHYSTOP) []
  | alloc (s s2 : FreeAreaList) (live : List (Nat × Nat)) (n p : Nat) :
      Reach kend PHYSTOP s live → n ≤ MAXPGSIZE →
      buddy_alloc kend s n = some (p, s2) → p ≠ 0 →
      Reach kend PHYSTOP s2 ((p, n) :: live)
  | alloc_null (s s2 : FreeAreaList) (live : List (Nat × Nat)) (n : Nat) :
      Reach kend PHYSTOP s live → n ≤ MAXPGSIZE →
      buddy_alloc kend s n = some (0, s2) →
      Reach kend PHYSTOP s2 live
  | free (s : FreeAreaList) (live : List (Nat × Nat)) (p n : Nat) :
      Reach kend PHYSTOP s live → (p, n) ∈ live → free_in_array kend s p →
      Reach kend PHYSTOP (buddy_free kend s p) (live.filter (fun a => decide (a.1 ≠ p)))

/-- The invariant behind the allocator proofs.  `owned` lists the blocks
(address, order) that `buddy_alloc` handed out and that have not been put back
on a free list. -/
structure Inv (kend : Nat) (s : FreeAreaList) (owned : List (Nat × Nat)) : Prop where
  free_aligned : ∀ k ≤ MAXSIZE, ∀ q ∈ s.free_list k, Aligned kend k q
  own_aligned : ∀ q k, (q, k) ∈ owned → k ≤ MAXSIZE ∧ Aligned kend k q
  free_anc : ∀ k ≤ MAXSIZE, ∀ q ∈ s.free_list k, ∀ k2, k < k2 → k2 ≤ MAXSIZE →
    Sbit s k2 (get_index kend q k2) = true ∧ Abit s k2 (get_index kend q k2) = true
  own_anc : ∀ q k, (q, k) ∈ owned → ∀ k2, k < k2 → k2 ≤ MAXSIZE →
    Sbit s k2 (get_index kend q k2) = true ∧ Abit s k2 (get_index kend q k2) = true
  own_alloc : ∀ q k, (q, k) ∈ owned → Abit s k (get_index kend q k) = true
  free_unalloc : ∀ k ≤ MAXSIZE, ∀ q ∈ s.free_list k, Abit s k (get_index kend q k) = false
  zero : ∀ k ≤ MAXSIZE, ∀ j,
    (Abit s k j = false ∨ ∃ q, (q, k) ∈ owned ∧ get_index kend q k = j) →
    Sbit s k j = false ∧
      ∀ k2 < k, ∀ j2, j2 / 2 ^ (k - k2) = j → Abit s k2 j2 = false ∧ Sbit s k2 j2 = false
  nodup_free : ∀ k ≤ MAXSIZE, (s.free_list k).Nodup
  nodup_owned : (owned.map Prod.fst).Nodup

/-- The situation inside the coalescing loop of `buddy_free`: the block of
order `i` at `p` is being put back. -/
structure Hole (kend : Nat) (s : FreeAreaList) (owned : List (Nat × Nat)) (i p : Nat) : Prop where
  le : i ≤ MAXSIZE
  aligned : Aligned kend i p
  anc : ∀ k2, i < k2 → k2 ≤ MAXSIZE →
    Sbit s k2 (get_index kend p k2) = true ∧ Abit s k2 (get_index kend p k2) = true
  alloc : Abit s i (get_index kend p i) = true
  split : Sbit s i (get_index kend p i) = false
  zero : ∀ k2 < i, ∀ j2, j2 / 2 ^ (i - k2) = get_index kend p i →
    Abit s k2 j2 = false ∧ Sbit s k2 j2 = false
  not_owned : ∀ q, (q, i) ∈ owned → get_index kend q i ≠ get_index kend p i

/-- The state after one round of the splitting loop of `buddy_alloc`. -/
def split_step (kend p j : Nat) (s : FreeAreaList) : FreeAreaList :=
  ((s.with_split (j + 1) (set_bit (s.split (j + 1)) (get_index kend p (j + 1)))).with_allocated j
    (set_bit (s.allocated j) (get_index kend p j))).with_free_list j
      (list_push (s.free_list j) (p + BLOCKSIZE j))


/-- The index of the buddy computed in `buddy_free`: `index + 1` for an even
index, `index - 1` for an odd one. -/
def buddy_of (index : Nat) : Nat := if index % 2 = 0 then index + 1 else index - 1

/-- The state of `buddy_free` after it cleared the allocated bit of `p` at order `i`. -/
def free_clear (kend i p : Nat) (s : FreeAreaList) : FreeAreaList :=
  s.with_allocated i (clear_bit (s.allocated i) (get_index kend p i))

/-- The block `buddy_free` continues with after merging `p` with its buddy at
order `i`. -/
def free_parent (kend i p : Nat) : Nat :=
  if buddy_of (get_index kend p i) % 2 = 0 then
    get_address kend (buddy_of (get_index kend p i)) i
  else p

/-- The state of `buddy_free` after one full round of its loop that did not
stop at order `i`. -/
def free_merge (kend i p : Nat) (s : FreeAreaList) : FreeAreaList :=
  let s1 := free_clear kend i p s
  let s2 := s1.with_free_list i
    (list_remove (s1.free_list i) (get_address kend (buddy_of (get_index kend p i)) i))
  if i < MAXSIZE then
    s2.with_split (i + 1) (clear_bit (s2.split (i + 1)) (get_index kend (free_parent kend i p) (i + 1)))
  else s2

/-- The state `buddy_alloc` leaves behind (the old state when it has no result). -/
def alloc_state (kend : Nat) (s : FreeAreaList) (n : Nat) : FreeAreaList :=
  match buddy_alloc kend s n with
  | some r => r.2
  | none => s

/-- The pointer `buddy_alloc` returns (0 when it has no result). -/
def alloc_ptr (kend : Nat) (s : FreeAreaList) (n : Nat) : Nat :=
  match buddy_alloc kend s n with
  | some r => r.1
  | none => 0

/-- The state after a sequence of `buddy_alloc` calls with the given sizes. -/
def alloc_many (kend : Nat) (s : FreeAreaList) : List Nat → FreeAreaList
  | [] => s
  | n :: rest => alloc_many kend (alloc_state kend s n) rest

/-! ## Paging layer (`kernel/vm.c`)

Physical memory is one byte-addressed map; page directories and page tables
live in it, and a page-table entry is the little-endian 32-bit word at its
address.  Kernel virtual addresses equal physical addresses (`walkpgdir`
dereferences `PTE_ADDR(*pde)` directly), so `PADDR` is the identity.  A call of
`panic` and an access the C code leaves undefined end the computation with a
`Fault`. -/

/-- Modelled from the spec: `mmu.h` is not among the sources; bit 0 of an entry
is the present bit. -/
def PTE_P : Nat := 1

/-- Modelled from the spec: bit 1 of an entry is the writable bit. -/
def PTE_W : Nat := 2

/-- Modelled from the spec: bit 2 of an entry is the user bit. -/
def PTE_U : Nat := 4

/-- Modelled from the spec: bit 7 of a directory entry is the page-size (huge)
bit. -/
def PTE_PS : Nat := 128

/-- Modelled from the spec: a directory and a leaf table have 1024 entries. -/
def NPDENTRIES : Nat := 1024

/-- Modelled from the spec: macro `PDX(va)`, the directory index, bits 31..22. -/
def PDX (va : Nat) : Nat := (va >>> 22) &&& 0x3FF

/-- Modelled from the spec: macro `PTX(va)`, the table index, bits 21..12. -/
def PTX (va : Nat) : Nat := (va >>> 12) &&& 0x3FF

/-- Modelled from the spec: macro `PTE_ADDR(pte)`, the entry without its low
12 bits. -/
def PTE_ADDR (pte : Nat) : Nat := pte / PGSIZE * PGSIZE

/-- Modelled from the spec: macro `PGROUNDUP(sz)` on a 32-bit value. -/
def PGROUNDUP (sz : Nat) : Nat := (sz + PGSIZE - 1) % 2 ^ 32 / PGSIZE * PGSIZE

/-- Modelled from the spec: macro `PGROUNDDOWN(a)`. -/
def PGROUNDDOWN (a : Nat) : Nat := a / PGSIZE * PGSIZE

/-- Why a computation has no result: `panic(msg)` was called, or the C code
does something undefined (a null dereference, an access outside an array, a
loop that does not end). -/
inductive Fault where
  | panic (msg : String)
  | undefined (what : String)
  deriving DecidableEq, Repr

/-- The kernel state the paging code works on: physical memory, the buddy
allocator, and the arguments `kfree` was called with so far (latest first; a
record kept for the statements, the code does not read it). -/
structure KState where
  mem : Nat → Nat
  fal : FreeAreaList
  freed : List Nat

/-- The 32-bit word at address `a` (little endian). -/
def rd32 (m : Nat → Nat) (a : Nat) : Nat :=
  m a % 256 + 256 * (m (a + 1) % 256) + 65536 * (m (a + 2) % 256) +
    16777216 * (m (a + 3) % 256)

/-- Store the 32-bit word `v` at address `a` (little endian). -/
def wr32 (m : Nat → Nat) (a v : Nat) : Nat → Nat := fun x =>
  if x = a then v % 256
  else if x = a + 1 then v / 256 % 256
  else if x = a + 2 then v / 65536 % 256
  else if x = a + 3 then v / 16777216 % 256
  else m x

/-- Library `memset(p, c, n)`. -/
def memset (m : Nat → Nat) (p c n : Nat) : Nat → Nat := fun x =>
  if p ≤ x ∧ x < p + n then c else m x

/-- Library `memmove(dst, src, n)`: all source bytes are read before any byte
is written. -/
def memmove (m : Nat → Nat) (dst src n : Nat) : Nat → Nat := fun x =>
  if dst ≤ x ∧ x < dst + n then m (src + (x - dst)) else m x

/-- Source `kalloc`: `buddy_alloc(4096)`.  The link words that `buddy_alloc`
stores when it splits a block go into the halves it puts on the free lists, and
`mem` does not follow them: a block is zeroed or copied over by the paging code
that allocates it. -/
def kalloc (kend : Nat) (st : KState) : Except Fault (Nat × KState) :=
  match buddy_alloc kend st.fal 4096 with
  | none => .error (Fault.undefined "buddy_alloc")
  | some (p, f) => .ok (p, { st with fal := f })

/-- The store into a list node that `list_remove(n, p)` makes for a non-null
`p`, as the address of the node and the word stored: `temp->next =
temp->next->next` at the node `temp` in front of `p`, where the word is the
address of the node behind `p` (0 at the end of the list).  There is no store
when `p` heads the list (`list_pop` moves the head pointer) or is not on it. -/
def list_remove_store : List Nat → Nat → Option (Nat × Nat)
  | [], _ => none
  | temp :: rest, p =>
    if temp = p then none
    else
      match rest with
      | [] => none
      | nxt :: rest2 =>
        if nxt = p then some (temp, rest2.headD 0) else list_remove_store rest p

/-- The stores into list nodes that the coalescing loop of `buddy_free` makes
through `list_remove`, in program order (the arguments are those of
`free_loop`). -/
def free_loop_stores (kend : Nat) : Nat → Nat → Nat → FreeAreaList → List (Nat × Nat)
  | 0, _, _, _ => []
  | fuel + 1, i, p, s =>
    if i < MAXORDER then
      let index := get_index kend p i
      let s1 := s.with_allocated i (clear_bit (s.allocated i) index)
      let buddy_index := if index % 2 = 0 then index + 1 else index - 1
      if bit_is_set (s1.allocated i) buddy_index then []
      else
        let buddy_address := get_address kend buddy_index i
        let s2 := s1.with_free_list i (list_remove (s1.free_list i) buddy_address)
        let p2 := if buddy_index % 2 = 0 then buddy_address else p
        let s3 :=
          if i < MAXSIZE then
            s2.with_split (i + 1) (clear_bit (s2.split (i + 1)) (get_index kend p2 (i + 1)))
          else s2
        (list_remove_store (s1.free_list i) buddy_address).toList ++
          free_loop_stores kend fuel (i + 1) p2 s3
    else []

/-- The stores into list nodes that `buddy_free(p)` makes: none when it returns
at its guard, else those of the coalescing loop followed by `p->next = *n` of
the closing `list_push`, which puts the old head of `free_areas[i].free_list`
(0 for an empty list) in the first word of the block that is pushed. -/
def buddy_free_stores (kend : Nat) (s : FreeAreaList) (p : Nat) : List (Nat × Nat) :=
  let sz := size_of kend s p
  if bit_is_set (s.allocated sz) (get_index kend p sz) then
    let r := free_loop kend MAXORDER sz p s
    free_loop_stores kend MAXORDER sz p s ++ [(r.2.1, (r.2.2.free_list r.1).headD 0)]
  else []

/-- Memory after a sequence of 32-bit stores (address, word), first store
first. -/
def store_words (m : Nat → Nat) : List (Nat × Nat) → Nat → Nat
  | [] => m
  | x :: rest => store_words (wr32 m x.1 x.2) rest

/-- Source `kfree`: panic unless `v` is page aligned and inside `[end, PHYSTOP)`,
then `buddy_free(v)`.  The list nodes live in the blocks themselves, so
`buddy_free` writes memory: the link words of `buddy_free_stores`. -/
def kfree (kend PHYSTOP : Nat) (st : KState) (v : Nat) : Except Fault KState :=
  if v % PGSIZE ≠ 0 ∨ v < kend ∨ v ≥ PHYSTOP then .error (Fault.panic "kfree")
  else .ok { st with
    mem := store_words st.mem (buddy_free_stores kend st.fal v),
    fal := buddy_free kend st.fal v,
    freed := v :: st.freed }

/-- Source `walkpgdir`: the address of the leaf entry of `va` (0 when there is
no table and none is created or none can be allocated). -/
def walkpgdir (kend : Nat) (st : KState) (pgdir va : Nat) (create : Bool) :
    Except Fault (Nat × KState) :=
  let pde := pgdir + 4 * PDX va
  if rd32 st.mem pde &&& PTE_P ≠ 0 then
    .ok (PTE_ADDR (rd32 st.mem pde) + 4 * PTX va, st)
  else if ¬ create then .ok (0, st)
  else
    match kalloc kend st with
    | .error e => .error e
    | .ok (pgtab, st1) =>
      if pgtab = 0 then .ok (0, st1)
      else
        let m1 := memset st1.mem pgtab 0 PGSIZE
        let m2 := wr32 m1 pde (pgtab ||| PTE_P ||| PTE_W ||| PTE_U)
        .ok (pgtab + 4 * PTX va, { st1 with mem := m2 })

/-- The small-page loop of `mappages`, `for(;;)`, entered with `a` and `pa`. -/
def mappages_small (kend pgdir perm last : Nat) :
    Nat → Nat → Nat → KState → Except Fault (Int × KState)
  | 0, _, _, _ => .error (Fault.undefined "mappages: fuel")
  | fuel + 1, a, pa, st =>
    match walkpgdir kend st pgdir a true with
    | .error e => .error e
    | .ok (pte, st1) =>
      if pte = 0 then .ok (-1, st1)
      else if rd32 st1.mem pte &&& PTE_P ≠ 0 then .error (Fault.panic "remap")
      else
        let st2 : KState := { st1 with mem := wr32 st1.mem pte (pa ||| perm ||| PTE_P) }
        if a = last then .ok (0, st2)
        else mappages_small kend pgdir perm last fuel ((a + PGSIZE) % 2 ^ 32)
          ((pa + PGSIZE) % 2 ^ 32) st2

/-- The huge-page loop of `mappages`, `while(1)`, entered with `a` and `pa`. -/
def mappages_huge (pgdir perm last : Nat) :
    Nat → Nat → Nat → KState → Except Fault (Int × KState)
  | 0, _, _, _ => .error (Fault.undefined "mappages: fuel")
  | fuel + 1, a, pa, st =>
    let pde := pgdir + 4 * PDX a
    if rd32 st.mem pde &&& PTE_P ≠ 0 then .error (Fault.panic "remap")
    else
      let st2 : KState := { st with mem := wr32 st.mem pde (pa ||| perm ||| PTE_P ||| PTE_PS) }
      if a = last then .ok (0, st2)
      else mappages_huge pgdir perm last fuel ((a + MAXPGSIZE) % 2 ^ 32)
        ((pa + MAXPGSIZE) % 2 ^ 32) st2

/-- Source `mappages`.  The small-page loop ends after at most `2^20` rounds,
the huge-page loop after at most `2^10`. -/
def mappages (kend : Nat) (st : KState) (pgdir la size pa perm : Nat) :
    Except Fault (Int × KState) :=
  if size ≠ BLOCKSIZE MAXSIZE then
    mappages_small kend pgdir perm (PGROUNDDOWN ((la + size + 2 ^ 32 - 1) % 2 ^ 32))
      (2 ^ 20 + 1) (PGROUNDDOWN la) pa st
  else
    mappages_huge pgdir perm (ROUNDDOWN ((la + BLOCKSIZE MAXSIZE - 1) % 2 ^ 32) MAXSIZE)
      (2 ^ 10 + 1) (ROUNDDOWN la MAXSIZE) pa st

/-- The loop of `deallocuvm`, `for(; a < oldsz; a += diff)`. -/
def deallocuvm_loop (kend PHYSTOP pgdir oldsz : Nat) : Nat → Nat → KState → Except Fault KState
  | 0, _, _ => .error (Fault.undefined "deallocuvm: fuel")
  | fuel + 1, a, st =>
    if a < oldsz then
      let pde := pgdir + 4 * PDX a
      if rd32 st.mem pde &&& PTE_PS ≠ 0 ∧ rd32 st.mem pde &&& PTE_P ≠ 0 then
        let pa := PTE_ADDR (rd32 st.mem pde)
        if pa = 0 then .error (Fault.panic "kfree")
        else
          match kfree kend PHYSTOP st pa with
          | .error e => .error e
          | .ok st1 => deallocuvm_loop kend PHYSTOP pgdir oldsz fuel ((a + MAXPGSIZE) % 2 ^ 32) st1
      else
        match walkpgdir kend st pgdir a false with
        | .error e => .error e
        | .ok (pte, st1) =>
          if pte ≠ 0 ∧ rd32 st1.mem pte &&& PTE_P ≠ 0 then
            let pa := PTE_ADDR (rd32 st1.mem pte)
            if pa = 0 then .error (Fault.panic "kfree")
            else
              match kfree kend PHYSTOP st1 pa with
              | .error e => .error e
              | .ok st2 =>
                deallocuvm_loop kend PHYSTOP pgdir oldsz fuel ((a + PGSIZE) % 2 ^ 32)
                  { st2 with mem := wr32 st2.mem pte 0 }
          else deallocuvm_loop kend PHYSTOP pgdir oldsz fuel ((a + PGSIZE) % 2 ^ 32) st1
    else .ok st

/-- Source `deallocuvm`: returns `oldsz` unchanged when `newsz >= oldsz`, else
walks from `PGROUNDUP(newsz)` and returns `newsz`.  The `2^20 + 1` rounds of fuel
cover every walk in which `a` does not wrap. -/
def deallocuvm (kend PHYSTOP : Nat) (st : KState) (pgdir oldsz newsz : Nat) :
    Except Fault (Nat × KState) :=
  if newsz ≥ oldsz then .ok (oldsz, st)
  else
    match deallocuvm_loop kend PHYSTOP pgdir oldsz (2 ^ 20 + 1) (PGROUNDUP newsz) st with
    | .error e => .error e
    | .ok st1 => .ok (newsz, st1)

/-- The loop of `allocuvm`, `for(; a < newsz; a += diff)`. -/
def allocuvm_loop (kend PHYSTOP pgdir oldsz newsz bytes_left : Nat) :
    Nat → Nat → KState → Except Fault (Nat × KState)
  | 0, _, _ => .error (Fault.undefined "allocuvm: fuel")
  | fuel + 1, a, st =>
    if a < newsz then
      let diff0 := if a % MAXPGSIZE = 0 ∧ bytes_left ≥ MAXPGSIZE then MAXPGSIZE else PGSIZE
      match buddy_alloc kend st.fal diff0 with
      | none => .error (Fault.undefined "buddy_alloc")
      | some (mem0, f0) =>
        let retry := if mem0 = 0 ∧ diff0 = MAXPGSIZE then buddy_alloc kend f0 PGSIZE
          else some (mem0, f0)
        let diff := if mem0 = 0 ∧ diff0 = MAXPGSIZE then PGSIZE else diff0
        match retry with
        | none => .error (Fault.undefined "buddy_alloc")
        | some (mem, f1) =>
          let st1 : KState := { st with fal := f1 }
          if mem = 0 then
            match deallocuvm kend PHYSTOP st1 pgdir newsz oldsz with
            | .error e => .error e
            | .ok (_, st2) => .ok (0, st2)
          else
            let st2 : KState := { st1 with mem := memset st1.mem mem 0 diff }
            match mappages kend st2 pgdir a diff mem (PTE_W ||| PTE_U) with
            | .error e => .error e
            | .ok (_, st3) =>
              allocuvm_loop kend PHYSTOP pgdir oldsz newsz bytes_left fuel
                ((a + diff) % 2 ^ 32) st3
    else .ok (newsz, st)

/-- Source `allocuvm`; `USERTOP` is a constant of the missing `param.h`. -/
def allocuvm (kend PHYSTOP USERTOP : Nat) (st : KState) (pgdir oldsz newsz : Nat) :
    Except Fault (Nat × KState) :=
  if newsz > USERTOP then .ok (0, st)
  else if newsz < oldsz then .ok (oldsz, st)
  else
    allocuvm_loop kend PHYSTOP pgdir oldsz newsz
      ((PGROUNDUP newsz + 2 ^ 32 - PGROUNDUP oldsz) % 2 ^ 32) (2 ^ 20 + 1) (PGROUNDUP oldsz) st

/-- Source `uva2ka`: the frame of the tile at `uva`, 0 when it is not present or
not a user tile.  `walkpgdir` returns a null pointer when there is no table, and
`*pte` then dereferences it. -/
def uva2ka (kend : Nat) (st : KState) (pgdir uva : Nat) : Except Fault Nat :=
  let pde := pgdir + 4 * PDX uva
  if rd32 st.mem pde &&& PTE_PS ≠ 0 ∧ rd32 st.mem pde &&& PTE_P ≠ 0 then
    if rd32 st.mem pde &&& PTE_P = 0 then .ok 0
    else if rd32 st.mem pde &&& PTE_U = 0 then .ok 0
    else .ok (PTE_ADDR (rd32 st.mem pde))
  else
    match walkpgdir kend st pgdir uva false with
    | .error e => .error e
    | .ok (pte, _) =>
      if pte = 0 then .error (Fault.undefined "uva2ka: null pte")
      else if rd32 st.mem pte &&& PTE_P = 0 then .ok 0
      else if rd32 st.mem pte &&& PTE_U = 0 then .ok 0
      else .ok (PTE_ADDR (rd32 st.mem pte))

/-- The loop of `copyout`, `while(len > 0)`; every round copies at least one
byte, so `len` rounds of fuel are enough. -/
def copyout_loop (kend pgdir : Nat) : Nat → Nat → Nat → Nat → KState → Except Fault (Int × KState)
  | 0, _, _, len, st =>
    if len > 0 then .error (Fault.undefined "copyout: fuel") else .ok (0, st)
  | fuel + 1, va, buf, len, st =>
    if len > 0 then
      let temp := ROUNDDOWN va MAXSIZE
      let pde := pgdir + 4 * PDX temp
      let diff :=
        if rd32 st.mem pde &&& PTE_P ≠ 0 ∧ rd32 st.mem pde &&& PTE_PS ≠ 0 then MAXPGSIZE
        else PGSIZE
      let va0 :=
        if rd32 st.mem pde &&& PTE_P ≠ 0 ∧ rd32 st.mem pde &&& PTE_PS ≠ 0 then temp
        else PGROUNDDOWN va
      match uva2ka kend st pgdir va0 with
      | .error e => .error e
      | .ok pa0 =>
        if pa0 = 0 then .ok (-1, st)
        else
          let n := if diff - (va - va0) > len then len else diff - (va - va0)
          let st1 : KState := { st with mem := memmove st.mem (pa0 + (va - va0)) buf n }
          copyout_loop kend pgdir fuel ((va0 + diff) % 2 ^ 32) (buf + n) (len - n) st1
    else .ok (0, st)

/-- Source `copyout`. -/
def copyout (kend : Nat) (st : KState) (pgdir va p len : Nat) : Except Fault (Int × KState) :=
  copyout_loop kend pgdir len va p len st

/-- Source table `kmap`: the kernel part of every address space, entries
`(start, end, perm)`; `data` is a linker symbol, `USERTOP` and `PHYSTOP` are
constants of the missing headers. -/
def kmap (USERTOP data PHYSTOP : Nat) : List (Nat × Nat × Nat) :=
  [(USERTOP, 0x1080000, PTE_W), (0x1080000, data, 0), (data, PHYSTOP, PTE_W),
   (0xFE000000, 0, PTE_W)]

/-- The loop of `setupkvm` over the entries of `kmap`. -/
def setupkvm_loop (kend pgdir : Nat) : List (Nat × Nat × Nat) → KState → Except Fault (Nat × KState)
  | [], st => .ok (pgdir, st)
  | (p, e, perm) :: rest, st =>
    match mappages kend st pgdir p ((e + 2 ^ 32 - p) % 2 ^ 32) p perm with
    | .error err => .error err
    | .ok (r, st1) => if r < 0 then .ok (0, st1) else setupkvm_loop kend pgdir rest st1

/-- Source `setupkvm`: a zeroed directory with the kernel part mapped, 0 on
failure. -/
def setupkvm (kend USERTOP data PHYSTOP : Nat) (st : KState) : Except Fault (Nat × KState) :=
  match kalloc kend st with
  | .error e => .error e
  | .ok (pgdir, st1) =>
    if pgdir = 0 then .ok (0, st1)
    else
      setupkvm_loop kend pgdir (kmap USERTOP data PHYSTOP)
        { st1 with mem := memset st1.mem pgdir 0 PGSIZE }

/-- The second loop of `freevm`: `kfree` of the frame of every present
directory entry, from index `i` on. -/
def freevm_loop (kend PHYSTOP pgdir : Nat) : Nat → Nat → KState → Except Fault KState
  | 0, _, st => .ok st
  | fuel + 1, i, st =>
    if rd32 st.mem (pgdir + 4 * i) &&& PTE_P ≠ 0 then
      match kfree kend PHYSTOP st (PTE_ADDR (rd32 st.mem (pgdir + 4 * i))) with
      | .error e => .error e
      | .ok st1 => freevm_loop kend PHYSTOP pgdir fuel (i + 1) st1
    else freevm_loop kend PHYSTOP pgdir fuel (i + 1) st

/-- Source `freevm`. -/
def freevm (kend PHYSTOP USERTOP : Nat) (st : KState) (pgdir : Nat) : Except Fault KState :=
  if pgdir = 0 then .error (Fault.panic "freevm: no pgdir")
  else
    match deallocuvm kend PHYSTOP st pgdir USERTOP 0 with
    | .error e => .error e
    | .ok (_, st1) =>
      match freevm_loop kend PHYSTOP pgdir NPDENTRIES 0 st1 with
      | .error e => .error e
      | .ok st2 => kfree kend PHYSTOP st2 pgdir

/-- The exit `bad:` of `copyuvm`: `freevm(d); return 0`. -/
def copyuvm_bad (kend PHYSTOP USERTOP : Nat) (st : KState) (d : Nat) :
    Except Fault (Nat × KState) :=
  match freevm kend PHYSTOP USERTOP st d with
  | .error e => .error e
  | .ok st1 => .ok (0, st1)

/-- The second loop of `copyuvm`, over the stack pages
`for(j = proc->stack; j < USERTOP; j += PGSIZE)`. -/
def copyuvm_stack (kend PHYSTOP USERTOP pgdir d : Nat) :
    Nat → Nat → KState → Except Fault (Nat × KState)
  | 0, _, _ => .error (Fault.undefined "copyuvm: fuel")
  | fuel + 1, j, st =>
    if j < USERTOP then
      match walkpgdir kend st pgdir j false with
      | .error e => .error e
      | .ok (pte, _) =>
        if pte = 0 then .error (Fault.panic "copyuvm: pte should exist")
        else if rd32 st.mem pte &&& PTE_P = 0 then .error (Fault.panic "copyuvm: page not present")
        else
          let pa := PTE_ADDR (rd32 st.mem pte)
          match buddy_alloc kend st.fal PGSIZE with
          | none => .error (Fault.undefined "buddy_alloc")
          | some (mem, f1) =>
            let st1 : KState := { st with fal := f1 }
            if mem = 0 then copyuvm_bad kend PHYSTOP USERTOP st1 d
            else
              let st2 : KState := { st1 with mem := memmove st1.mem mem pa PGSIZE }
              match mappages kend st2 d j PGSIZE mem (PTE_W ||| PTE_U) with
              | .error e => .error e
              | .ok (r, st3) =>
                if r < 0 then copyuvm_bad kend PHYSTOP USERTOP st3 d
                else copyuvm_stack kend PHYSTOP USERTOP pgdir d fuel ((j + PGSIZE) % 2 ^ 32) st3
    else .ok (d, st)

/-- The first loop of `copyuvm`, `for(i = PGSIZE; i < sz; i += diff)`, followed
by the stack loop. -/
def copyuvm_loop (kend PHYSTOP USERTOP pgdir sz stack d : Nat) :
    Nat → Nat → KState → Except Fault (Nat × KState)
  | 0, _, _ => .error (Fault.undefined "copyuvm: fuel")
  | fuel + 1, i, st =>
    if i < sz then
      let pde := pgdir + 4 * PDX i
      let diff :=
        if rd32 st.mem pde &&& PTE_PS ≠ 0 ∧ rd32 st.mem pde &&& PTE_P ≠ 0 then MAXPGSIZE
        else PGSIZE
      let lookup : Except Fault Nat :=
        if rd32 st.mem pde &&& PTE_PS ≠ 0 ∧ rd32 st.mem pde &&& PTE_P ≠ 0 then
          .ok (PTE_ADDR (rd32 st.mem pde))
        else
          match walkpgdir kend st pgdir i false with
          | .error e => .error e
          | .ok (pte, _) =>
            if pte = 0 then .error (Fault.panic "copyuvm: pte should exist")
            else if rd32 st.mem pte &&& PTE_P = 0 then
              .error (Fault.panic "copyuvm: page not present")
            else .ok (PTE_ADDR (rd32 st.mem pte))
      match lookup with
      | .error e => .error e
      | .ok pa =>
        match buddy_alloc kend st.fal diff with
        | none => .error (Fault.undefined "buddy_alloc")
        | some (mem, f1) =>
          let st1 : KState := { st with fal := f1 }
          if mem = 0 then copyuvm_bad kend PHYSTOP USERTOP st1 d
          else
            let st2 : KState := { st1 with mem := memmove st1.mem mem pa diff }
            match mappages kend st2 d i diff mem (PTE_W ||| PTE_U) with
            | .error e => .error e
            | .ok (r, st3) =>
              if r < 0 then copyuvm_bad kend PHYSTOP USERTOP st3 d
              else copyuvm_loop kend PHYSTOP USERTOP pgdir sz stack d fuel ((i + diff) % 2 ^ 32) st3
    else copyuvm_stack kend PHYSTOP USERTOP pgdir d (2 ^ 20 + 1) stack st

/-- Source `copyuvm` from the first loop on, with `d` the directory `setupkvm`
returned; `stack` is `proc->stack`. -/
def copyuvm_from (kend PHYSTOP USERTOP : Nat) (st : KState) (pgdir sz stack d : Nat) :
    Except Fault (Nat × KState) :=
  copyuvm_loop kend PHYSTOP USERTOP pgdir sz stack d (2 ^ 20 + 1) PGSIZE st

/-- Source `copyuvm`. -/
def copyuvm (kend PHYSTOP USERTOP data : Nat) (st : KState) (pgdir sz stack : Nat) :
    Except Fault (Nat × KState) :=
  match setupkvm kend USERTOP data PHYSTOP st with
  | .error e => .error e
  | .ok (d, st1) =>
    if d = 0 then .ok (0, st1)
    else copyuvm_from kend PHYSTOP USERTOP st1 pgdir sz stack d

/-- Modelled from the spec: the address translation of the MMU (x86-32 with
page-size extension) is not code of the repository.  A present directory entry
with the page-size bit maps 4 MiB from the frame in its upper 10 bits; any other
present directory entry points to a table whose present entry maps 4 KiB. -/
def translate (m : Nat → Nat) (pgdir va : Nat) : Option Nat :=
  let pde := rd32 m (pgdir + 4 * PDX va)
  if pde &&& PTE_P = 0 then none
  else if pde &&& PTE_PS ≠ 0 then some (pde / MAXPGSIZE * MAXPGSIZE + va % MAXPGSIZE)
  else
    let pte := rd32 m (PTE_ADDR pde + 4 * PTX va)
    if pte &&& PTE_P = 0 then none
    else some (PTE_ADDR pte + va % PGSIZE)

/-- The flags (low 12 bits) of the entry that maps `va`: the directory entry
for a huge mapping, else the leaf entry; `none` when `va` is not mapped. -/
def mapping_flags (m : Nat → Nat) (pgdir va : Nat) : Option Nat :=
  let pde := rd32 m (pgdir + 4 * PDX va)
  if pde &&& PTE_P = 0 then none
  else if pde &&& PTE_PS ≠ 0 then some (pde % PGSIZE)
  else
    let pte := rd32 m (PTE_ADDR pde + 4 * PTX va)
    if pte &&& PTE_P = 0 then none
    else some (pte % PGSIZE)

/-- The value part of a result. -/
def result_value {α : Type} (r : Except Fault (α × KState)) : Option α :=
  match r with
  | .ok (v, _) => some v
  | .error _ => none

/-- The state part of a result (`st` when there is none). -/
def result_state {α : Type} (st : KState) (r : Except Fault (α × KState)) : KState :=
  match r with
  | .ok (_, st1) => st1
  | .error _ => st

/-- The directory entry that covers `va`. -/
def pde_of (m : Nat → Nat) (pgdir va : Nat) : Nat := rd32 m (pgdir + 4 * PDX va)

/-- The address of the leaf entry of `va` in the table the directory entry
points to. -/
def pte_addr (m : Nat → Nat) (pgdir va : Nat) : Nat := PTE_ADDR (pde_of m pgdir va) + 4 * PTX va

/-- The directory entry of `va` is a present huge entry. -/
def is_huge (m : Nat → Nat) (pgdir va : Nat) : Prop :=
  pde_of m pgdir va &&& PTE_P ≠ 0 ∧ pde_of m pgdir va &&& PTE_PS ≠ 0

/-- The tile that covers `va` is present and user-accessible in the sense of
`uva2ka`, and well formed: the frame is not the null address, the frame of a
huge tile is 4 MiB aligned, the table of a small tile is not at the null
address. -/
def user_tile (m : Nat → Nat) (pgdir va : Nat) : Prop :=
  pde_of m pgdir va &&& PTE_P ≠ 0 ∧
  (if pde_of m pgdir va &&& PTE_PS ≠ 0 then
    pde_of m pgdir va &&& PTE_U ≠ 0 ∧ PTE_ADDR (pde_of m pgdir va) ≠ 0 ∧
      PTE_ADDR (pde_of m pgdir va) % MAXPGSIZE = 0
   else
    pte_addr m pgdir va ≠ 0 ∧ rd32 m (pte_addr m pgdir va) &&& PTE_P ≠ 0 ∧
      rd32 m (pte_addr m pgdir va) &&& PTE_U ≠ 0 ∧
      PTE_ADDR (rd32 m (pte_addr m pgdir va)) ≠ 0)

/-- What `copyout` needs of the address space and of the buffer `[p, p + len)`
to copy to `[va, va + len)`: the range does not wrap, every tile under it is a
user tile, no byte of the range is backed by a byte of the directory entries
and leaf entries that map the range or by a byte of the buffer, and different
bytes of the range are backed by different bytes of memory. -/
structure CopyoutPre (m : Nat → Nat) (pgdir va p len : Nat) : Prop where
  nowrap : va + len ≤ 2 ^ 32
  tiles : ∀ j < len, user_tile m pgdir (va + j)
  sep_pde : ∀ i < len, ∀ j < len, ∀ b < 4,
    translate m pgdir (va + j) ≠ some (pgdir + 4 * PDX (va + i) + b)
  sep_pte : ∀ i < len, ∀ j < len, ∀ b < 4, pde_of m pgdir (va + i) &&& PTE_PS = 0 →
    translate m pgdir (va + j) ≠ some (pte_addr m pgdir (va + i) + b)
  sep_buf : ∀ i < len, ∀ j < len, translate m pgdir (va + j) ≠ some (p + i)
  inj : ∀ i < len, ∀ j < len,
    translate m pgdir (va + i) = translate m pgdir (va + j) → i = j

instance user_tile_decidable (m : Nat → Nat) (pgdir va : Nat) :
    Decidable (user_tile m pgdir va) := by
  unfold user_tile
  infer_instance

/-- Every block on a free list of an order up to `MAXSIZE` satisfies `P order address`. -/
def FreeAll (P : Nat → Nat → Prop) (s : FreeAreaList) : Prop :=
  ∀ k, k ≤ MAXSIZE → ∀ q ∈ s.free_list k, P k q

/-! ## Concrete machines used to evaluate the code -/

/-- An end of the kernel image: the allocator region then starts at `0x1400000`. -/
def ex_kend : Nat := 0x10A0000

/-- A value for the constant `USERTOP` of the missing headers (16 MiB). -/
def ex_USERTOP : Nat := 0x1000000

/-- A `PHYSTOP` that leaves one huge block, `0x1400000`. -/
def ex_PHYSTOP1 : Nat := 0x1800000

/-- A `PHYSTOP` that leaves four huge blocks, `0x1400000` to `0x2000000`. -/
def ex_PHYSTOP4 : Nat := 0x2400000

/-- One huge block of which only the page `0x1401000` is still free: the page
`0x1400000` and the blocks of 2 MiB, 1 MiB, …, 8 KiB next to it are allocated. -/
def ex_one_page_left : FreeAreaList :=
  alloc_many ex_kend (buddy_init ex_kend ex_PHYSTOP1)
    [4096, 0x200000, 0x100000, 0x80000, 0x40000, 0x20000, 0x10000, 0x8000, 0x4000, 0x2000]

/-- Zeroed memory with the allocator of `ex_one_page_left`; the page `0x1400000`
serves as an empty page directory. -/
def ex_state_one_page : KState := { mem := fun _ => 0, fal := ex_one_page_left, freed := [] }

/-- Four huge blocks, the page `0x1400000` allocated as an empty page directory. -/
def ex_state_fresh : KState :=
  { mem := fun _ => 0, fal := alloc_state ex_kend (buddy_init ex_kend ex_PHYSTOP4) 4096,
    freed := [] }

/-- The address space `0x1400000` after `allocuvm(pgdir, 0, 4 MiB)`: one huge
tile at virtual 0, backed by the block `0x1800000`. -/
def ex_state_huge : KState :=
  result_state ex_state_fresh
    (allocuvm ex_kend ex_PHYSTOP4 ex_USERTOP ex_state_fresh 0x1400000 0 0x400000)

/-- Then `allocuvm(pgdir, 4 MiB, 4 MiB + 4 KiB)`: a small tile at virtual 4 MiB,
backed by the page `0x1401000` (its table is the page `0x1402000`). -/
def ex_state_mixed : KState :=
  result_state ex_state_huge
    (allocuvm ex_kend ex_PHYSTOP4 ex_USERTOP ex_state_huge 0x1400000 0x400000 0x401000)

/-- Then a stack page below `USERTOP`, the byte `0x77` stored at virtual
`0x1000` (physical `0x1801000`) and the byte `0x5A` at virtual 4 MiB (physical
`0x1401000`). -/
def ex_state_parent : KState :=
  let st := result_state ex_state_mixed
    (allocuvm ex_kend ex_PHYSTOP4 ex_USERTOP ex_state_mixed 0x1400000 (ex_USERTOP - 4096)
      ex_USERTOP)
  { st with mem := Function.update (Function.update st.mem 0x1801000 0x77) 0x1401000 0x5A }

/-- Then a zeroed page `0x1405000` from `kalloc` as the directory of the child
(what `setupkvm` returns, without the kernel part). -/
def ex_state_child_dir : KState :=
  let st := result_state ex_state_parent (kalloc ex_kend ex_state_parent)
  { st with mem := memset st.mem 0x1405000 0 PGSIZE }

/-- The address space of `ex_state_mixed` with a kernel buffer of 32 bytes
`1, 2, …, 32` at `0x1410000`. -/
def ex_state_copyout : KState :=
  { ex_state_mixed with
    mem := fun x => if 0x1410000 ≤ x ∧ x < 0x1410000 + 32 then x - 0x1410000 + 1
      else ex_state_mixed.mem x }

/-! ## Further helpers and machines -/

/-- The fault of a computation that has no result. -/
def fault_of {α : Type} (r : Except Fault α) : Option Fault :=
  match r with
  | .error e => some e
  | .ok _ => none

/-- The state a computation without a value returns (`st` when it has none). -/
def state_of (st : KState) (r : Except Fault KState) : KState :=
  match r with
  | .ok st1 => st1
  | .error _ => st

/-- Two huge blocks, `0x1400000` and `0x1800000`. -/
def ex_PHYSTOP2 : Nat := 0x1C00000

/-- Two huge blocks with one live allocation of two pages at `0x1400000`. -/
def ex_state_two_pages_live : KState :=
  { mem := fun _ => 0, fal := alloc_state ex_kend (buddy_init ex_kend ex_PHYSTOP2) 0x2000,
    freed := [] }

/-- The leaf tables of the directory are pages of their own: the table of a
present directory entry without the page-size bit is not the directory page,
and no other slot with such an entry has the same table. -/
def TablesApart (m : Nat → Nat) (pgdir : Nat) : Prop :=
  ∀ k, k < NPDENTRIES → rd32 m (pgdir + 4 * k) &&& PTE_P ≠ 0 →
    rd32 m (pgdir + 4 * k) &&& PTE_PS = 0 →
    PTE_ADDR (rd32 m (pgdir + 4 * k)) ≠ pgdir ∧
    ∀ k2, k2 < NPDENTRIES → k2 ≠ k → rd32 m (pgdir + 4 * k2) &&& PTE_P ≠ 0 →
      rd32 m (pgdir + 4 * k2) &&& PTE_PS = 0 →
      PTE_ADDR (rd32 m (pgdir + 4 * k2)) ≠ PTE_ADDR (rd32 m (pgdir + 4 * k))

/-- Two huge blocks, the pages `0x1400000`, `0x1401000` and `0x1402000`
allocated.  The page `0x1400000` is a page directory whose entry 1 points to the
table `0x1402000`, whose entry 0 maps virtual 4 MiB to the frame `0x1401000`. -/
def ex_state_small_tile : KState :=
  { mem := wr32 (wr32 (fun _ => 0) 0x1400004 (0x1402000 ||| PTE_P ||| PTE_W ||| PTE_U))
      0x1402000 (0x1401000 ||| (PTE_W ||| PTE_U) ||| PTE_P),
    fal := alloc_many ex_kend (buddy_init ex_kend ex_PHYSTOP2) [4096, 4096, 4096],
    freed := [] }

/-- The block of order `k` at `q` is a run of whole pages below 4 GiB, not at
the null address, that overlaps neither the page of the directory `pgdir` nor
the page `T`. -/
def block_apart (pgdir T k q : Nat) : Prop :=
  q % PGSIZE = 0 ∧ q ≠ 0 ∧ q + BLOCKSIZE k ≤ 2 ^ 32 ∧
    (q + BLOCKSIZE k ≤ pgdir ∨ pgdir + PGSIZE ≤ q) ∧ (q + BLOCKSIZE k ≤ T ∨ T + PGSIZE ≤ q)

instance block_apart_decidable (pgdir T k q : Nat) : Decidable (block_apart pgdir T k q) := by
  unfold block_apart
  infer_instance

/-- The directory entry of `a`, when it is present, is not huge, its table is
not at the null address and not the directory, and its table is the page `T`
only in the slot of `v`. -/
def DirOK (m : Nat → Nat) (pgdir T v a : Nat) : Prop :=
  pde_of m pgdir a &&& PTE_P ≠ 0 →
    pde_of m pgdir a &&& PTE_PS = 0 ∧ PTE_ADDR (pde_of m pgdir a) ≠ pgdir ∧
      (PTE_ADDR (pde_of m pgdir a) = T → PDX a = PDX v) ∧ PTE_ADDR (pde_of m pgdir a) ≠ 0

instance freeAll_decidable (P : Nat → Nat → Prop) [∀ k q, Decidable (P k q)]
    (s : FreeAreaList) : Decidable (FreeAll P s) := by
  unfold FreeAll
  infer_instance

instance dirOK_decidable (m : Nat → Nat) (pgdir T v a : Nat) :
    Decidable (DirOK m pgdir T v a) := by
  unfold DirOK
  infer_instance

/-- The address of the buddy of the block of order `k` at `q`, as `buddy_free`
computes it: `buddy_address = get_address(buddy_index, k)`, the other half of
the block of order `k + 1` around `q`. -/
def buddy_address (kend q k : Nat) : Nat :=
  get_address kend (buddy_of (get_index kend q k)) k

/-- Every block on a free list below the top order has a buddy whose allocated
bit is set (the buddy is allocated or split). -/
def Pair (kend : Nat) (s : FreeAreaList) : Prop :=
  ∀ k, k < MAXSIZE → ∀ q ∈ s.free_list k, Abit s k (buddy_of (get_index kend q k)) = true

/-! ## Sequences of page allocations and the bookkeeping of the coalesce chain -/

/-- The pointers of `n` consecutive calls `buddy_alloc(PGSIZE)` in call order and
the state after the last call; `none` when one of the calls has no result. -/
def alloc_pages (kend : Nat) : Nat → FreeAreaList → Option (List Nat × FreeAreaList)
  | 0, s => some ([], s)
  | n + 1, s =>
    match buddy_alloc kend s PGSIZE with
    | none => none
    | some (p, s1) =>
      match alloc_pages kend n s1 with
      | none => none
      | some (ps, s2) => some (p :: ps, s2)

/-- The state after `buddy_free` of the pointers of a list, in list order. -/
def free_pages (kend : Nat) (s : FreeAreaList) (ps : List Nat) : FreeAreaList :=
  ps.foldl (fun t p => buddy_free kend t p) s

/-- The `n` pages `X`, `X + PGSIZE`, … in ascending order. -/
def pages (X n : Nat) : List Nat := (List.range n).map (fun t => X + t * PGSIZE)

/-- State `t` has the free lists and the bits of state `s`. -/
structure Obs (s t : FreeAreaList) : Prop where
  lists : ∀ k, t.free_list k = s.free_list k
  abits : ∀ k j, Abit t k j = Abit s k j
  sbits : ∀ k j, Sbit t k j = Sbit s k j

/-- Block `i` of order `k` lies inside the block of order `j` at `X`. -/
def InSub (kend X j k i : Nat) : Prop := k ≤ j ∧ i / 2 ^ (j - k) = get_index kend X j

/-- The block of order `j` at `X` heads `free_list[j]`, the lists below are
empty, nothing is marked inside the block, its buddy is marked allocated and
its parent is marked split. -/
structure Ready (kend : Nat) (s : FreeAreaList) (j X : Nat) (rest : List Nat) : Prop where
  lt : j < MAXSIZE
  low : ∀ k, k < j → s.free_list k = []
  head : s.free_list j = X :: rest
  al : Aligned kend j X
  bud : Abit s j (buddy_of (get_index kend X j)) = true
  clear : ∀ k i, InSub kend X j k i → Abit s k i = false ∧ Sbit s k i = false
  par : Sbit s (j + 1) (get_index kend X (j + 1)) = true

/-- State `u` differs from `s` only inside the block of order `j` at `X`, which
has left `free_list[j]`. -/
structure Frame (kend : Nat) (s u : FreeAreaList) (j X : Nat) (rest : List Nat) : Prop where
  lists : ∀ k, u.free_list k = if k = j then rest else s.free_list k
  bits : ∀ k i, ¬ InSub kend X j k i → Abit u k i = Abit s k i ∧ Sbit u k i = Sbit s k i

/-- State `t` while the first page of the block of order `j` at `X` is put back
and the loop of `buddy_free` has reached order `i`: the right halves of the
orders `i..j-1` are on their lists, the allocated bits of `X` are set at the
orders `i..j` and its split bits at the orders `i+1..j`. -/
structure Unwind (kend : Nat) (s t : FreeAreaList) (j X : Nat) (rest : List Nat) (i : Nat) :
    Prop where
  lists : ∀ k, t.free_list k =
    if k = j then rest else if i ≤ k ∧ k < j then [X + BLOCKSIZE k] else s.free_list k
  abits : ∀ k i2, Abit t k i2 =
    if i ≤ k ∧ k ≤ j ∧ get_index kend X k = i2 then true else Abit s k i2
  sbits : ∀ k i2, Sbit t k i2 =
    if i < k ∧ k ≤ j ∧ get_index kend X k = i2 then true else Sbit s k i2

/-- State `u` after the first `2 ^ i` pages of the block of order `j` at `X` were
handed out: the right halves of the orders `i..j-1` are untouched and on their
lists, their left neighbours are marked, and nothing changed outside the block. -/
structure Mid (kend : Nat) (s u : FreeAreaList) (j X : Nat) (rest : List Nat) (i : Nat) :
    Prop where
  lists : ∀ k, u.free_list k =
    if k = j then rest else if i ≤ k ∧ k < j then [X + BLOCKSIZE k] else s.free_list k
  bits : ∀ k i2, ¬ InSub kend X j k i2 → Abit u k i2 = Abit s k i2 ∧ Sbit u k i2 = Sbit s k i2
  clear : ∀ k, i ≤ k → k < j → ∀ k2 i2, InSub kend (X + BLOCKSIZE k) k k2 i2 →
    Abit u k2 i2 = false ∧ Sbit u k2 i2 = false
  left : ∀ k, i ≤ k → k < j → Abit u k (get_index kend X k) = true
  par : ∀ k, i ≤ k → k < j → Sbit u (k + 1) (get_index kend X (k + 1)) = true

/-- The first `2 ^ i` calls `buddy_alloc(PGSIZE)` return the first `2 ^ i` pages
of the block of order `j` at `X`, and `buddy_free` of these pages in reverse
order gives back the lists and bits of `s`. -/
def Prefix (kend : Nat) (s : FreeAreaList) (j X : Nat) (rest : List Nat) (i : Nat) : Prop :=
  ∃ u, alloc_pages kend (2 ^ i) s = some (pages X (2 ^ i), u) ∧ Mid kend s u j X rest i ∧
    ∀ t, Obs u t → Obs s (free_pages kend t (pages X (2 ^ i)).reverse)

/-- The `2 ^ j` calls `buddy_alloc(PGSIZE)` return the pages of the block of
order `j` at `X` in ascending order, and `buddy_free` of these pages in reverse
order gives back the lists and bits of `s`. -/
def Cycle (kend : Nat) (s : FreeAreaList) (j X : Nat) (rest : List Nat) : Prop :=
  ∃ u, alloc_pages kend (2 ^ j) s = some (pages X (2 ^ j), u) ∧ Frame kend s u j X rest ∧
    ∀ t, Obs u t → Obs s (free_pages kend t (pages X (2 ^ j)).reverse)

/-- A region of two huge blocks after `buddy_alloc(0x8000)`: the block of eight
pages at `0x1408000` heads `free_list[3]` and the lists below are empty. -/
def ex_eight_pages_free : FreeAreaList :=
  alloc_state ex_kend (buddy_init ex_kend ex_PHYSTOP2) 0x8000

/-! ## Intrusive lists as linked nodes

The allocator model above keeps a free list as the list of its nodes.  Here the
nodes themselves are modelled: `next a` is the field `a->next` of the node at
address `a`, and 0 is the null pointer. -/

/-- The loop of `list_remove`, `while(temp && temp->next != p) temp = temp->next;`:
the final `temp`; `none` when the loop does not end. -/
def list_remove_walk (next : Nat → Nat) (p : Nat) : Nat → Nat → Option Nat
  | 0, _ => none
  | fuel + 1, temp =>
    if temp ≠ 0 ∧ next temp ≠ p then list_remove_walk next p fuel (next temp) else some temp

/-- Source `list_remove` on the linked nodes: the head pointer `*n` and the
`next` fields after the call.  `if(temp == p) { list_pop(n); return; }` reads
`(*n)->next`; after the loop `if(!temp) return;` and then
`temp->next = temp->next->next`.  The result is `none` when the call reads
through the null pointer or when the loop does not end. -/
def list_remove_nodes (next : Nat → Nat) (head p fuel : Nat) : Option (Nat × (Nat → Nat)) :=
  if head = p then
    if head = 0 then none else some (next head, next)
  else
    match list_remove_walk next p fuel head with
    | none => none
    | some temp =>
      if temp = 0 then some (head, next)
      else if next temp = 0 then none
      else some (head, Function.update next temp (next (next temp)))

/-- The chain of nodes that starts at `head` is the list `l`: every node is
non-null, each `next` field points to the node after it and the last one holds
the null pointer. -/
def Linked (next : Nat → Nat) : Nat → List Nat → Prop
  | head, [] => head = 0
  | head, a :: rest => head = a ∧ a ≠ 0 ∧ Linked next (next a) rest

/-- Three nodes linked in the order `0x1000`, `0x2000`, `0x3000`. -/
def ex_next : Nat → Nat := fun a =>
  if a = 0x1000 then 0x2000 else if a = 0x2000 then 0x3000 else 0

/-! ## Well-formed address spaces for `mappages` -/

/-- The block of order `k` at `q` is a run of whole pages below 4 GiB, not at
the null address, that overlaps neither the page of the directory `pgdir` nor
the table of a present directory entry without the page-size bit. -/
def table_free_block (m : Nat → Nat) (pgdir k q : Nat) : Prop :=
  q % PGSIZE = 0 ∧ q ≠ 0 ∧ q + BLOCKSIZE k ≤ 2 ^ 32 ∧
    (q + BLOCKSIZE k ≤ pgdir ∨ pgdir + PGSIZE ≤ q) ∧
    ∀ i, i < NPDENTRIES → rd32 m (pgdir + 4 * i) &&& PTE_P ≠ 0 →
      rd32 m (pgdir + 4 * i) &&& PTE_PS = 0 →
      q + BLOCKSIZE k ≤ PTE_ADDR (rd32 m (pgdir + 4 * i)) ∨
        PTE_ADDR (rd32 m (pgdir + 4 * i)) + PGSIZE ≤ q

/-- No free list of an order up to `MAXSIZE` holds a block twice, and different
free blocks do not overlap. -/
def FreeDisjoint (s : FreeAreaList) : Prop :=
  (∀ k, k ≤ MAXSIZE → (s.free_list k).Nodup) ∧
  ∀ k, k ≤ MAXSIZE → ∀ q ∈ s.free_list k, ∀ k2, k2 ≤ MAXSIZE → ∀ q2 ∈ s.free_list k2,
    (k ≠ k2 ∨ q ≠ q2) → range_disjoint q (BLOCKSIZE k) q2 (BLOCKSIZE k2)

instance table_free_block_decidable (m : Nat → Nat) (pgdir k q : Nat) :
    Decidable (table_free_block m pgdir k q) := by
  unfold table_free_block
  infer_instance

instance freeDisjoint_decidable (s : FreeAreaList) : Decidable (FreeDisjoint s) := by
  unfold FreeDisjoint range_disjoint
  infer_instance

/-- Page `a` is mapped through a leaf entry: its directory entry is present
without the page-size bit and its leaf entry is present. -/
def mapped_small (m : Nat → Nat) (pgdir a : Nat) : Prop :=
  pde_of m pgdir a &&& PTE_P ≠ 0 ∧ pde_of m pgdir a &&& PTE_PS = 0 ∧
    rd32 m (pte_addr m pgdir a) &&& PTE_P ≠ 0

/-- The frame in the leaf entry of page `a`. -/
def frame_of (m : Nat → Nat) (pgdir a : Nat) : Nat := PTE_ADDR (rd32 m (pte_addr m pgdir a))

/-- Page `T` is the table of a present directory entry without the page-size
bit. -/
def is_table (m : Nat → Nat) (pgdir T : Nat) : Prop :=
  ∃ k, k < NPDENTRIES ∧ rd32 m (pgdir + 4 * k) &&& PTE_P ≠ 0 ∧
    rd32 m (pgdir + 4 * k) &&& PTE_PS = 0 ∧ PTE_ADDR (rd32 m (pgdir + 4 * k)) = T

instance mapped_small_decidable (m : Nat → Nat) (pgdir a : Nat) :
    Decidable (mapped_small m pgdir a) := by
  unfold mapped_small
  infer_instance

/-- No `buddy_free` between the allocator states `s` and `s2` stored past the
array `free_areas[MAXORDER]`: such a store puts a block on `free_list MAXORDER`
of the embedding, and no code takes a block from there. -/
def frees_in_array (s s2 : FreeAreaList) : Prop :=
  s2.free_list MAXORDER = s.free_list MAXORDER

instance frees_in_array_decidable (s s2 : FreeAreaList) : Decidable (frees_in_array s s2) := by
  unfold frees_in_array
  infer_instance

/-- The page tables in memory `m` under the directory `pgdir`, the allocator
state `s` and the blocks `owned` by callers of the allocator fit together over
the pages of `[lo, hi)`: the directory and the tables are owned pages of their
own, the frame of a page of the range that is mapped through a leaf entry is an
owned page inside `[kend, PHYSTOP)` that is neither the directory nor a table
nor the frame of another page of the range, and the frame of a huge entry that
covers a page of the range is an owned block of the top order inside
`[kend, PHYSTOP)`. -/
structure SpaceWF (kend PHYSTOP : Nat) (m : Nat → Nat) (s : FreeAreaList)
    (owned : List (Nat × Nat)) (pgdir lo hi : Nat) : Prop where
  inv : Inv kend s owned
  dir : (pgdir, 0) ∈ owned
  apart : TablesApart m pgdir
  tab : ∀ T, is_table m pgdir T → (T, 0) ∈ owned
  frm : ∀ a, a % PGSIZE = 0 → lo ≤ a → a < hi → mapped_small m pgdir a →
    (frame_of m pgdir a, 0) ∈ owned ∧ frame_of m pgdir a < PHYSTOP ∧
      frame_of m pgdir a ≠ pgdir ∧ ¬ is_table m pgdir (frame_of m pgdir a)
  inj : ∀ a b, a % PGSIZE = 0 → b % PGSIZE = 0 → lo ≤ a → a < hi → lo ≤ b → b < hi →
    mapped_small m pgdir a → mapped_small m pgdir b →
    frame_of m pgdir a = frame_of m pgdir b → a = b
  huge : ∀ a, a % PGSIZE = 0 → lo ≤ a → a < hi → pde_of m pgdir a &&& PTE_P ≠ 0 →
    pde_of m pgdir a &&& PTE_PS ≠ 0 →
    (PTE_ADDR (pde_of m pgdir a), MAXSIZE) ∈ owned ∧ PTE_ADDR (pde_of m pgdir a) < PHYSTOP

/-- The kernel state `st` holds a well-formed address space over the pages of
`[lo, hi)`: the allocator state is one that `buddy_alloc` and `buddy_free` reach
from `buddy_init` with the live allocations `live`; the directory `pgdir` and
the tables of its present entries without the page-size bit are live pages
(from `kalloc`), each table under one slot only; the frame of a page of the
range that is mapped through a leaf entry is a live page that is neither the
directory nor a table nor the frame of another page of the range; the frame of
a huge entry that covers a page of the range is a live block of `MAXPGSIZE`
bytes. -/
structure SpaceLive (kend PHYSTOP : Nat) (st : KState) (live : List (Nat × Nat))
    (pgdir lo hi : Nat) : Prop where
  reach : Reach kend PHYSTOP st.fal live
  dir : (pgdir, PGSIZE) ∈ live
  apart : TablesApart st.mem pgdir
  tab : ∀ T, is_table st.mem pgdir T → (T, PGSIZE) ∈ live
  frm : ∀ a, a % PGSIZE = 0 → lo ≤ a → a < hi → mapped_small st.mem pgdir a →
    (frame_of st.mem pgdir a, PGSIZE) ∈ live ∧
      frame_of st.mem pgdir a ≠ pgdir ∧ ¬ is_table st.mem pgdir (frame_of st.mem pgdir a)
  inj : ∀ a b, a % PGSIZE = 0 → b % PGSIZE = 0 → lo ≤ a → a < hi → lo ≤ b → b < hi →
    mapped_small st.mem pgdir a → mapped_small st.mem pgdir b →
    frame_of st.mem pgdir a = frame_of st.mem pgdir b → a = b
  huge : ∀ a, a % PGSIZE = 0 → lo ≤ a → a < hi → pde_of st.mem pgdir a &&& PTE_P ≠ 0 →
    pde_of st.mem pgdir a &&& PTE_PS ≠ 0 →
    (PTE_ADDR (pde_of st.mem pgdir a), MAXPGSIZE) ∈ live

/-- The top-order block that holds the address `q` ends at or below `PHYSTOP`:
it is one of the blocks that `buddy_init` threads into `free_areas[MAXSIZE]`. -/
def top_in (kend PHYSTOP q : Nat) : Prop :=
  get_address kend (get_index kend q MAXSIZE) MAXSIZE + MAXPGSIZE ≤ PHYSTOP

/-- The block of order `k` at `q` is a block of the region of the allocator: it
starts a block of its order inside a top-order block that ends at or below
`PHYSTOP`. -/
def region_in (kend PHYSTOP k q : Nat) : Prop :=
  k ≤ MAXSIZE ∧ Aligned kend k q ∧ top_in kend PHYSTOP q

/-- The block of order `k` at `q` ends at or below `PHYSTOP`. -/
def region_block (PHYSTOP k q : Nat) : Prop := q + BLOCKSIZE k ≤ PHYSTOP

instance region_block_decidable (PHYSTOP k q : Nat) : Decidable (region_block PHYSTOP k q) := by
  unfold region_block
  infer_instance

theorem and_seven (i : Nat) : i &&& 7 = i % 8 := Nat.and_pow_two_sub_one_eq_mod i 3

theorem shr_three (i : Nat) : i >>> 3 = i / 8 := Nat.shiftRight_eq_div_pow i 3

theorem char_to_int_mod (x : Nat) : char_to_int (x % 256) = char_to_int x := by
  simp [char_to_int]

set_option maxRecDepth 100000 in
theorem byte_set_get : ∀ a < 256, ∀ k < 8, ∀ l < 8,
    ((char_to_int ((char_to_int a ||| char_to_int ((1 <<< k) % 256)) % 256) &&&
        char_to_int ((1 <<< l) % 256)) == char_to_int ((1 <<< l) % 256)) =
      (if k = l then true
       else ((char_to_int a &&& char_to_int ((1 <<< l) % 256)) ==
          char_to_int ((1 <<< l) % 256))) := by
  decide

set_option maxRecDepth 100000 in
theorem byte_clear_get : ∀ a < 256, ∀ k < 8, ∀ l < 8,
    ((char_to_int ((char_to_int a &&& (2 ^ 32 - 1 - char_to_int ((1 <<< k) % 256))) % 256) &&&
        char_to_int ((1 <<< l) % 256)) == char_to_int ((1 <<< l) % 256)) =
      (if k = l then false
       else ((char_to_int a &&& char_to_int ((1 <<< l) % 256)) ==
          char_to_int ((1 <<< l) % 256))) := by
  decide

theorem index_eq_iff (i j : Nat) (h : j / 8 = i / 8) : i % 8 = j % 8 ↔ i = j := by
  constructor
  · intro h2
    omega
  · intro h2
    rw [h2]

theorem bit_is_set_set_bit (arr : Nat → Nat) (i j : Nat) :
    bit_is_set (set_bit arr i) j = (if i = j then true else bit_is_set arr j) := by
  unfold bit_is_set set_bit bit_mask
  simp only [Function.update_apply, and_seven, shr_three]
  by_cases hb : j / 8 = i / 8
  · rw [if_pos hb]
    have h := byte_set_get (arr (i / 8) % 256) (Nat.mod_lt _ (by norm_num)) (i % 8)
      (Nat.mod_lt _ (by norm_num)) (j % 8) (Nat.mod_lt _ (by norm_num))
    simp only [char_to_int_mod, index_eq_iff i j hb] at h ⊢
    rw [hb]
    exact h
  · rw [if_neg hb]
    have hne : i ≠ j := fun h => hb (by rw [h])
    simp [hne]

theorem bit_is_set_clear_bit (arr : Nat → Nat) (i j : Nat) :
    bit_is_set (clear_bit arr i) j = (if i = j then false else bit_is_set arr j) := by
  unfold bit_is_set clear_bit bit_mask
  simp only [Function.update_apply, and_seven, shr_three]
  by_cases hb : j / 8 = i / 8
  · rw [if_pos hb]
    have h := byte_clear_get (arr (i / 8) % 256) (Nat.mod_lt _ (by norm_num)) (i % 8)
      (Nat.mod_lt _ (by norm_num)) (j % 8) (Nat.mod_lt _ (by norm_num))
    simp only [char_to_int_mod, index_eq_iff i j hb] at h ⊢
    rw [hb]
    exact h
  · rw [if_neg hb]
    have hne : i ≠ j := fun h => hb (by rw [h])
    simp [hne]

theorem bit_is_set_zero (i : Nat) : bit_is_set (fun _ => 0) i = false := by
  unfold bit_is_set bit_mask
  simp only [and_seven]
  have : ∀ k < 8, ((char_to_int 0 &&& char_to_int ((1 <<< k) % 256)) ==
      char_to_int ((1 <<< k) % 256)) = false := by decide
  exact this (i % 8) (Nat.mod_lt _ (by norm_num))

/-! ## Arithmetic of block addresses and indices -/

theorem BLOCKSIZE_pos (o : Nat) : 0 < BLOCKSIZE o := by
  unfold BLOCKSIZE PGSIZE
  positivity

theorem BLOCKSIZE_succ (o : Nat) : BLOCKSIZE (o + 1) = 2 * BLOCKSIZE o := by
  unfold BLOCKSIZE
  rw [pow_succ]
  ring

theorem BLOCKSIZE_add (o d : Nat) : BLOCKSIZE (o + d) = BLOCKSIZE o * 2 ^ d := by
  unfold BLOCKSIZE
  rw [pow_add]
  ring

theorem get_index_get_address (kend j k : Nat) :
    get_index kend (get_address kend j k) k = j := by
  unfold get_index get_address
  rw [Nat.add_sub_cancel_left]
  exact Nat.mul_div_cancel j (BLOCKSIZE_pos k)

theorem get_address_get_index (kend k q : Nat) (h : Aligned kend k q) :
    get_address kend (get_index kend q k) k = q := by
  obtain ⟨j, rfl⟩ := h
  rw [get_index_get_address]

/-- The index of the ancestor of order `k + d`. -/
theorem get_index_add (kend q k d : Nat) :
    get_index kend q (k + d) = get_index kend q k / 2 ^ d := by
  unfold get_index
  rw [BLOCKSIZE_add, Nat.div_div_eq_div_mul]

theorem get_index_of_le (kend q k k2 : Nat) (h : k ≤ k2) :
    get_index kend q k2 = get_index kend q k / 2 ^ (k2 - k) := by
  have := get_index_add kend q k (k2 - k)
  rwa [Nat.add_sub_cancel' h] at this

theorem get_address_inj (kend k j1 j2 : Nat) (h : get_address kend j1 k = get_address kend j2 k) :
    j1 = j2 := by
  have := congrArg (fun q => get_index kend q k) h
  simpa [get_index_get_address] using this

theorem aligned_eq_of_index (kend k p q : Nat) (hp : Aligned kend k p) (hq : Aligned kend k q)
    (h : get_index kend p k = get_index kend q k) : p = q := by
  rw [← get_address_get_index kend k p hp, ← get_address_get_index kend k q hq, h]

theorem get_address_two_mul (kend j k : Nat) :
    get_address kend (2 * j) k = get_address kend j (k + 1) := by
  unfold get_address
  rw [BLOCKSIZE_succ]
  ring

theorem get_address_succ (kend j k : Nat) :
    get_address kend (j + 1) k = get_address kend j k + BLOCKSIZE k := by
  unfold get_address
  ring

theorem aligned_pred (kend k q : Nat) (h : Aligned kend (k + 1) q) : Aligned kend k q := by
  obtain ⟨j, rfl⟩ := h
  exact ⟨2 * j, (get_address_two_mul kend j k).symm⟩

theorem aligned_right_half (kend k q : Nat) (h : Aligned kend (k + 1) q) :
    Aligned kend k (q + BLOCKSIZE k) := by
  obtain ⟨j, rfl⟩ := h
  refine ⟨2 * j + 1, ?_⟩
  rw [get_address_succ, get_address_two_mul]

theorem get_index_right_half (kend k q : Nat) (h : Aligned kend (k + 1) q) :
    get_index kend (q + BLOCKSIZE k) k = get_index kend q k + 1 := by
  obtain ⟨j, rfl⟩ := h
  rw [← get_address_two_mul, ← get_address_succ, get_index_get_address, get_index_get_address]

theorem get_index_left_half (kend k q : Nat) (h : Aligned kend (k + 1) q) :
    get_index kend q k = 2 * get_index kend q (k + 1) := by
  obtain ⟨j, rfl⟩ := h
  rw [get_index_get_address, ← get_address_two_mul, get_index_get_address]

/-- Descendants of a descendant are descendants. -/
theorem div_pow_trans (j2 a b : Nat) : j2 / 2 ^ (a + b) = j2 / 2 ^ a / 2 ^ b := by
  rw [pow_add, Nat.div_div_eq_div_mul]

/-! ## Reading the bitmaps and lists after an update -/

@[simp] theorem with_free_list_free_list (s : FreeAreaList) (i : Nat) (l : List Nat) (k : Nat) :
    (s.with_free_list i l).free_list k = if k = i then l else s.free_list k := by
  simp [FreeAreaList.with_free_list, Function.update_apply]

@[simp] theorem with_free_list_allocated (s : FreeAreaList) (i : Nat) (l : List Nat) :
    (s.with_free_list i l).allocated = s.allocated := rfl

@[simp] theorem with_free_list_split (s : FreeAreaList) (i : Nat) (l : List Nat) :
    (s.with_free_list i l).split = s.split := rfl

@[simp] theorem with_allocated_free_list (s : FreeAreaList) (i : Nat) (arr : Nat → Nat) :
    (s.with_allocated i arr).free_list = s.free_list := rfl

@[simp] theorem with_allocated_split (s : FreeAreaList) (i : Nat) (arr : Nat → Nat) :
    (s.with_allocated i arr).split = s.split := rfl

@[simp] theorem with_split_free_list (s : FreeAreaList) (i : Nat) (arr : Nat → Nat) :
    (s.with_split i arr).free_list = s.free_list := rfl

@[simp] theorem with_split_allocated (s : FreeAreaList) (i : Nat) (arr : Nat → Nat) :
    (s.with_split i arr).allocated = s.allocated := rfl

@[simp] theorem Abit_with_free_list (s : FreeAreaList) (i : Nat) (l : List Nat) (k j : Nat) :
    Abit (s.with_free_list i l) k j = Abit s k j := rfl

@[simp] theorem Sbit_with_free_list (s : FreeAreaList) (i : Nat) (l : List Nat) (k j : Nat) :
    Sbit (s.with_free_list i l) k j = Sbit s k j := rfl

@[simp] theorem Sbit_with_allocated (s : FreeAreaList) (i : Nat) (arr : Nat → Nat) (k j : Nat) :
    Sbit (s.with_allocated i arr) k j = Sbit s k j := rfl

@[simp] theorem Abit_with_split (s : FreeAreaList) (i : Nat) (arr : Nat → Nat) (k j : Nat) :
    Abit (s.with_split i arr) k j = Abit s k j := rfl

theorem Abit_set (s : FreeAreaList) (i j0 k j : Nat) :
    Abit (s.with_allocated i (set_bit (s.allocated i) j0)) k j =
      (if k = i ∧ j0 = j then true else Abit s k j) := by
  unfold Abit FreeAreaList.with_allocated
  simp only [Function.update_apply]
  by_cases hk : k = i
  · subst hk
    simp [bit_is_set_set_bit]
  · simp [hk]

theorem Abit_clear (s : FreeAreaList) (i j0 k j : Nat) :
    Abit (s.with_allocated i (clear_bit (s.allocated i) j0)) k j =
      (if k = i ∧ j0 = j then false else Abit s k j) := by
  unfold Abit FreeAreaList.with_allocated
  simp only [Function.update_apply]
  by_cases hk : k = i
  · subst hk
    simp [bit_is_set_clear_bit]
  · simp [hk]

theorem Sbit_set (s : FreeAreaList) (i j0 k j : Nat) :
    Sbit (s.with_split i (set_bit (s.split i) j0)) k j =
      (if k = i ∧ j0 = j then true else Sbit s k j) := by
  unfold Sbit FreeAreaList.with_split
  simp only [Function.update_apply]
  by_cases hk : k = i
  · subst hk
    simp [bit_is_set_set_bit]
  · simp [hk]

theorem Sbit_clear (s : FreeAreaList) (i j0 k j : Nat) :
    Sbit (s.with_split i (clear_bit (s.split i) j0)) k j =
      (if k = i ∧ j0 = j then false else Sbit s k j) := by
  unfold Sbit FreeAreaList.with_split
  simp only [Function.update_apply]
  by_cases hk : k = i
  · subst hk
    simp [bit_is_set_clear_bit]
  · simp [hk]

theorem Abit_set_mono (s : FreeAreaList) (i j0 k j : Nat) (h : Abit s k j = true) :
    Abit (s.with_allocated i (set_bit (s.allocated i) j0)) k j = true := by
  rw [Abit_set]
  split <;> simp [h]

theorem Sbit_set_mono (s : FreeAreaList) (i j0 k j : Nat) (h : Sbit s k j = true) :
    Sbit (s.with_split i (set_bit (s.split i) j0)) k j = true := by
  rw [Sbit_set]
  split <;> simp [h]

theorem Abit_clear_anti (s : FreeAreaList) (i j0 k j : Nat) (h : Abit s k j = false) :
    Abit (s.with_allocated i (clear_bit (s.allocated i) j0)) k j = false := by
  rw [Abit_clear]
  split <;> simp [h]

theorem Sbit_clear_anti (s : FreeAreaList) (i j0 k j : Nat) (h : Sbit s k j = false) :
    Sbit (s.with_split i (clear_bit (s.split i) j0)) k j = false := by
  rw [Sbit_clear]
  split <;> simp [h]

/-! ## The invariant holds initially and is kept by `buddy_alloc` -/

theorem init_chain_mem (PHYSTOP : Nat) (kend : Nat) : ∀ (fuel j0 q : Nat),
    q ∈ init_chain PHYSTOP fuel (get_address kend j0 MAXSIZE) →
    ∃ j, j0 ≤ j ∧ q = get_address kend j MAXSIZE := by
  intro fuel
  induction fuel with
  | zero => intro j0 q h; simp [init_chain] at h
  | succ fuel ih =>
    intro j0 q h
    unfold init_chain at h
    split at h
    · rcases List.mem_cons.mp h with h1 | h1
      · exact ⟨j0, le_refl _, h1⟩
      · have e : get_address kend j0 MAXSIZE + MAXPGSIZE = get_address kend (j0 + 1) MAXSIZE := by
          rw [get_address_succ]; rfl
        rw [e] at h1
        obtain ⟨j, hj, hq⟩ := ih (j0 + 1) q h1
        exact ⟨j, by omega, hq⟩
    · simp at h

theorem init_chain_nodup (PHYSTOP : Nat) (kend : Nat) : ∀ (fuel j0 : Nat),
    (init_chain PHYSTOP fuel (get_address kend j0 MAXSIZE)).Nodup := by
  intro fuel
  induction fuel with
  | zero => intro j0; simp [init_chain]
  | succ fuel ih =>
    intro j0
    unfold init_chain
    split
    · have e : get_address kend j0 MAXSIZE + MAXPGSIZE = get_address kend (j0 + 1) MAXSIZE := by
        rw [get_address_succ]; rfl
      rw [e]
      refine List.nodup_cons.mpr ⟨?_, ih (j0 + 1)⟩
      intro hmem
      obtain ⟨j, hj, hq⟩ := init_chain_mem PHYSTOP kend fuel (j0 + 1) _ hmem
      have := get_address_inj kend MAXSIZE j0 j hq
      omega
    · exact List.nodup_nil

theorem base_eq_get_address (kend : Nat) : ROUNDUP kend MAXSIZE = get_address kend 0 MAXSIZE := by
  simp [get_address]

theorem Abit_init (kend PHYSTOP k j : Nat) : Abit (buddy_init kend PHYSTOP) k j = false :=
  bit_is_set_zero j

theorem Sbit_init (kend PHYSTOP k j : Nat) : Sbit (buddy_init kend PHYSTOP) k j = false :=
  bit_is_set_zero j

theorem inv_init (kend PHYSTOP : Nat) : Inv kend (buddy_init kend PHYSTOP) [] where
  free_aligned := by
    intro k _ q hq
    simp only [buddy_init] at hq
    split at hq
    · rename_i hk
      subst hk
      rw [base_eq_get_address] at hq
      obtain ⟨j, _, hj⟩ := init_chain_mem PHYSTOP kend _ 0 q hq
      exact ⟨j, hj⟩
    · simp at hq
  own_aligned := by intro q k h; simp at h
  free_anc := by
    intro k _ q hq k2 hlt hle
    simp only [buddy_init] at hq
    split at hq
    · omega
    · simp at hq
  own_anc := by intro q k h; simp at h
  own_alloc := by intro q k h; simp at h
  free_unalloc := by intro k _ q _; exact Abit_init _ _ _ _
  zero := by
    intro k _ j _
    exact ⟨Sbit_init _ _ _ _, fun k2 _ j2 _ => ⟨Abit_init _ _ _ _, Sbit_init _ _ _ _⟩⟩
  nodup_free := by
    intro k _
    simp only [buddy_init]
    split
    · rw [base_eq_get_address]
      exact init_chain_nodup PHYSTOP kend _ 0
    · exact List.nodup_nil
  nodup_owned := by simp

/-- Popping the head of a free list and marking it allocated turns it into an
owned block. -/
theorem inv_pop (kend : Nat) (s : FreeAreaList) (owned : List (Nat × Nat)) (i X : Nat)
    (rest : List Nat) (h : Inv kend s owned) (hi : i ≤ MAXSIZE)
    (hl : s.free_list i = X :: rest) :
    Inv kend ((s.with_free_list i rest).with_allocated i
      (set_bit ((s.with_free_list i rest).allocated i) (get_index kend X i)))
      ((X, i) :: owned) := by
  have hX : X ∈ s.free_list i := by rw [hl]; exact List.mem_cons_self _ _
  have hnd : (X :: rest).Nodup := hl ▸ h.nodup_free i hi
  have hmem : ∀ k q, q ∈ (s.with_free_list i rest).free_list k → q ∈ s.free_list k := by
    intro k q hq
    rw [with_free_list_free_list] at hq
    split at hq
    · rename_i hk
      subst hk
      rw [hl]
      exact List.mem_cons_of_mem _ hq
    · exact hq
  have hAmono : ∀ k j, Abit s k j = true →
      Abit ((s.with_free_list i rest).with_allocated i
        (set_bit ((s.with_free_list i rest).allocated i) (get_index kend X i))) k j = true := by
    intro k j hb
    exact Abit_set_mono (s.with_free_list i rest) i _ k j hb
  constructor
  · intro k hk q hq
    exact h.free_aligned k hk q (hmem k q hq)
  · intro q k hq
    rcases List.mem_cons.mp hq with h1 | h1
    · cases h1
      exact ⟨hi, h.free_aligned i hi X hX⟩
    · exact h.own_aligned q k h1
  · intro k hk q hq k2 hlt hle
    obtain ⟨h1, h2⟩ := h.free_anc k hk q (hmem k q hq) k2 hlt hle
    exact ⟨h1, hAmono _ _ h2⟩
  · intro q k hq k2 hlt hle
    rcases List.mem_cons.mp hq with h1 | h1
    · cases h1
      obtain ⟨h1, h2⟩ := h.free_anc i hi X hX k2 hlt hle
      exact ⟨h1, hAmono _ _ h2⟩
    · obtain ⟨h1, h2⟩ := h.own_anc q k h1 k2 hlt hle
      exact ⟨h1, hAmono _ _ h2⟩
  · intro q k hq
    rcases List.mem_cons.mp hq with h1 | h1
    · cases h1
      rw [Abit_set]
      simp
    · exact hAmono _ _ (h.own_alloc q k h1)
  · intro k hk q hq
    rw [Abit_set]
    have hq2 := hmem k q hq
    split
    · rename_i hc
      obtain ⟨hk2, hj⟩ := hc
      subst hk2
      exfalso
      have e : X = q := aligned_eq_of_index kend k X q (h.free_aligned k hk X hX)
        (h.free_aligned k hk q hq2) hj
      subst e
      rw [with_allocated_free_list, with_free_list_free_list, if_pos rfl] at hq
      exact (List.nodup_cons.mp hnd).1 hq
    · exact h.free_unalloc k hk q hq2
  · intro k hk j hprem
    have hold : Abit s k j = false ∨ ∃ q, (q, k) ∈ owned ∧ get_index kend q k = j := by
      rcases hprem with h1 | ⟨q, hq, hj⟩
      · left
        by_contra hc
        have := hAmono k j (by simpa using hc)
        rw [this] at h1
        exact absurd h1 (by simp)
      · rcases List.mem_cons.mp hq with h2 | h2
        · cases h2
          left
          rw [← hj]
          exact h.free_unalloc i hi X hX
        · exact Or.inr ⟨q, h2, hj⟩
    obtain ⟨hS, hD⟩ := h.zero k hk j hold
    refine ⟨hS, ?_⟩
    intro k2 hk2 j2 hj2
    obtain ⟨hA2, hS2⟩ := hD k2 hk2 j2 hj2
    refine ⟨?_, hS2⟩
    rw [Abit_set]
    split
    · rename_i hc
      obtain ⟨hk3, hj3⟩ := hc
      subst hk3
      exfalso
      have e : get_index kend X k = j := by
        rw [get_index_of_le kend X k2 k (le_of_lt hk2), hj3, hj2]
      have := (h.free_anc k2 hi X hX k hk2 hk).1
      rw [e, hS] at this
      exact absurd this (by simp)
    · exact hA2
  · intro k hk
    rw [with_allocated_free_list, with_free_list_free_list]
    split
    · exact (List.nodup_cons.mp hnd).2
    · exact h.nodup_free k hk
  · rw [List.map_cons, List.nodup_cons]
    refine ⟨?_, h.nodup_owned⟩
    intro hmemX
    obtain ⟨⟨q, k⟩, hqk, hq⟩ := List.mem_map.mp hmemX
    simp only at hq
    subst hq
    have hkle := (h.own_aligned q k hqk).1
    rcases Nat.lt_trichotomy k i with hlt | heq | hgt
    · have := (h.own_anc q k hqk i hlt hi).2
      rw [h.free_unalloc i hi q hX] at this
      exact absurd this (by simp)
    · subst heq
      have := h.own_alloc q k hqk
      rw [h.free_unalloc k hi q hX] at this
      exact absurd this (by simp)
    · have := (h.free_anc i hi q hX k hgt hkle).1
      rw [(h.zero k hkle _ (Or.inr ⟨q, hqk, rfl⟩)).1] at this
      exact absurd this (by simp)

theorem get_index_succ (kend q k : Nat) :
    get_index kend q (k + 1) = get_index kend q k / 2 := by
  have := get_index_add kend q k 1
  simpa using this

theorem get_index_right_half_anc (kend j p k2 : Nat) (h : Aligned kend (j + 1) p)
    (hk : j < k2) : get_index kend (p + BLOCKSIZE j) k2 = get_index kend p k2 := by
  rw [get_index_of_le kend _ (j + 1) k2 hk, get_index_of_le kend p (j + 1) k2 hk]
  congr 1
  rw [get_index_succ, get_index_right_half kend j p h, get_index_left_half kend j p h]
  omega

theorem split_step_free_list (kend p j : Nat) (s : FreeAreaList) (k : Nat) :
    (split_step kend p j s).free_list k =
      if k = j then (p + BLOCKSIZE j) :: s.free_list j else s.free_list k := by
  simp [split_step, list_push]

theorem split_step_Abit (kend p j : Nat) (s : FreeAreaList) (k jj : Nat) :
    Abit (split_step kend p j s) k jj =
      (if k = j ∧ get_index kend p j = jj then true else Abit s k jj) := by
  unfold split_step
  rw [Abit_with_free_list]
  have := Abit_set (s.with_split (j + 1) (set_bit (s.split (j + 1)) (get_index kend p (j + 1))))
    j (get_index kend p j) k jj
  simpa using this

theorem split_step_Sbit (kend p j : Nat) (s : FreeAreaList) (k jj : Nat) :
    Sbit (split_step kend p j s) k jj =
      (if k = j + 1 ∧ get_index kend p (j + 1) = jj then true else Sbit s k jj) := by
  unfold split_step
  rw [Sbit_with_free_list, Sbit_with_allocated, Sbit_set]

theorem split_loop_succ (kend p min d : Nat) (s : FreeAreaList) :
    split_loop kend p min (d + 1) s = split_loop kend p min d (split_step kend p (min + d) s) := by
  simp [split_loop, split_step]

/-- One round of the splitting loop: the owned block of order `j + 1` at `p`
becomes an owned block of order `j` at `p` and a free block of order `j`. -/
theorem inv_split_step (kend : Nat) (s : FreeAreaList) (owned : List (Nat × Nat)) (p j : Nat)
    (h : Inv kend s ((p, j + 1) :: owned)) :
    Inv kend (split_step kend p j s) ((p, j) :: owned) := by
  have hP : (p, j + 1) ∈ (p, j + 1) :: owned := List.mem_cons_self _ _
  have hold : ∀ q k, (q, k) ∈ owned → (q, k) ∈ (p, j + 1) :: owned :=
    fun q k hq => List.mem_cons_of_mem _ hq
  obtain ⟨hj1, hal⟩ := h.own_aligned p (j + 1) hP
  have hPA := h.own_alloc p (j + 1) hP
  obtain ⟨hzS, hzD⟩ := h.zero (j + 1) hj1 _ (Or.inr ⟨p, hP, rfl⟩)
  have hjle : j ≤ MAXSIZE := by omega
  have hidx : get_index kend p j = 2 * get_index kend p (j + 1) := get_index_left_half kend j p hal
  have hidxR : get_index kend (p + BLOCKSIZE j) j = get_index kend p j + 1 :=
    get_index_right_half kend j p hal
  have hAm : ∀ k jj, Abit s k jj = true → Abit (split_step kend p j s) k jj = true := by
    intro k jj hb
    rw [split_step_Abit]
    split <;> simp [hb]
  have hSm : ∀ k jj, Sbit s k jj = true → Sbit (split_step kend p j s) k jj = true := by
    intro k jj hb
    rw [split_step_Sbit]
    split <;> simp [hb]
  have hpj : Abit s j (get_index kend p j) = false := by
    refine (hzD j (by omega) _ ?_).1
    simp only [Nat.add_sub_cancel_left, pow_one]
    omega
  have hRj : Abit s j (get_index kend (p + BLOCKSIZE j) j) = false := by
    refine (hzD j (by omega) _ ?_).1
    simp only [Nat.add_sub_cancel_left, pow_one]
    omega
  have hancP : ∀ k2, j < k2 → k2 ≤ MAXSIZE →
      Sbit (split_step kend p j s) k2 (get_index kend p k2) = true ∧
      Abit (split_step kend p j s) k2 (get_index kend p k2) = true := by
    intro k2 hlt hle
    by_cases hk : k2 = j + 1
    · subst hk
      refine ⟨?_, hAm _ _ hPA⟩
      rw [split_step_Sbit]
      simp
    · obtain ⟨h1, h2⟩ := h.own_anc p (j + 1) hP k2 (by omega) hle
      exact ⟨hSm _ _ h1, hAm _ _ h2⟩
  have hfreeP : ∀ q, q ∈ s.free_list j → get_index kend q (j + 1) ≠ get_index kend p (j + 1) := by
    intro q hq he
    have := (h.free_anc j hjle q hq (j + 1) (by omega) hj1).1
    rw [he, hzS] at this
    exact absurd this (by simp)
  -- a block that satisfies the premise of `zero` does not contain the block of order `j + 1` at `p`
  have hkey : ∀ k, j + 1 ≤ k → k ≤ MAXSIZE →
      (Abit s k (get_index kend p k) = false ∨
        ∃ q, (q, k) ∈ owned ∧ get_index kend q k = get_index kend p k) → False := by
    intro k hk hkle hprem
    have hprem2 : Abit s k (get_index kend p k) = false ∨
        ∃ q, (q, k) ∈ (p, j + 1) :: owned ∧ get_index kend q k = get_index kend p k := by
      rcases hprem with h1 | ⟨q, hq, he⟩
      · exact Or.inl h1
      · exact Or.inr ⟨q, hold q k hq, he⟩
    rcases Nat.eq_or_lt_of_le hk with heq | hlt
    · subst heq
      rcases hprem with h1 | ⟨q, hq, he⟩
      · rw [hPA] at h1
        exact absurd h1 (by simp)
      · have e : q = p := aligned_eq_of_index kend (j + 1) q p
          (h.own_aligned q (j + 1) (hold q _ hq)).2 hal he
        subst e
        have hnd := h.nodup_owned
        rw [List.map_cons, List.nodup_cons] at hnd
        exact hnd.1 (List.mem_map.mpr ⟨(q, j + 1), hq, rfl⟩)
    · have := ((h.zero k hkle _ hprem2).2 (j + 1) hlt (get_index kend p (j + 1))
        (get_index_of_le kend p (j + 1) k (le_of_lt hlt)).symm).1
      rw [hPA] at this
      exact absurd this (by simp)
  constructor
  · intro k hk q hq
    rw [split_step_free_list] at hq
    split at hq
    · rename_i hkj
      subst hkj
      rcases List.mem_cons.mp hq with h1 | h1
      · subst h1
        exact aligned_right_half kend k p hal
      · exact h.free_aligned k hk q h1
    · exact h.free_aligned k hk q hq
  · intro q k hq
    rcases List.mem_cons.mp hq with h1 | h1
    · cases h1
      exact ⟨hjle, aligned_pred kend j p hal⟩
    · exact h.own_aligned q k (hold q k h1)
  · intro k hk q hq k2 hlt hle
    have hfromold : q ∈ s.free_list k →
        Sbit (split_step kend p j s) k2 (get_index kend q k2) = true ∧
        Abit (split_step kend p j s) k2 (get_index kend q k2) = true := by
      intro hq2
      obtain ⟨h1, h2⟩ := h.free_anc k hk q hq2 k2 hlt hle
      exact ⟨hSm _ _ h1, hAm _ _ h2⟩
    rw [split_step_free_list] at hq
    split at hq
    · rename_i hkj
      subst hkj
      rcases List.mem_cons.mp hq with h1 | h1
      · subst h1
        rw [get_index_right_half_anc kend k p k2 hal hlt]
        exact hancP k2 hlt hle
      · exact hfromold h1
    · exact hfromold hq
  · intro q k hq k2 hlt hle
    rcases List.mem_cons.mp hq with h1 | h1
    · cases h1
      exact hancP k2 hlt hle
    · obtain ⟨h2, h3⟩ := h.own_anc q k (hold q k h1) k2 hlt hle
      exact ⟨hSm _ _ h2, hAm _ _ h3⟩
  · intro q k hq
    rcases List.mem_cons.mp hq with h1 | h1
    · cases h1
      rw [split_step_Abit]
      simp
    · exact hAm _ _ (h.own_alloc q k (hold q k h1))
  · intro k hk q hq
    rw [split_step_Abit]
    rw [split_step_free_list] at hq
    split
    · rename_i hc
      obtain ⟨hkj, he⟩ := hc
      subst hkj
      rw [if_pos rfl] at hq
      exfalso
      rcases List.mem_cons.mp hq with h1 | h1
      · subst h1
        omega
      · apply hfreeP q h1
        rw [get_index_succ, get_index_succ, he]
    · split at hq
      · rename_i hkj
        subst hkj
        rcases List.mem_cons.mp hq with h1 | h1
        · subst h1
          exact hRj
        · exact h.free_unalloc k hk q h1
      · exact h.free_unalloc k hk q hq
  · intro k hk jj hprem
    -- the premise already held before the round
    have hprem2 : Abit s k jj = false ∨
        ∃ q, (q, k) ∈ owned ∧ get_index kend q k = jj := by
      rcases hprem with h1 | ⟨q, hq, he⟩
      · left
        by_contra hc
        have := hAm k jj (by simpa using hc)
        rw [this] at h1
        exact absurd h1 (by simp)
      · rcases List.mem_cons.mp hq with h2 | h2
        · cases h2
          left
          rw [← he]
          exact hpj
        · exact Or.inr ⟨q, h2, he⟩
    have hprem3 : Abit s k jj = false ∨
        ∃ q, (q, k) ∈ (p, j + 1) :: owned ∧ get_index kend q k = jj := by
      rcases hprem2 with h1 | ⟨q, hq, he⟩
      · exact Or.inl h1
      · exact Or.inr ⟨q, hold q k hq, he⟩
    obtain ⟨hS, hD⟩ := h.zero k hk jj hprem3
    have hnotP : ¬ (j + 1 ≤ k ∧ get_index kend p k = jj) := by
      rintro ⟨h1, h2⟩
      subst h2
      exact hkey k h1 hk hprem2
    constructor
    · rw [split_step_Sbit]
      split
      · rename_i hc
        exact absurd ⟨by omega, by rw [hc.1]; exact hc.2⟩ hnotP
      · exact hS
    · intro k2 hk2 j2 hj2
      obtain ⟨hA2, hS2⟩ := hD k2 hk2 j2 hj2
      constructor
      · rw [split_step_Abit]
        split
        · rename_i hc
          obtain ⟨hc1, hc2⟩ := hc
          subst hc1
          exfalso
          apply hnotP
          refine ⟨by omega, ?_⟩
          rw [get_index_of_le kend p k2 k (le_of_lt hk2), hc2, hj2]
        · exact hA2
      · rw [split_step_Sbit]
        split
        · rename_i hc
          obtain ⟨hc1, hc2⟩ := hc
          subst hc1
          exfalso
          apply hnotP
          refine ⟨by omega, ?_⟩
          rw [get_index_of_le kend p (j + 1) k (le_of_lt hk2), hc2, hj2]
        · exact hS2
  · intro k hk
    rw [split_step_free_list]
    split
    · rename_i hkj
      subst hkj
      refine List.nodup_cons.mpr ⟨?_, h.nodup_free k hk⟩
      intro hmem
      apply hfreeP _ hmem
      exact get_index_right_half_anc kend k p (k + 1) hal (by omega)
    · exact h.nodup_free k hk
  · have := h.nodup_owned
    simpa using this

/-! ## `min_order` and the scan of `buddy_alloc` -/

theorem min_order_loop_spec (n K : Nat) (hK : K ≤ 19) (hn : n ≤ PGSIZE * 2 ^ K) :
    ∀ fuel order, order ≤ K → K - order < fuel →
      ∃ m, min_order_loop n fuel order (PGSIZE * 2 ^ order) = some m ∧ order ≤ m ∧ m ≤ K ∧
        n ≤ PGSIZE * 2 ^ m ∧ (order < m → PGSIZE * 2 ^ (m - 1) < n) := by
  intro fuel
  induction fuel with
  | zero => intro order _ h; omega
  | succ fuel ih =>
    intro order hle hfuel
    unfold min_order_loop
    by_cases hlt : PGSIZE * 2 ^ order < n
    · rw [if_pos hlt]
      have hoK : order < K := by
        by_contra hc
        have : order = K := by omega
        subst this
        omega
      have hsmall : PGSIZE * 2 ^ order * 2 < 2 ^ 32 := by
        have h1 : 2 ^ order ≤ 2 ^ 18 := Nat.pow_le_pow_right (by norm_num) (by omega)
        unfold PGSIZE
        omega
      have e : (PGSIZE * 2 ^ order * 2) % 2 ^ 32 = PGSIZE * 2 ^ (order + 1) := by
        rw [Nat.mod_eq_of_lt hsmall, pow_succ]
        ring
      rw [e]
      obtain ⟨m, h1, h2, h3, h4, h5⟩ := ih (order + 1) (by omega) (by omega)
      refine ⟨m, h1, by omega, h3, h4, ?_⟩
      intro _
      by_cases hm : m = order + 1
      · subst hm
        simpa using hlt
      · exact h5 (by omega)
    · rw [if_neg hlt]
      exact ⟨order, rfl, le_refl _, hle, by omega, fun h => absurd h (lt_irrefl _)⟩

theorem min_order_spec (n K : Nat) (hK : K ≤ 19) (hn : n ≤ BLOCKSIZE K) :
    ∃ m, min_order n = some m ∧ m ≤ K ∧ n ≤ BLOCKSIZE m ∧ (0 < m → BLOCKSIZE (m - 1) < n) := by
  obtain ⟨m, h1, _, h3, h4, h5⟩ := min_order_loop_spec n K hK hn 33 0 (by omega) (by omega)
  refine ⟨m, ?_, h3, h4, h5⟩
  simpa [min_order] using h1

theorem min_order_le_MAXSIZE (n : Nat) (hn : n ≤ MAXPGSIZE) :
    ∃ m, min_order n = some m ∧ m ≤ MAXSIZE ∧ n ≤ BLOCKSIZE m ∧ (0 < m → BLOCKSIZE (m - 1) < n) :=
  min_order_spec n MAXSIZE (by decide) hn

theorem scan_free_spec (s : FreeAreaList) : ∀ fuel i, MAXORDER ≤ i + fuel →
    i ≤ scan_free s fuel i ∧
    (i ≤ MAXORDER → scan_free s fuel i ≤ MAXORDER) ∧
    (scan_free s fuel i < MAXORDER → s.free_list (scan_free s fuel i) ≠ []) ∧
    (∀ k, i ≤ k → k < scan_free s fuel i → k < MAXORDER → s.free_list k = []) := by
  intro fuel
  induction fuel with
  | zero =>
    intro i hi
    simp only [scan_free]
    refine ⟨le_refl _, fun h => h, fun h => by omega, fun k h1 h2 => by omega⟩
  | succ fuel ih =>
    intro i hi
    unfold scan_free
    by_cases h1 : i < MAXORDER
    · rw [if_pos h1]
      by_cases h2 : s.free_list i ≠ []
      · rw [if_pos h2]
        exact ⟨le_refl _, fun h => h, fun _ => h2, fun k h3 h4 => by omega⟩
      · rw [if_neg h2]
        obtain ⟨a, b, c, d⟩ := ih (i + 1) (by omega)
        refine ⟨by omega, fun _ => b (by omega), c, ?_⟩
        intro k hk1 hk2 hk3
        by_cases hki : k = i
        · subst hki
          simpa using h2
        · exact d k (by omega) hk2 hk3
    · rw [if_neg h1]
      exact ⟨le_refl _, fun h => h, fun h => by omega, fun k h3 h4 => by omega⟩

theorem inv_split_loop (kend : Nat) (owned : List (Nat × Nat)) (p min : Nat) :
    ∀ d s, Inv kend s ((p, min + d) :: owned) →
      Inv kend (split_loop kend p min d s) ((p, min) :: owned) := by
  intro d
  induction d with
  | zero => intro s h; simpa [split_loop] using h
  | succ d ih =>
    intro s h
    rw [split_loop_succ]
    exact ih _ (inv_split_step kend s owned p (min + d) h)

/-- What `buddy_alloc` does to the invariant: either it returns `NULL` and
changes nothing, or the returned block is owned at the order of the request. -/
theorem inv_alloc (kend : Nat) (s s2 : FreeAreaList) (owned : List (Nat × Nat)) (n p : Nat)
    (h : Inv kend s owned) (hn : n ≤ MAXPGSIZE) (ha : buddy_alloc kend s n = some (p, s2)) :
    (p = 0 ∧ s2 = s) ∨
      ∃ m, min_order n = some m ∧ m ≤ MAXSIZE ∧ Inv kend s2 ((p, m) :: owned) := by
  obtain ⟨m, hm, hmle, _, _⟩ := min_order_le_MAXSIZE n hn
  unfold buddy_alloc at ha
  rw [hm] at ha
  simp only at ha
  obtain ⟨h1, h2, h3, _⟩ := scan_free_spec s MAXORDER m (by omega)
  have hmO : m ≤ MAXORDER := by unfold MAXORDER; unfold MAXSIZE at hmle; omega
  by_cases hi : scan_free s MAXORDER m = MAXORDER
  · rw [if_pos hi] at ha
    left
    simp only [Option.some.injEq, Prod.mk.injEq] at ha
    exact ⟨ha.1.symm, ha.2.symm⟩
  · rw [if_neg hi] at ha
    right
    have hlt : scan_free s MAXORDER m < MAXORDER := lt_of_le_of_ne (h2 hmO) hi
    have hne := h3 hlt
    generalize scan_free s MAXORDER m = i at *
    have hile : i ≤ MAXSIZE := by unfold MAXORDER at hlt; unfold MAXSIZE; omega
    cases hl : s.free_list i with
    | nil => exact absurd hl hne
    | cons X rest =>
      rw [hl] at ha
      simp only [list_pop, Option.some.injEq, Prod.mk.injEq] at ha
      obtain ⟨hp, hs⟩ := ha
      subst hp
      refine ⟨m, hm, hmle, ?_⟩
      rw [← hs]
      apply inv_split_loop
      have e : m + (i - m) = i := by omega
      rw [e]
      exact inv_pop kend s owned i X rest h hile hl

/-! ## `buddy_free` keeps the invariant -/

theorem list_remove_eq_erase (l : List Nat) (p : Nat) : list_remove l p = l.erase p := by
  induction l with
  | nil => rfl
  | cons t rest ih =>
    unfold list_remove
    rw [List.erase_cons]
    by_cases h : t = p
    · simp [h]
    · simp [h, ih]

theorem list_remove_sublist (l : List Nat) (p : Nat) : (list_remove l p).Sublist l := by
  rw [list_remove_eq_erase]
  exact List.erase_sublist p l

theorem list_remove_not_mem (l : List Nat) (p : Nat) (h : l.Nodup) : p ∉ list_remove l p := by
  rw [list_remove_eq_erase]
  exact h.not_mem_erase

/-- Clearing bits and dropping free-list entries keeps the invariant, as long
as the ancestors of the remaining blocks stay marked and the blocks whose
allocated bit was cleared have nothing marked below them. -/
theorem inv_shrink (kend : Nat) (s t : FreeAreaList) (owned : List (Nat × Nat))
    (h : Inv kend s owned)
    (hA : ∀ k j, Abit s k j = false → Abit t k j = false)
    (hS : ∀ k j, Sbit s k j = false → Sbit t k j = false)
    (hL : ∀ k ≤ MAXSIZE, (t.free_list k).Sublist (s.free_list k))
    (hfanc : ∀ k ≤ MAXSIZE, ∀ q ∈ t.free_list k, ∀ k2, k < k2 → k2 ≤ MAXSIZE →
      Sbit t k2 (get_index kend q k2) = true ∧ Abit t k2 (get_index kend q k2) = true)
    (hoanc : ∀ q k, (q, k) ∈ owned → ∀ k2, k < k2 → k2 ≤ MAXSIZE →
      Sbit t k2 (get_index kend q k2) = true ∧ Abit t k2 (get_index kend q k2) = true)
    (hoal : ∀ q k, (q, k) ∈ owned → Abit t k (get_index kend q k) = true)
    (hnew : ∀ k ≤ MAXSIZE, ∀ j, Abit t k j = false → Abit s k j = true →
      Sbit s k j = false ∧
        ∀ k2 < k, ∀ j2, j2 / 2 ^ (k - k2) = j → Abit s k2 j2 = false ∧ Sbit s k2 j2 = false) :
    Inv kend t owned where
  free_aligned := fun k hk q hq => h.free_aligned k hk q ((hL k hk).subset hq)
  own_aligned := h.own_aligned
  free_anc := hfanc
  own_anc := hoanc
  own_alloc := hoal
  free_unalloc := fun k hk q hq => hA _ _ (h.free_unalloc k hk q ((hL k hk).subset hq))
  zero := by
    intro k hk j hprem
    have hold : Sbit s k j = false ∧
        ∀ k2 < k, ∀ j2, j2 / 2 ^ (k - k2) = j → Abit s k2 j2 = false ∧ Sbit s k2 j2 = false := by
      rcases hprem with h1 | h1
      · cases hb : Abit s k j with
        | false => exact h.zero k hk j (Or.inl hb)
        | true => exact hnew k hk j h1 hb
      · exact h.zero k hk j (Or.inr h1)
    refine ⟨hS _ _ hold.1, fun k2 hk2 j2 hj2 => ?_⟩
    obtain ⟨a, b⟩ := hold.2 k2 hk2 j2 hj2
    exact ⟨hA _ _ a, hS _ _ b⟩
  nodup_free := fun k hk => (h.nodup_free k hk).sublist (hL k hk)
  nodup_owned := h.nodup_owned

/-- Pushing a block whose ancestors are marked and whose allocated bit is clear
onto its free list keeps the invariant. -/
theorem inv_push_free (kend : Nat) (s : FreeAreaList) (owned : List (Nat × Nat)) (i p : Nat)
    (h : Inv kend s owned) (hal : Aligned kend i p)
    (hanc : ∀ k2, i < k2 → k2 ≤ MAXSIZE →
      Sbit s k2 (get_index kend p k2) = true ∧ Abit s k2 (get_index kend p k2) = true)
    (hA : Abit s i (get_index kend p i) = false) (hnm : p ∉ s.free_list i) :
    Inv kend (s.with_free_list i (list_push (s.free_list i) p)) owned where
  free_aligned := by
    intro k hk q hq
    rw [with_free_list_free_list] at hq
    split at hq
    · rename_i hki
      subst hki
      rcases List.mem_cons.mp hq with h1 | h1
      · subst h1; exact hal
      · exact h.free_aligned k hk q h1
    · exact h.free_aligned k hk q hq
  own_aligned := h.own_aligned
  free_anc := by
    intro k hk q hq k2 hlt hle
    rw [with_free_list_free_list] at hq
    simp only [Sbit_with_free_list, Abit_with_free_list]
    split at hq
    · rename_i hki
      subst hki
      rcases List.mem_cons.mp hq with h1 | h1
      · subst h1; exact hanc k2 hlt hle
      · exact h.free_anc k hk q h1 k2 hlt hle
    · exact h.free_anc k hk q hq k2 hlt hle
  own_anc := h.own_anc
  own_alloc := h.own_alloc
  free_unalloc := by
    intro k hk q hq
    rw [with_free_list_free_list] at hq
    simp only [Abit_with_free_list]
    split at hq
    · rename_i hki
      subst hki
      rcases List.mem_cons.mp hq with h1 | h1
      · subst h1; exact hA
      · exact h.free_unalloc k hk q h1
    · exact h.free_unalloc k hk q hq
  zero := h.zero
  nodup_free := by
    intro k hk
    rw [with_free_list_free_list]
    split
    · rename_i hki
      subst hki
      exact List.nodup_cons.mpr ⟨hnm, h.nodup_free k hk⟩
    · exact h.nodup_free k hk
  nodup_owned := h.nodup_owned

/-- Slots past the end of the array do not matter for the invariant. -/
theorem inv_with_free_list_high (kend : Nat) (s : FreeAreaList) (owned : List (Nat × Nat))
    (i : Nat) (l : List Nat) (h : Inv kend s owned) (hi : MAXSIZE < i) :
    Inv kend (s.with_free_list i l) owned where
  free_aligned := by
    intro k hk q hq
    rw [with_free_list_free_list, if_neg (by omega)] at hq
    exact h.free_aligned k hk q hq
  own_aligned := h.own_aligned
  free_anc := by
    intro k hk q hq
    rw [with_free_list_free_list, if_neg (by omega)] at hq
    exact h.free_anc k hk q hq
  own_anc := h.own_anc
  own_alloc := h.own_alloc
  free_unalloc := by
    intro k hk q hq
    rw [with_free_list_free_list, if_neg (by omega)] at hq
    exact h.free_unalloc k hk q hq
  zero := h.zero
  nodup_free := by
    intro k hk
    rw [with_free_list_free_list, if_neg (by omega)]
    exact h.nodup_free k hk
  nodup_owned := h.nodup_owned

/-- No free block lies inside the block that is being put back. -/
theorem hole_no_free (kend : Nat) (s : FreeAreaList) (owned : List (Nat × Nat)) (i p : Nat)
    (h : Inv kend s owned) (hh : Hole kend s owned i p) (k q : Nat) (hk : k ≤ i)
    (hq : q ∈ s.free_list k) : get_index kend q i ≠ get_index kend p i := by
  intro he
  have hiM := hh.le
  have hkM : k ≤ MAXSIZE := le_trans hk hh.le
  rcases Nat.eq_or_lt_of_le hk with heq | hlt
  · subst heq
    have := h.free_unalloc k hkM q hq
    rw [he, hh.alloc] at this
    exact absurd this (by simp)
  · have h1 := (h.free_anc k hkM q hq (k + 1) (by omega) (by omega)).1
    rcases Nat.eq_or_lt_of_le (Nat.succ_le_of_lt hlt) with heq | hlt2
    · have e : k + 1 = i := heq
      subst e
      rw [he, hh.split] at h1
      exact absurd h1 (by simp)
    · have := (hh.zero (k + 1) hlt2 (get_index kend q (k + 1))
        (by rw [← get_index_of_le kend q (k + 1) i (le_of_lt hlt2), he])).2
      rw [this] at h1
      exact absurd h1 (by simp)

/-- No owned block lies inside the block that is being put back. -/
theorem hole_no_owned (kend : Nat) (s : FreeAreaList) (owned : List (Nat × Nat)) (i p : Nat)
    (h : Inv kend s owned) (hh : Hole kend s owned i p) (k q : Nat) (hk : k ≤ i)
    (hq : (q, k) ∈ owned) : get_index kend q i ≠ get_index kend p i := by
  intro he
  rcases Nat.eq_or_lt_of_le hk with heq | hlt
  · subst heq
    exact hh.not_owned q hq he
  · have h1 := h.own_alloc q k hq
    have := (hh.zero k hlt (get_index kend q k)
      (by rw [← get_index_of_le kend q k i (le_of_lt hlt), he])).1
    rw [this] at h1
    exact absurd h1 (by simp)

theorem free_loop_succ (kend fuel i p : Nat) (s : FreeAreaList) :
    free_loop kend (fuel + 1) i p s =
      if i < MAXORDER then
        if Abit (free_clear kend i p s) i (buddy_of (get_index kend p i)) = true then
          (i, p, free_clear kend i p s)
        else free_loop kend fuel (i + 1) (free_parent kend i p) (free_merge kend i p s)
      else (i, p, s) := by
  rfl

theorem free_loop_done (kend fuel i p : Nat) (s : FreeAreaList) (h : ¬ i < MAXORDER) :
    free_loop kend fuel i p s = (i, p, s) := by
  cases fuel with
  | zero => rfl
  | succ fuel => rw [free_loop_succ, if_neg h]

theorem buddy_of_ne (j : Nat) : buddy_of j ≠ j := by
  unfold buddy_of
  split <;> omega

theorem buddy_of_half (j : Nat) : buddy_of j / 2 = j / 2 := by
  unfold buddy_of
  split <;> omega

theorem half_eq_cases (x j : Nat) (h : x / 2 = j / 2) : x = j ∨ x = buddy_of j := by
  unfold buddy_of
  split <;> omega

theorem free_parent_eq (kend i p : Nat) (hal : Aligned kend i p) :
    free_parent kend i p = get_address kend (get_index kend p i / 2) (i + 1) := by
  obtain ⟨j, rfl⟩ := hal
  unfold free_parent buddy_of
  rw [get_index_get_address, ← get_address_two_mul]
  by_cases hj : j % 2 = 0
  · rw [if_pos hj, if_neg (by omega)]
    congr 1
    omega
  · rw [if_neg hj, if_pos (by omega)]
    congr 1
    omega

theorem free_parent_index (kend i p k2 : Nat) (hal : Aligned kend i p) (hk : i < k2) :
    get_index kend (free_parent kend i p) k2 = get_index kend p k2 := by
  rw [get_index_of_le kend _ (i + 1) k2 hk, get_index_of_le kend p (i + 1) k2 hk,
    free_parent_eq kend i p hal, get_index_get_address, get_index_succ]

theorem free_clear_Abit (kend i p : Nat) (s : FreeAreaList) (k j : Nat) :
    Abit (free_clear kend i p s) k j =
      (if k = i ∧ get_index kend p i = j then false else Abit s k j) :=
  Abit_clear s i _ k j

theorem free_clear_Sbit (kend i p : Nat) (s : FreeAreaList) (k j : Nat) :
    Sbit (free_clear kend i p s) k j = Sbit s k j := rfl

theorem free_clear_free_list (kend i p : Nat) (s : FreeAreaList) :
    (free_clear kend i p s).free_list = s.free_list := rfl

/-- Clearing the allocated bit of the block that is being put back. -/
theorem inv_free_clear (kend : Nat) (s : FreeAreaList) (owned : List (Nat × Nat)) (i p : Nat)
    (h : Inv kend s owned) (hh : Hole kend s owned i p) :
    Inv kend (free_clear kend i p s) owned := by
  have hiM := hh.le
  apply inv_shrink kend s _ owned h
  · intro k j hb
    rw [free_clear_Abit]
    split <;> simp [hb]
  · intro k j hb
    exact hb
  · intro k _
    exact List.Sublist.refl _
  · intro k hk q hq k2 hlt hle
    obtain ⟨h1, h2⟩ := h.free_anc k hk q hq k2 hlt hle
    refine ⟨h1, ?_⟩
    rw [free_clear_Abit]
    split
    · rename_i hc
      obtain ⟨hc1, hc2⟩ := hc
      subst hc1
      exact absurd hc2.symm (hole_no_free kend s owned k2 p h hh k q (le_of_lt hlt) hq)
    · exact h2
  · intro q k hq k2 hlt hle
    obtain ⟨h1, h2⟩ := h.own_anc q k hq k2 hlt hle
    refine ⟨h1, ?_⟩
    rw [free_clear_Abit]
    split
    · rename_i hc
      obtain ⟨hc1, hc2⟩ := hc
      subst hc1
      exact absurd hc2.symm (hole_no_owned kend s owned k2 p h hh k q (le_of_lt hlt) hq)
    · exact h2
  · intro q k hq
    rw [free_clear_Abit]
    split
    · rename_i hc
      obtain ⟨hc1, hc2⟩ := hc
      subst hc1
      exact absurd hc2.symm (hh.not_owned q hq)
    · exact h.own_alloc q k hq
  · intro k hk j h1 h2
    rw [free_clear_Abit] at h1
    split at h1
    · rename_i hc
      obtain ⟨hc1, hc2⟩ := hc
      subst hc1 hc2
      exact ⟨hh.split, hh.zero⟩
    · rw [h1] at h2
      exact absurd h2 (by simp)

/-- The loop of `buddy_free` stops at order `i` and pushes the block. -/
theorem inv_free_stop (kend : Nat) (s : FreeAreaList) (owned : List (Nat × Nat)) (i p : Nat)
    (h : Inv kend s owned) (hh : Hole kend s owned i p) :
    Inv kend ((free_clear kend i p s).with_free_list i
      (list_push ((free_clear kend i p s).free_list i) p)) owned := by
  apply inv_push_free kend _ owned i p (inv_free_clear kend s owned i p h hh) hh.aligned
  · intro k2 hlt hle
    obtain ⟨h1, h2⟩ := hh.anc k2 hlt hle
    refine ⟨h1, ?_⟩
    rw [free_clear_Abit, if_neg (by omega)]
    exact h2
  · rw [free_clear_Abit]
    simp
  · intro hm
    exact hole_no_free kend s owned i p h hh i p (le_refl _) hm rfl

theorem free_merge_Abit (kend i p : Nat) (s : FreeAreaList) (k j : Nat) :
    Abit (free_merge kend i p s) k j =
      (if k = i ∧ get_index kend p i = j then false else Abit s k j) := by
  unfold free_merge
  simp only []
  split
  · rw [Abit_with_split, Abit_with_free_list, free_clear_Abit]
  · rw [Abit_with_free_list, free_clear_Abit]

theorem free_merge_Sbit (kend i p : Nat) (s : FreeAreaList) (k j : Nat) :
    Sbit (free_merge kend i p s) k j =
      (if i < MAXSIZE ∧ k = i + 1 ∧ get_index kend (free_parent kend i p) (i + 1) = j then false
       else Sbit s k j) := by
  unfold free_merge
  simp only []
  by_cases hi : i < MAXSIZE
  · rw [if_pos hi, Sbit_clear]
    simp [hi, free_clear_Sbit]
  · rw [if_neg hi]
    simp [hi, free_clear_Sbit]

theorem free_merge_free_list (kend i p : Nat) (s : FreeAreaList) (k : Nat) :
    (free_merge kend i p s).free_list k =
      if k = i then list_remove (s.free_list i) (get_address kend (buddy_of (get_index kend p i)) i)
      else s.free_list k := by
  unfold free_merge
  simp only []
  split <;> simp [free_clear_free_list]

/-- A block of order at most `i` inside the parent of the block at `p` lies in
that block or in its buddy. -/
theorem in_parent_cases (kend i p q : Nat) (hal : Aligned kend i p)
    (h : get_index kend (free_parent kend i p) (i + 1) = get_index kend q (i + 1)) :
    get_index kend q i = get_index kend p i ∨
      get_index kend q i = buddy_of (get_index kend p i) := by
  rw [free_parent_index kend i p (i + 1) hal (by omega), get_index_succ, get_index_succ] at h
  exact half_eq_cases _ _ h.symm

/-- One round of the loop of `buddy_free` that merges the block with its buddy. -/
theorem inv_free_merge (kend : Nat) (s : FreeAreaList) (owned : List (Nat × Nat)) (i p : Nat)
    (h : Inv kend s owned) (hh : Hole kend s owned i p)
    (hb : Abit (free_clear kend i p s) i (buddy_of (get_index kend p i)) = false) :
    Inv kend (free_merge kend i p s) owned := by
  have hiM := hh.le
  have hbs : Abit s i (buddy_of (get_index kend p i)) = false := by
    rw [free_clear_Abit, if_neg (fun hc => buddy_of_ne _ hc.2.symm)] at hb
    exact hb
  have hsub : ∀ k, ((free_merge kend i p s).free_list k).Sublist (s.free_list k) := by
    intro k
    rw [free_merge_free_list]
    split
    · rename_i hk
      subst hk
      exact list_remove_sublist _ _
    · exact List.Sublist.refl _
  -- no remaining free block lies in the buddy
  have hfb : ∀ k ≤ i, ∀ q ∈ (free_merge kend i p s).free_list k,
      get_index kend q i ≠ buddy_of (get_index kend p i) := by
    intro k hk q hq he
    have hq2 := (hsub k).subset hq
    have hkM : k ≤ MAXSIZE := le_trans hk hiM
    rcases Nat.eq_or_lt_of_le hk with heq | hlt
    · subst heq
      have e : q = get_address kend (buddy_of (get_index kend p k)) k := by
        rw [← he]
        exact (get_address_get_index kend k q (h.free_aligned k hkM q hq2)).symm
      rw [free_merge_free_list, if_pos rfl, ← e] at hq
      exact list_remove_not_mem _ _ (h.nodup_free k hkM) hq
    · have := (h.free_anc k hkM q hq2 i hlt hiM).2
      rw [he, hbs] at this
      exact absurd this (by simp)
  have hob : ∀ k ≤ i, ∀ q, (q, k) ∈ owned →
      get_index kend q i ≠ buddy_of (get_index kend p i) := by
    intro k hk q hq he
    rcases Nat.eq_or_lt_of_le hk with heq | hlt
    · subst heq
      have := h.own_alloc q k hq
      rw [he, hbs] at this
      exact absurd this (by simp)
    · have := (h.own_anc q k hq i hlt hiM).2
      rw [he, hbs] at this
      exact absurd this (by simp)
  apply inv_shrink kend s _ owned h
  · intro k j hb2
    rw [free_merge_Abit]
    split <;> simp [hb2]
  · intro k j hb2
    rw [free_merge_Sbit]
    split <;> simp [hb2]
  · intro k _
    exact hsub k
  · intro k hk q hq k2 hlt hle
    have hq2 := (hsub k).subset hq
    obtain ⟨h1, h2⟩ := h.free_anc k hk q hq2 k2 hlt hle
    constructor
    · rw [free_merge_Sbit]
      split
      · rename_i hc
        obtain ⟨_, hc1, hc2⟩ := hc
        subst hc1
        exfalso
        rcases in_parent_cases kend i p q hh.aligned hc2 with h3 | h3
        · exact hole_no_free kend s owned i p h hh k q (by omega) hq2 h3
        · exact hfb k (by omega) q hq h3
      · exact h1
    · rw [free_merge_Abit]
      split
      · rename_i hc
        obtain ⟨hc1, hc2⟩ := hc
        subst hc1
        exact absurd hc2.symm (hole_no_free kend s owned k2 p h hh k q (le_of_lt hlt) hq2)
      · exact h2
  · intro q k hq k2 hlt hle
    obtain ⟨h1, h2⟩ := h.own_anc q k hq k2 hlt hle
    constructor
    · rw [free_merge_Sbit]
      split
      · rename_i hc
        obtain ⟨_, hc1, hc2⟩ := hc
        subst hc1
        exfalso
        rcases in_parent_cases kend i p q hh.aligned hc2 with h3 | h3
        · exact hole_no_owned kend s owned i p h hh k q (by omega) hq h3
        · exact hob k (by omega) q hq h3
      · exact h1
    · rw [free_merge_Abit]
      split
      · rename_i hc
        obtain ⟨hc1, hc2⟩ := hc
        subst hc1
        exact absurd hc2.symm (hole_no_owned kend s owned k2 p h hh k q (le_of_lt hlt) hq)
      · exact h2
  · intro q k hq
    rw [free_merge_Abit]
    split
    · rename_i hc
      obtain ⟨hc1, hc2⟩ := hc
      subst hc1
      exact absurd hc2.symm (hh.not_owned q hq)
    · exact h.own_alloc q k hq
  · intro k hk j h1 h2
    rw [free_merge_Abit] at h1
    split at h1
    · rename_i hc
      obtain ⟨hc1, hc2⟩ := hc
      subst hc1 hc2
      exact ⟨hh.split, hh.zero⟩
    · rw [h1] at h2
      exact absurd h2 (by simp)

/-- After a merge the parent block is the one being put back. -/
theorem hole_free_merge (kend : Nat) (s : FreeAreaList) (owned : List (Nat × Nat)) (i p : Nat)
    (h : Inv kend s owned) (hh : Hole kend s owned i p) (hi : i < MAXSIZE)
    (hb : Abit (free_clear kend i p s) i (buddy_of (get_index kend p i)) = false) :
    Hole kend (free_merge kend i p s) owned (i + 1) (free_parent kend i p) := by
  have hiM := hh.le
  have hbs : Abit s i (buddy_of (get_index kend p i)) = false := by
    rw [free_clear_Abit, if_neg (fun hc => buddy_of_ne _ hc.2.symm)] at hb
    exact hb
  have hzb := h.zero i hiM _ (Or.inl hbs)
  constructor
  · omega
  · rw [free_parent_eq kend i p hh.aligned]
    exact ⟨_, rfl⟩
  · intro k2 hlt hle
    rw [free_parent_index kend i p k2 hh.aligned (by omega)]
    obtain ⟨h1, h2⟩ := hh.anc k2 (by omega) hle
    constructor
    · rw [free_merge_Sbit, if_neg (by omega)]
      exact h1
    · rw [free_merge_Abit, if_neg (by omega)]
      exact h2
  · rw [free_merge_Abit, if_neg (by omega),
      free_parent_index kend i p (i + 1) hh.aligned (by omega)]
    exact (hh.anc (i + 1) (by omega) (by omega)).2
  · rw [free_merge_Sbit, if_pos ⟨hi, rfl, rfl⟩]
  · intro k2 hk2 j2 hj2
    rw [free_parent_index kend i p (i + 1) hh.aligned (by omega), get_index_succ] at hj2
    have hold : (Abit s k2 j2 = false ∨ (k2 = i ∧ get_index kend p i = j2)) ∧
        Sbit s k2 j2 = false := by
      rcases Nat.eq_or_lt_of_le (Nat.le_of_lt_succ hk2) with heq | hlt
      · subst heq
        simp only [Nat.add_sub_cancel_left, pow_one] at hj2
        rcases half_eq_cases _ _ hj2 with h3 | h3
        · subst h3
          exact ⟨Or.inr ⟨rfl, rfl⟩, hh.split⟩
        · subst h3
          exact ⟨Or.inl hbs, hzb.1⟩
      · have e : i + 1 - k2 = (i - k2) + 1 := by omega
        rw [e, div_pow_trans, pow_one] at hj2
        rcases half_eq_cases _ _ hj2 with h3 | h3
        · obtain ⟨a, b⟩ := hh.zero k2 hlt j2 h3
          exact ⟨Or.inl a, b⟩
        · obtain ⟨a, b⟩ := hzb.2 k2 hlt j2 h3
          exact ⟨Or.inl a, b⟩
    constructor
    · rw [free_merge_Abit]
      split
      · rfl
      · rename_i hc
        rcases hold.1 with h3 | h3
        · exact h3
        · exact absurd h3 hc
    · rw [free_merge_Sbit]
      split
      · rfl
      · exact hold.2
  · intro q hq he
    rw [free_parent_index kend i p (i + 1) hh.aligned (by omega)] at he
    have := ((h.zero (i + 1) (by omega) _ (Or.inr ⟨q, hq, rfl⟩)).2 i (by omega)
      (get_index kend p i) (by
        rw [he, get_index_succ]
        simp)).1
    rw [hh.alloc] at this
    exact absurd this (by simp)

/-- The coalescing loop followed by the final push keeps the invariant. -/
theorem inv_free_loop (kend : Nat) (owned : List (Nat × Nat)) :
    ∀ fuel i p s, Inv kend s owned → Hole kend s owned i p → MAXORDER ≤ i + fuel →
      Inv kend ((free_loop kend fuel i p s).2.2.with_free_list (free_loop kend fuel i p s).1
        (list_push ((free_loop kend fuel i p s).2.2.free_list (free_loop kend fuel i p s).1)
          (free_loop kend fuel i p s).2.1)) owned := by
  intro fuel
  induction fuel with
  | zero =>
    intro i p s _ hh hf
    have := hh.le
    unfold MAXORDER at hf
    unfold MAXSIZE at this
    omega
  | succ fuel ih =>
    intro i p s h hh hf
    have hiM := hh.le
    have hiO : i < MAXORDER := by unfold MAXORDER; unfold MAXSIZE at hiM; omega
    rw [free_loop_succ, if_pos hiO]
    cases hb : Abit (free_clear kend i p s) i (buddy_of (get_index kend p i)) with
    | true =>
      simp only [if_true]
      exact inv_free_stop kend s owned i p h hh
    | false =>
      simp only [Bool.false_eq_true, if_false]
      have hm := inv_free_merge kend s owned i p h hh hb
      rcases Nat.eq_or_lt_of_le hiM with heq | hlt
      · have hdone : ¬ i + 1 < MAXORDER := by unfold MAXORDER; unfold MAXSIZE at heq; omega
        rw [free_loop_done kend fuel (i + 1) _ _ hdone]
        exact inv_with_free_list_high kend _ owned (i + 1) _ hm (by omega)
      · exact ih (i + 1) _ _ hm (hole_free_merge kend s owned i p h hh hlt hb) (by omega)

/-! ## `size_of` on an owned block, and `buddy_free` as a whole -/

theorem size_of_loop_found (kend : Nat) (s : FreeAreaList) (p m : Nat) (hm : m < MAXSIZE)
    (hset : Sbit s (m + 1) (get_index kend p (m + 1)) = true) :
    ∀ fuel i, i ≤ m → m < i + fuel →
      (∀ k, i ≤ k → k < m → Sbit s (k + 1) (get_index kend p (k + 1)) = false) →
      size_of_loop kend s p fuel i = m := by
  intro fuel
  induction fuel with
  | zero => intro i h1 h2; omega
  | succ fuel ih =>
    intro i h1 h2 h3
    unfold size_of_loop
    rw [if_pos (by omega)]
    rcases Nat.eq_or_lt_of_le h1 with heq | hlt
    · subst heq
      have : bit_is_set (s.split (i + 1)) (get_index kend p (i + 1)) = true := hset
      rw [if_pos this]
    · have : bit_is_set (s.split (i + 1)) (get_index kend p (i + 1)) = false := h3 i (le_refl _) hlt
      rw [this]
      simp only [Bool.false_eq_true, if_false]
      exact ih (i + 1) (by omega) (by omega) (fun k hk1 hk2 => h3 k (by omega) hk2)

theorem size_of_loop_none (kend : Nat) (s : FreeAreaList) (p : Nat) :
    ∀ fuel i,
      (∀ k, i ≤ k → k < MAXSIZE → Sbit s (k + 1) (get_index kend p (k + 1)) = false) →
      size_of_loop kend s p fuel i = 0 := by
  intro fuel
  induction fuel with
  | zero => intro i _; rfl
  | succ fuel ih =>
    intro i h
    unfold size_of_loop
    by_cases hi : i < MAXSIZE
    · rw [if_pos hi]
      have : bit_is_set (s.split (i + 1)) (get_index kend p (i + 1)) = false := h i (le_refl _) hi
      rw [this]
      simp only [Bool.false_eq_true, if_false]
      exact ih (i + 1) (fun k hk1 hk2 => h k (by omega) hk2)
    · rw [if_neg hi]

/-- Below and at its own order the split bits over an owned block are clear. -/
theorem owned_split_clear (kend : Nat) (s : FreeAreaList) (owned : List (Nat × Nat)) (p m : Nat)
    (h : Inv kend s owned) (hp : (p, m) ∈ owned) (k : Nat) (hk : k ≤ m) :
    Sbit s k (get_index kend p k) = false := by
  obtain ⟨hm, _⟩ := h.own_aligned p m hp
  obtain ⟨h1, h2⟩ := h.zero m hm _ (Or.inr ⟨p, hp, rfl⟩)
  rcases Nat.eq_or_lt_of_le hk with heq | hlt
  · subst heq
    exact h1
  · exact (h2 k hlt _ (get_index_of_le kend p k m hk).symm).2

theorem owned_alloc_clear (kend : Nat) (s : FreeAreaList) (owned : List (Nat × Nat)) (p m : Nat)
    (h : Inv kend s owned) (hp : (p, m) ∈ owned) (k : Nat) (hk : k < m) :
    Abit s k (get_index kend p k) = false := by
  obtain ⟨hm, _⟩ := h.own_aligned p m hp
  obtain ⟨_, h2⟩ := h.zero m hm _ (Or.inr ⟨p, hp, rfl⟩)
  exact (h2 k hk _ (get_index_of_le kend p k m (le_of_lt hk)).symm).1

/-- `size_of` finds the order of an owned block below the top order. -/
theorem size_of_owned (kend : Nat) (s : FreeAreaList) (owned : List (Nat × Nat)) (p m : Nat)
    (h : Inv kend s owned) (hp : (p, m) ∈ owned) (hm : m < MAXSIZE) :
    size_of kend s p = m := by
  unfold size_of
  apply size_of_loop_found kend s p m hm (h.own_anc p m hp (m + 1) (by omega) (by omega)).1
  · omega
  · omega
  · intro k _ hk
    exact owned_split_clear kend s owned p m h hp (k + 1) (by omega)

/-- `size_of` answers 0 for an owned block of the top order. -/
theorem size_of_owned_top (kend : Nat) (s : FreeAreaList) (owned : List (Nat × Nat)) (p : Nat)
    (h : Inv kend s owned) (hp : (p, MAXSIZE) ∈ owned) :
    size_of kend s p = 0 := by
  unfold size_of
  apply size_of_loop_none
  intro k _ hk
  exact owned_split_clear kend s owned p MAXSIZE h hp (k + 1) (by omega)

/-- Freeing an owned block of the top order changes nothing. -/
theorem buddy_free_owned_top (kend : Nat) (s : FreeAreaList) (owned : List (Nat × Nat)) (p : Nat)
    (h : Inv kend s owned) (hp : (p, MAXSIZE) ∈ owned) :
    buddy_free kend s p = s := by
  unfold buddy_free
  simp only []
  rw [size_of_owned_top kend s owned p h hp]
  have : bit_is_set (s.allocated 0) (get_index kend p 0) = false :=
    owned_alloc_clear kend s owned p MAXSIZE h hp 0 (by decide)
  rw [this]
  simp

/-- Forgetting owned blocks keeps the invariant. -/
theorem inv_owned_sublist (kend : Nat) (s : FreeAreaList) (owned owned2 : List (Nat × Nat))
    (h : Inv kend s owned) (hsub : owned2.Sublist owned) : Inv kend s owned2 where
  free_aligned := h.free_aligned
  own_aligned := fun q k hq => h.own_aligned q k (hsub.subset hq)
  free_anc := h.free_anc
  own_anc := fun q k hq => h.own_anc q k (hsub.subset hq)
  own_alloc := fun q k hq => h.own_alloc q k (hsub.subset hq)
  free_unalloc := h.free_unalloc
  zero := by
    intro k hk j hprem
    apply h.zero k hk j
    rcases hprem with h1 | ⟨q, hq, he⟩
    · exact Or.inl h1
    · exact Or.inr ⟨q, hsub.subset hq, he⟩
  nodup_free := h.nodup_free
  nodup_owned := h.nodup_owned.sublist (hsub.map Prod.fst)

/-- Freeing an owned block below the top order keeps the invariant; the block
is no longer owned. -/
theorem inv_free (kend : Nat) (s : FreeAreaList) (owned : List (Nat × Nat)) (p m : Nat)
    (h : Inv kend s owned) (hp : (p, m) ∈ owned) (hm : m < MAXSIZE) :
    Inv kend (buddy_free kend s p) (owned.filter (fun a => decide (a.1 ≠ p))) := by
  have h2 : Inv kend s (owned.filter (fun a => decide (a.1 ≠ p))) :=
    inv_owned_sublist kend s owned _ h (List.filter_sublist _)
  have hh : Hole kend s (owned.filter (fun a => decide (a.1 ≠ p))) m p := by
    constructor
    · omega
    · exact (h.own_aligned p m hp).2
    · exact h.own_anc p m hp
    · exact h.own_alloc p m hp
    · exact owned_split_clear kend s owned p m h hp m (le_refl _)
    · exact (h.zero m (by omega) _ (Or.inr ⟨p, hp, rfl⟩)).2
    · intro q hq he
      obtain ⟨hq1, hq2⟩ := List.mem_filter.mp hq
      have : q = p := aligned_eq_of_index kend m q p (h.own_aligned q m hq1).2
        (h.own_aligned p m hp).2 he
      simp [this] at hq2
  unfold buddy_free
  simp only []
  rw [size_of_owned kend s owned p m h hp hm]
  have : bit_is_set (s.allocated m) (get_index kend p m) = true := h.own_alloc p m hp
  rw [this]
  simp only [if_true]
  exact inv_free_loop kend _ MAXORDER m p s h2 hh (by omega)

/-! ## The invariant along every history -/

theorem reach_inv (kend PHYSTOP : Nat) (s : FreeAreaList) (live : List (Nat × Nat))
    (hr : Reach kend PHYSTOP s live) :
    ∃ owned, Inv kend s owned ∧
      (∀ p n, (p, n) ∈ live → ∃ m, min_order n = some m ∧ (p, m) ∈ owned) ∧
      (live.map Prod.fst).Nodup := by
  induction hr with
  | init => exact ⟨[], inv_init kend PHYSTOP, by simp, by simp⟩
  | alloc s s2 live n p _ hn ha hp ih =>
    obtain ⟨owned, hinv, hlive, hnd⟩ := ih
    rcases inv_alloc kend s s2 owned n p hinv hn ha with ⟨h0, _⟩ | ⟨m, hm, _, hinv2⟩
    · exact absurd h0 hp
    · refine ⟨(p, m) :: owned, hinv2, ?_, ?_⟩
      · intro q n2 hq
        rcases List.mem_cons.mp hq with h1 | h1
        · cases h1
          exact ⟨m, hm, List.mem_cons_self _ _⟩
        · obtain ⟨m2, hm2, ho⟩ := hlive q n2 h1
          exact ⟨m2, hm2, List.mem_cons_of_mem _ ho⟩
      · rw [List.map_cons, List.nodup_cons]
        refine ⟨?_, hnd⟩
        intro hmem
        obtain ⟨⟨q, n2⟩, hq, he⟩ := List.mem_map.mp hmem
        simp only at he
        subst he
        obtain ⟨m2, _, ho⟩ := hlive q n2 hq
        have hnd2 := hinv2.nodup_owned
        rw [List.map_cons, List.nodup_cons] at hnd2
        exact hnd2.1 (List.mem_map.mpr ⟨(q, m2), ho, rfl⟩)
  | alloc_null s s2 live n _ hn ha ih =>
    obtain ⟨owned, hinv, hlive, hnd⟩ := ih
    rcases inv_alloc kend s s2 owned n 0 hinv hn ha with ⟨_, h0⟩ | ⟨m, hm, _, hinv2⟩
    · subst h0
      exact ⟨owned, hinv, hlive, hnd⟩
    · refine ⟨(0, m) :: owned, hinv2, ?_, hnd⟩
      intro q n2 hq
      obtain ⟨m2, hm2, ho⟩ := hlive q n2 hq
      exact ⟨m2, hm2, List.mem_cons_of_mem _ ho⟩
  | free s live p n _ hp _ ih =>
    obtain ⟨owned, hinv, hlive, hnd⟩ := ih
    obtain ⟨m, hm, ho⟩ := hlive p n hp
    have hmle := (hinv.own_aligned p m ho).1
    have hnd2 : ((live.filter (fun a => decide (a.1 ≠ p))).map Prod.fst).Nodup :=
      hnd.sublist ((List.filter_sublist _).map Prod.fst)
    rcases Nat.eq_or_lt_of_le hmle with heq | hlt
    · subst heq
      rw [buddy_free_owned_top kend s owned p hinv ho]
      refine ⟨owned, hinv, ?_, hnd2⟩
      intro q n2 hq
      exact hlive q n2 (List.mem_filter.mp hq).1
    · refine ⟨_, inv_free kend s owned p m hinv ho hlt, ?_, hnd2⟩
      intro q n2 hq
      obtain ⟨hq1, hq2⟩ := List.mem_filter.mp hq
      obtain ⟨m2, hm2, ho2⟩ := hlive q n2 hq1
      refine ⟨m2, hm2, List.mem_filter.mpr ⟨ho2, ?_⟩⟩
      simpa using hq2

/-! ## C1: live allocations do not overlap -/

theorem owned_disjoint_le (kend : Nat) (s : FreeAreaList) (owned : List (Nat × Nat))
    (p m q m2 : Nat) (h : Inv kend s owned) (hp : (p, m) ∈ owned) (hq : (q, m2) ∈ owned)
    (hne : p ≠ q) (hle : m ≤ m2) : range_disjoint p (BLOCKSIZE m) q (BLOCKSIZE m2) := by
  obtain ⟨_, j, hj⟩ := h.own_aligned p m hp
  obtain ⟨hm2, j2, hj2⟩ := h.own_aligned q m2 hq
  have hidx : get_index kend p m2 ≠ get_index kend q m2 := by
    intro he
    rcases Nat.eq_or_lt_of_le hle with heq | hlt
    · subst heq
      exact hne (aligned_eq_of_index kend m p q ⟨j, hj⟩ ⟨j2, hj2⟩ he)
    · have h1 := (h.own_anc p m hp m2 hlt hm2).1
      rw [he, owned_split_clear kend s owned q m2 h hq m2 (le_refl _)] at h1
      exact absurd h1 (by simp)
  rw [get_index_of_le kend p m m2 hle] at hidx
  subst hj hj2
  rw [get_index_get_address, get_index_get_address] at hidx
  have hB : BLOCKSIZE m2 = BLOCKSIZE m * 2 ^ (m2 - m) := by
    rw [← BLOCKSIZE_add]
    congr 1
    omega
  have hpos : 0 < 2 ^ (m2 - m) := by positivity
  unfold range_disjoint get_address
  rw [hB]
  rcases Nat.lt_or_gt_of_ne hidx with hlt | hgt
  · left
    have h1 : j < j2 * 2 ^ (m2 - m) := (Nat.div_lt_iff_lt_mul hpos).mp hlt
    have h2 : (j + 1) * BLOCKSIZE m ≤ j2 * 2 ^ (m2 - m) * BLOCKSIZE m :=
      Nat.mul_le_mul_right _ h1
    have e1 : j2 * (BLOCKSIZE m * 2 ^ (m2 - m)) = j2 * 2 ^ (m2 - m) * BLOCKSIZE m := by ring
    have e2 : (j + 1) * BLOCKSIZE m = j * BLOCKSIZE m + BLOCKSIZE m := by ring
    omega
  · right
    have h1 : (j2 + 1) * 2 ^ (m2 - m) ≤ j := (Nat.le_div_iff_mul_le hpos).mp hgt
    have h2 : (j2 + 1) * 2 ^ (m2 - m) * BLOCKSIZE m ≤ j * BLOCKSIZE m :=
      Nat.mul_le_mul_right _ h1
    have e1 : (j2 + 1) * 2 ^ (m2 - m) * BLOCKSIZE m =
        j2 * (BLOCKSIZE m * 2 ^ (m2 - m)) + BLOCKSIZE m * 2 ^ (m2 - m) := by ring
    omega

theorem owned_disjoint (kend : Nat) (s : FreeAreaList) (owned : List (Nat × Nat))
    (p m q m2 : Nat) (h : Inv kend s owned) (hp : (p, m) ∈ owned) (hq : (q, m2) ∈ owned)
    (hne : p ≠ q) : range_disjoint p (BLOCKSIZE m) q (BLOCKSIZE m2) := by
  rcases Nat.le_total m m2 with hle | hle
  · exact owned_disjoint_le kend s owned p m q m2 h hp hq hne hle
  · exact (owned_disjoint_le kend s owned q m2 p m h hq hp (Ne.symm hne) hle).symm

/-- C1 (no aliasing).  In every state that `buddy_alloc` (requests of at most
`MAXPGSIZE` bytes) and `buddy_free` (of live allocations, each call staying
inside the array `free_areas[MAXORDER]`) reach from the state left by
`buddy_init`, any two entries of the list of live allocations occupy disjoint
byte ranges `[p, p + PGSIZE * 2 ^ min_order n)`; the kernel image ends above
address 0, so that no block starts at the null pointer. -/
theorem no_aliasing (kend PHYSTOP : Nat) (s : FreeAreaList) (live : List (Nat × Nat))
    (_hkend : 0 < kend) (hr : Reach kend PHYSTOP s live) :
    live.Pairwise (fun a b =>
      range_disjoint a.1 (PGSIZE * 2 ^ order_of_request a.2)
        b.1 (PGSIZE * 2 ^ order_of_request b.2)) := by
  obtain ⟨owned, hinv, hlive, hnd⟩ := reach_inv kend PHYSTOP s live hr
  have hpw : live.Pairwise (fun a b => a.1 ≠ b.1) := List.pairwise_map.mp hnd
  refine List.Pairwise.imp_of_mem ?_ hpw
  intro a b ha hb hne
  obtain ⟨m, hm, ho⟩ := hlive a.1 a.2 ha
  obtain ⟨m2, hm2, ho2⟩ := hlive b.1 b.2 hb
  have := owned_disjoint kend s owned a.1 m b.1 m2 hinv ho ho2 hne
  simpa [order_of_request, hm, hm2, BLOCKSIZE] using this

/-- C1 (witness).  On a region of two huge blocks: `buddy_alloc(4096)` gives
`0x1400000`, `buddy_alloc(8192)` gives `0x1402000`, `buddy_alloc(4096)` gives
`0x1401000`, and `buddy_free(0x1400000)` leaves its loop at once (order 0, the
buddy `0x1401000` is allocated); the two allocations that stay live do not
overlap. -/
theorem no_aliasing_witness :
    alloc_ptr ex_kend (alloc_many ex_kend (buddy_init ex_kend ex_PHYSTOP2) [4096, 8192]) 4096 =
      0x1401000 ∧
    free_order ex_kend (alloc_many ex_kend (buddy_init ex_kend ex_PHYSTOP2) [4096, 8192, 4096])
      0x1400000 = 0 ∧
    [((0x1401000 : Nat), (4096 : Nat)), (0x1402000, 8192)].Pairwise (fun a b =>
      range_disjoint a.1 (PGSIZE * 2 ^ order_of_request a.2)
        b.1 (PGSIZE * 2 ^ order_of_request b.2)) :=
  ⟨by decide, by decide,
    no_aliasing ex_kend ex_PHYSTOP2
      (buddy_free ex_kend
        (alloc_many ex_kend (buddy_init ex_kend ex_PHYSTOP2) [4096, 8192, 4096]) 0x1400000)
      [(0x1401000, 4096), (0x1402000, 8192)] (by decide)
      (Reach.free (alloc_many ex_kend (buddy_init ex_kend ex_PHYSTOP2) [4096, 8192, 4096])
        [(0x1401000, 4096), (0x1402000, 8192), (0x1400000, 4096)] 0x1400000 4096
        (Reach.alloc (alloc_many ex_kend (buddy_init ex_kend ex_PHYSTOP2) [4096, 8192]) _ _
          4096 0x1401000
          (Reach.alloc (alloc_state ex_kend (buddy_init ex_kend ex_PHYSTOP2) 4096) _ _ 8192
            0x1402000
            (Reach.alloc (buddy_init ex_kend ex_PHYSTOP2) _ _ 4096 0x1400000 Reach.init
              (by decide) rfl (by decide))
            (by decide) rfl (by decide))
          (by decide) rfl (by decide))
        (by decide) (by decide))⟩

/-! ## C2 – C5: what the code does on the top order and on oversized requests -/

/-- A huge allocation is never given back: in every reachable state, when
`buddy_alloc` serves a request of `MAXPGSIZE` bytes, `size_of` answers 0 for the
returned block and the `buddy_free` that follows changes nothing. -/
theorem free_of_huge_is_noop (kend PHYSTOP : Nat) (s s2 : FreeAreaList)
    (live : List (Nat × Nat)) (p : Nat) (hr : Reach kend PHYSTOP s live)
    (ha : buddy_alloc kend s MAXPGSIZE = some (p, s2)) (hp : p ≠ 0) :
    size_of kend s2 p = 0 ∧ buddy_free kend s2 p = s2 := by
  have hr2 := Reach.alloc s s2 live MAXPGSIZE p hr (le_refl _) ha hp
  obtain ⟨owned, hinv, hlive, _⟩ := reach_inv kend PHYSTOP s2 _ hr2
  obtain ⟨m, hm, ho⟩ := hlive p MAXPGSIZE (List.mem_cons_self _ _)
  have hm10 : min_order MAXPGSIZE = some MAXSIZE := by decide
  rw [hm10] at hm
  cases hm
  exact ⟨size_of_owned_top kend s2 owned p hinv ho, buddy_free_owned_top kend s2 owned p hinv ho⟩

/-- C2 (round trip), evaluated on the state left by `buddy_init` for a region of
two huge blocks: `buddy_alloc(MAXPGSIZE)` returns the first block, and the
`buddy_free` of it leaves the block allocated and off the free list, so the
state is not the one before the allocation. -/
theorem round_trip_huge_diverges :
    buddy_alloc 0x10A0000 (buddy_init 0x10A0000 0x1C00000) MAXPGSIZE =
      some (0x1400000, alloc_state 0x10A0000 (buddy_init 0x10A0000 0x1C00000) MAXPGSIZE) ∧
    (buddy_init 0x10A0000 0x1C00000).free_list MAXSIZE = [0x1400000, 0x1800000] ∧
    Abit (buddy_init 0x10A0000 0x1C00000) MAXSIZE 0 = false ∧
    (buddy_free 0x10A0000
      (alloc_state 0x10A0000 (buddy_init 0x10A0000 0x1C00000) MAXPGSIZE) 0x1400000).free_list
        MAXSIZE = [0x1800000] ∧
    Abit (buddy_free 0x10A0000
      (alloc_state 0x10A0000 (buddy_init 0x10A0000 0x1C00000) MAXPGSIZE) 0x1400000)
        MAXSIZE 0 = true := by
  refine ⟨rfl, ?_, ?_, ?_, ?_⟩ <;> decide

/-- C3 (full coalescing), evaluated on the state left by `buddy_init` for a
region of two huge blocks: after `p = buddy_alloc(PGSIZE)` and `buddy_free(p)`
no allocation is outstanding, yet `free_list[MAXSIZE]` is empty: the merged
block went to the slot `MAXORDER` past the end of the array and its neighbour
was unlinked. -/
theorem full_coalescing_diverges :
    buddy_alloc 0x10A0000 (buddy_init 0x10A0000 0x1C00000) PGSIZE =
      some (0x1400000, alloc_state 0x10A0000 (buddy_init 0x10A0000 0x1C00000) PGSIZE) ∧
    (buddy_init 0x10A0000 0x1C00000).free_list MAXSIZE = [0x1400000, 0x1800000] ∧
    (buddy_free 0x10A0000
      (alloc_state 0x10A0000 (buddy_init 0x10A0000 0x1C00000) PGSIZE) 0x1400000).free_list
        MAXSIZE = [] ∧
    (buddy_free 0x10A0000
      (alloc_state 0x10A0000 (buddy_init 0x10A0000 0x1C00000) PGSIZE) 0x1400000).free_list
        MAXORDER = [0x1400000] := by
  refine ⟨rfl, ?_, ?_, ?_⟩ <;> decide

/-- C4 (size recovery), evaluated on the state left by `buddy_init`: for the
block returned by `buddy_alloc(MAXPGSIZE)`, `size_of` answers 0 while the order
of the request is `MAXSIZE`. -/
theorem size_of_huge_diverges :
    buddy_alloc 0x10A0000 (buddy_init 0x10A0000 0x1C00000) MAXPGSIZE =
      some (0x1400000, alloc_state 0x10A0000 (buddy_init 0x10A0000 0x1C00000) MAXPGSIZE) ∧
    size_of 0x10A0000
      (alloc_state 0x10A0000 (buddy_init 0x10A0000 0x1C00000) MAXPGSIZE) 0x1400000 = 0 ∧
    order_of_request MAXPGSIZE = MAXSIZE ∧ MAXSIZE = 10 := by
  refine ⟨rfl, ?_, ?_, ?_⟩ <;> decide

/-- C5 (out of memory), evaluated on the state left by `buddy_init` for a
request of 16 MiB: `min_order` answers 12, the scan does not run, the test
`i == MAXORDER` fails and `list_pop` runs on the slot 12 outside the array:
`buddy_alloc` does not return null although no order from 12 to `MAXSIZE` has a
free block. -/
theorem alloc_oversized_diverges :
    min_order 0x1000000 = some 12 ∧
    scan_free (buddy_init 0x10A0000 0x1C00000) MAXORDER 12 = 12 ∧
    (∀ i, 12 ≤ i → i ≤ MAXSIZE → (buddy_init 0x10A0000 0x1C00000).free_list i = []) ∧
    buddy_alloc 0x10A0000 (buddy_init 0x10A0000 0x1C00000) 0x1000000 = none := by
  refine ⟨by decide, by decide, ?_, rfl⟩
  intro i h1 h2
  unfold MAXSIZE at h2
  omega

/-- For a request whose order is at most `MAXORDER` (at most 8 MiB) and a state
whose free lists hold no null pointer, `buddy_alloc` returns null exactly when
the free lists of the orders `min_order(n)..MAXSIZE` are all empty, and then the
state is unchanged. -/
theorem buddy_alloc_null_iff (kend : Nat) (s : FreeAreaList) (n m : Nat)
    (hm : min_order n = some m) (hmle : m ≤ MAXORDER)
    (hwf : ∀ i p, p ∈ s.free_list i → p ≠ 0) :
    ((∃ s2, buddy_alloc kend s n = some (0, s2)) ↔
      ∀ i, m ≤ i → i ≤ MAXSIZE → s.free_list i = []) ∧
    (∀ s2, buddy_alloc kend s n = some (0, s2) → s2 = s) := by
  have hMO : MAXORDER = MAXSIZE + 1 := rfl
  obtain ⟨_, h2, h3, h4⟩ := scan_free_spec s MAXORDER m (by omega)
  have hnull : ∀ s2, buddy_alloc kend s n = some (0, s2) →
      scan_free s MAXORDER m = MAXORDER ∧ s2 = s := by
    intro s2 ha
    unfold buddy_alloc at ha
    rw [hm] at ha
    simp only at ha
    by_cases hi : scan_free s MAXORDER m = MAXORDER
    · rw [if_pos hi] at ha
      simp only [Option.some.injEq, Prod.mk.injEq, true_and] at ha
      exact ⟨hi, ha.symm⟩
    · rw [if_neg hi] at ha
      exfalso
      have hlt : scan_free s MAXORDER m < MAXORDER := lt_of_le_of_ne (h2 hmle) hi
      have hne := h3 hlt
      cases hl : s.free_list (scan_free s MAXORDER m) with
      | nil => exact hne hl
      | cons X rest =>
        rw [hl] at ha
        simp only [list_pop, Option.some.injEq, Prod.mk.injEq] at ha
        exact hwf _ X (by rw [hl]; exact List.mem_cons_self _ _) ha.1
  refine ⟨⟨?_, ?_⟩, fun s2 ha => (hnull s2 ha).2⟩
  · rintro ⟨s2, ha⟩ i hi1 hi2
    obtain ⟨he, _⟩ := hnull s2 ha
    rw [he] at h4
    exact h4 i hi1 (by omega) (by omega)
  · intro hall
    refine ⟨s, ?_⟩
    have hi : scan_free s MAXORDER m = MAXORDER := by
      by_contra hi
      have hlt : scan_free s MAXORDER m < MAXORDER := lt_of_le_of_ne (h2 hmle) hi
      exact h3 hlt (hall _ (scan_free_spec s MAXORDER m (by omega)).1 (by omega))
    unfold buddy_alloc
    rw [hm]
    simp only
    rw [if_pos hi]

/-! ## C6 – C9: the paging code evaluated on concrete machines -/

/-- C6 (grown range is mapped), evaluated with one free page left in the
allocator and an empty directory: `allocuvm(pgdir, 0, 4096)` takes the last page
as the frame, `walkpgdir` cannot allocate a table, `mappages` returns -1, which
`allocuvm` does not look at, and `allocuvm` returns `newsz` = 4096 although
virtual address 0 is not mapped. -/
theorem allocuvm_unmapped_success :
    (∀ i, i ≤ MAXSIZE → ex_one_page_left.free_list i = if i = 0 then [0x1401000] else []) ∧
    translate ex_state_one_page.mem 0x1400000 0 = none ∧
    result_value (allocuvm ex_kend ex_PHYSTOP1 ex_USERTOP ex_state_one_page 0x1400000 0 4096) =
      some 4096 ∧
    translate (result_state ex_state_one_page
      (allocuvm ex_kend ex_PHYSTOP1 ex_USERTOP ex_state_one_page 0x1400000 0 4096)).mem
      0x1400000 0 = none := by
  refine ⟨by decide!, by decide!, by decide!, by decide!⟩

/-- C8 (shrink frees exactly the torn-down frames), evaluated on a directory with
a huge tile at virtual 0 (frame `0x1800000`) and a small tile at 4 MiB (frame
`0x1401000`): `deallocuvm(pgdir, 4 MiB + 4 KiB, 4 KiB)` starts at `a` = 4 KiB,
finds the huge entry, frees its frame although the tile starts below the range
and still backs virtual 0, then steps to 4 MiB + 4 KiB and stops: the page at
4 MiB, inside the range, is neither freed nor unmapped. -/
theorem deallocuvm_unaligned_huge :
    translate ex_state_mixed.mem 0x1400000 0 = some 0x1800000 ∧
    translate ex_state_mixed.mem 0x1400000 0x400000 = some 0x1401000 ∧
    ex_state_mixed.freed = [] ∧
    result_value (deallocuvm ex_kend ex_PHYSTOP4 ex_state_mixed 0x1400000 0x401000 0x1000) =
      some 0x1000 ∧
    (result_state ex_state_mixed
      (deallocuvm ex_kend ex_PHYSTOP4 ex_state_mixed 0x1400000 0x401000 0x1000)).freed =
        [0x1800000] ∧
    translate (result_state ex_state_mixed
      (deallocuvm ex_kend ex_PHYSTOP4 ex_state_mixed 0x1400000 0x401000 0x1000)).mem
        0x1400000 0 = some 0x1800000 ∧
    translate (result_state ex_state_mixed
      (deallocuvm ex_kend ex_PHYSTOP4 ex_state_mixed 0x1400000 0x401000 0x1000)).mem
        0x1400000 0x400000 = some 0x1401000 := by
  refine ⟨by decide!, by decide!, by decide!, by decide!, by decide!, by decide!, by decide!⟩

/-- C9 (fork copies contents), evaluated on a parent with a huge tile at virtual
0, a small tile at 4 MiB holding the byte `0x5A`, and one stack page:
`copyuvm` with `sz` = 4 MiB + 4 KiB returns the child directory; its first round
starts at `i` = 4 KiB inside the huge tile, `mappages` rounds that down and
installs two huge entries, and the round steps over the page at 4 MiB.  The
child maps virtual 4 MiB to `0x2000000`, a block that is still on the free
list, and reads 0 there where the parent reads `0x5A`. -/
theorem copyuvm_skips_page :
    result_value (copyuvm_from ex_kend ex_PHYSTOP4 ex_USERTOP ex_state_child_dir
      0x1400000 0x401000 (ex_USERTOP - 4096) 0x1405000) = some 0x1405000 ∧
    translate (result_state ex_state_child_dir (copyuvm_from ex_kend ex_PHYSTOP4 ex_USERTOP
      ex_state_child_dir 0x1400000 0x401000 (ex_USERTOP - 4096) 0x1405000)).mem
        0x1400000 0x400000 = some 0x1401000 ∧
    translate (result_state ex_state_child_dir (copyuvm_from ex_kend ex_PHYSTOP4 ex_USERTOP
      ex_state_child_dir 0x1400000 0x401000 (ex_USERTOP - 4096) 0x1405000)).mem
        0x1405000 0x400000 = some 0x2000000 ∧
    (result_state ex_state_child_dir (copyuvm_from ex_kend ex_PHYSTOP4 ex_USERTOP
      ex_state_child_dir 0x1400000 0x401000 (ex_USERTOP - 4096) 0x1405000)).mem 0x1401000 =
        0x5A ∧
    (result_state ex_state_child_dir (copyuvm_from ex_kend ex_PHYSTOP4 ex_USERTOP
      ex_state_child_dir 0x1400000 0x401000 (ex_USERTOP - 4096) 0x1405000)).mem 0x2000000 =
        0 ∧
    (result_state ex_state_child_dir (copyuvm_from ex_kend ex_PHYSTOP4 ex_USERTOP
      ex_state_child_dir 0x1400000 0x401000 (ex_USERTOP - 4096) 0x1405000)).fal.free_list
        MAXSIZE = [0x2000000] := by
  refine ⟨by decide!, by decide!, by decide!, by decide!, by decide!, by decide!⟩

/-! ## C10: `copyout` writes exactly the requested range -/

theorem PGSIZE_eq : PGSIZE = 4096 := rfl

theorem MAXPGSIZE_eq : MAXPGSIZE = 4194304 := by decide

theorem PDX_eq (va : Nat) : PDX va = va / 4194304 % 1024 := by
  unfold PDX
  rw [Nat.shiftRight_eq_div_pow]
  exact Nat.and_pow_two_sub_one_eq_mod _ 10

theorem PTX_eq (va : Nat) : PTX va = va / 4096 % 1024 := by
  unfold PTX
  rw [Nat.shiftRight_eq_div_pow]
  exact Nat.and_pow_two_sub_one_eq_mod _ 10

theorem ROUNDDOWN_MAXSIZE_eq (va : Nat) : ROUNDDOWN va MAXSIZE = va / 4194304 * 4194304 := by
  unfold ROUNDDOWN
  have : BLOCKSIZE MAXSIZE = 4194304 := by decide
  rw [this]

theorem PGROUNDDOWN_eq (va : Nat) : PGROUNDDOWN va = va / 4096 * 4096 := rfl

theorem PTE_ADDR_eq (x : Nat) : PTE_ADDR x = x / 4096 * 4096 := rfl

theorem PDX_ROUNDDOWN (va : Nat) : PDX (ROUNDDOWN va MAXSIZE) = PDX va := by
  rw [PDX_eq, PDX_eq, ROUNDDOWN_MAXSIZE_eq]
  congr 1
  omega

theorem PDX_PGROUNDDOWN (va : Nat) : PDX (PGROUNDDOWN va) = PDX va := by
  rw [PDX_eq, PDX_eq, PGROUNDDOWN_eq]
  congr 1
  omega

theorem PTX_PGROUNDDOWN (va : Nat) : PTX (PGROUNDDOWN va) = PTX va := by
  rw [PTX_eq, PTX_eq, PGROUNDDOWN_eq]
  congr 1
  omega

theorem PDX_same_huge (va j : Nat) (h : j < 4194304 - va % 4194304) : PDX (va + j) = PDX va := by
  rw [PDX_eq, PDX_eq]
  congr 1
  omega

theorem PDX_same_small (va j : Nat) (h : j < 4096 - va % 4096) : PDX (va + j) = PDX va := by
  rw [PDX_eq, PDX_eq]
  congr 1
  omega

theorem PTX_same_small (va j : Nat) (h : j < 4096 - va % 4096) : PTX (va + j) = PTX va := by
  rw [PTX_eq, PTX_eq]
  congr 1
  omega

theorem translate_def (m : Nat → Nat) (pgdir va : Nat) :
    translate m pgdir va =
      if pde_of m pgdir va &&& PTE_P = 0 then none
      else if pde_of m pgdir va &&& PTE_PS ≠ 0 then
        some (pde_of m pgdir va / MAXPGSIZE * MAXPGSIZE + va % MAXPGSIZE)
      else if rd32 m (pte_addr m pgdir va) &&& PTE_P = 0 then none
      else some (PTE_ADDR (rd32 m (pte_addr m pgdir va)) + va % PGSIZE) := rfl

theorem translate_huge (m : Nat → Nat) (pgdir va : Nat) (h : user_tile m pgdir va)
    (hps : pde_of m pgdir va &&& PTE_PS ≠ 0) :
    translate m pgdir va = some (PTE_ADDR (pde_of m pgdir va) + va % 4194304) := by
  obtain ⟨hp, h2⟩ := h
  rw [if_pos hps] at h2
  obtain ⟨_, _, hal⟩ := h2
  rw [translate_def, if_neg hp, if_pos hps, MAXPGSIZE_eq]
  rw [MAXPGSIZE_eq, PTE_ADDR_eq] at hal
  rw [PTE_ADDR_eq]
  have e : pde_of m pgdir va / 4194304 * 4194304 = pde_of m pgdir va / 4096 * 4096 := by
    omega
  rw [e]

theorem translate_small (m : Nat → Nat) (pgdir va : Nat) (h : user_tile m pgdir va)
    (hps : pde_of m pgdir va &&& PTE_PS = 0) :
    translate m pgdir va = some (PTE_ADDR (rd32 m (pte_addr m pgdir va)) + va % 4096) := by
  obtain ⟨hp, h2⟩ := h
  rw [if_neg (by simp [hps])] at h2
  obtain ⟨_, hpp, _, _⟩ := h2
  rw [translate_def, if_neg hp, if_neg (by simp [hps]), if_neg hpp, PGSIZE_eq]

/-- Memory that agrees on four consecutive bytes holds the same word there. -/
theorem rd32_congr (m m2 : Nat → Nat) (a : Nat) (h : ∀ b < 4, m2 (a + b) = m (a + b)) :
    rd32 m2 a = rd32 m a := by
  unfold rd32
  have h0 := h 0 (by norm_num)
  rw [Nat.add_zero] at h0
  rw [h0, h 1 (by norm_num), h 2 (by norm_num), h 3 (by norm_num)]

/-- The tile of `va` looks the same in memory that agrees on the entries that
map `va`. -/
theorem walk_congr (m m2 : Nat → Nat) (pgdir va : Nat)
    (hpde : ∀ b < 4, m2 (pgdir + 4 * PDX va + b) = m (pgdir + 4 * PDX va + b))
    (hpte : pde_of m pgdir va &&& PTE_PS = 0 →
      ∀ b < 4, m2 (pte_addr m pgdir va + b) = m (pte_addr m pgdir va + b)) :
    pde_of m2 pgdir va = pde_of m pgdir va ∧
    translate m2 pgdir va = translate m pgdir va ∧
    (user_tile m2 pgdir va ↔ user_tile m pgdir va) ∧
    (pde_of m pgdir va &&& PTE_PS = 0 → pte_addr m2 pgdir va = pte_addr m pgdir va) := by
  have e1 : pde_of m2 pgdir va = pde_of m pgdir va := rd32_congr m m2 _ hpde
  have e2 : pte_addr m2 pgdir va = pte_addr m pgdir va := by
    unfold pte_addr
    rw [e1]
  refine ⟨e1, ?_, ?_, fun _ => e2⟩
  · rw [translate_def, translate_def, e1, e2]
    by_cases hps : pde_of m pgdir va &&& PTE_PS = 0
    · rw [rd32_congr m m2 _ (hpte hps)]
    · simp [hps]
  · unfold user_tile
    rw [e1, e2]
    by_cases hps : pde_of m pgdir va &&& PTE_PS = 0
    · rw [rd32_congr m m2 _ (hpte hps)]
    · simp [hps]

theorem pde_of_same (m : Nat → Nat) (pgdir va vb : Nat) (h : PDX vb = PDX va) :
    pde_of m pgdir vb = pde_of m pgdir va := by
  unfold pde_of
  rw [h]

theorem pte_addr_same (m : Nat → Nat) (pgdir va vb : Nat) (h : PDX vb = PDX va)
    (h2 : PTX vb = PTX va) : pte_addr m pgdir vb = pte_addr m pgdir va := by
  unfold pte_addr
  rw [pde_of_same m pgdir va vb h, h2]

theorem uva2ka_huge (kend : Nat) (st : KState) (pgdir va v0 : Nat)
    (h : user_tile st.mem pgdir va) (hps : pde_of st.mem pgdir va &&& PTE_PS ≠ 0)
    (hv : PDX v0 = PDX va) :
    uva2ka kend st pgdir v0 = .ok (PTE_ADDR (pde_of st.mem pgdir va)) := by
  obtain ⟨hp, h2⟩ := h
  rw [if_pos hps] at h2
  obtain ⟨hu, _, _⟩ := h2
  have e : rd32 st.mem (pgdir + 4 * PDX v0) = pde_of st.mem pgdir va := by
    rw [hv]
    rfl
  unfold uva2ka
  simp only [e]
  rw [if_pos ⟨hps, hp⟩, if_neg hp, if_neg hu]

theorem uva2ka_small (kend : Nat) (st : KState) (pgdir va v0 : Nat)
    (h : user_tile st.mem pgdir va) (hps : pde_of st.mem pgdir va &&& PTE_PS = 0)
    (hv : PDX v0 = PDX va) (hv2 : PTX v0 = PTX va) :
    uva2ka kend st pgdir v0 = .ok (PTE_ADDR (rd32 st.mem (pte_addr st.mem pgdir va))) := by
  obtain ⟨hp, h2⟩ := h
  rw [if_neg (by simp [hps])] at h2
  obtain ⟨hnz, hpp, hpu, _⟩ := h2
  have e : rd32 st.mem (pgdir + 4 * PDX v0) = pde_of st.mem pgdir va := by
    rw [hv]
    rfl
  have e2 : PTE_ADDR (pde_of st.mem pgdir va) + 4 * PTX v0 = pte_addr st.mem pgdir va := by
    rw [hv2]
    rfl
  unfold uva2ka walkpgdir
  simp only [e, e2]
  rw [if_neg (by simp [hps]), if_pos hp]
  simp only []
  rw [if_neg hnz, if_neg hpp, if_neg hpu]

theorem copyout_loop_zero_len (kend pgdir fuel va p : Nat) (st : KState) :
    copyout_loop kend pgdir fuel va p 0 st = .ok (0, st) := by
  cases fuel <;> simp [copyout_loop]

/-- One round of the loop of `copyout` on a user tile: the bytes up to the end
of the tile (at most `len`) are copied to where the tile translates them. -/
theorem copyout_step (kend pgdir fuel va p len : Nat) (st : KState)
    (h : user_tile st.mem pgdir va) (hlen : 0 < len) :
    ∃ D dst, (D = 4194304 ∨ D = 4096) ∧
      copyout_loop kend pgdir (fuel + 1) va p len st =
        copyout_loop kend pgdir fuel ((va / D * D + D) % 2 ^ 32)
          (p + (if D - va % D > len then len else D - va % D))
          (len - (if D - va % D > len then len else D - va % D))
          { st with mem := memmove st.mem dst p (if D - va % D > len then len else D - va % D) } ∧
      ∀ j < D - va % D, translate st.mem pgdir (va + j) = some (dst + j) := by
  have hsub4M : va - va / 4194304 * 4194304 = va % 4194304 := by omega
  have hsub4K : va - va / 4096 * 4096 = va % 4096 := by omega
  have e0 : rd32 st.mem (pgdir + 4 * PDX (ROUNDDOWN va MAXSIZE)) = pde_of st.mem pgdir va := by
    rw [PDX_ROUNDDOWN]
    rfl
  by_cases hps : pde_of st.mem pgdir va &&& PTE_PS = 0
  · refine ⟨4096, PTE_ADDR (rd32 st.mem (pte_addr st.mem pgdir va)) + va % 4096, Or.inr rfl, ?_, ?_⟩
    · have hu := uva2ka_small kend st pgdir va (PGROUNDDOWN va) h hps (PDX_PGROUNDDOWN va)
        (PTX_PGROUNDDOWN va)
      have hfr : PTE_ADDR (rd32 st.mem (pte_addr st.mem pgdir va)) ≠ 0 := by
        have := h.2
        rw [if_neg (by simp [hps])] at this
        exact this.2.2.2
      have hc : ¬ (pde_of st.mem pgdir va &&& PTE_P ≠ 0 ∧ pde_of st.mem pgdir va &&& PTE_PS ≠ 0) :=
        fun hc => hc.2 hps
      rw [copyout_loop, if_pos hlen]
      simp only [e0]
      simp only [if_neg hc, hu]
      rw [if_neg hfr, PGSIZE_eq, PGROUNDDOWN_eq, hsub4K]
    · intro j hj
      have hsame := pde_of_same st.mem pgdir va (va + j) (PDX_same_small va j hj)
      have hsame2 := pte_addr_same st.mem pgdir va (va + j) (PDX_same_small va j hj)
        (PTX_same_small va j hj)
      have hp := h.1
      have hpp := h.2
      rw [if_neg (by simp [hps])] at hpp
      rw [translate_def, hsame, hsame2, if_neg hp, if_neg (by simp [hps]), if_neg hpp.2.1,
        PGSIZE_eq]
      exact congrArg some (by omega)
  · refine ⟨4194304, PTE_ADDR (pde_of st.mem pgdir va) + va % 4194304, Or.inl rfl, ?_, ?_⟩
    · have hu := uva2ka_huge kend st pgdir va (ROUNDDOWN va MAXSIZE) h hps (PDX_ROUNDDOWN va)
      have hfr : PTE_ADDR (pde_of st.mem pgdir va) ≠ 0 := by
        have := h.2
        rw [if_pos hps] at this
        exact this.2.1
      have hp := h.1
      have hc : pde_of st.mem pgdir va &&& PTE_P ≠ 0 ∧ pde_of st.mem pgdir va &&& PTE_PS ≠ 0 :=
        ⟨hp, hps⟩
      rw [copyout_loop, if_pos hlen]
      simp only [e0]
      simp only [if_pos hc, hu]
      rw [if_neg hfr, MAXPGSIZE_eq, ROUNDDOWN_MAXSIZE_eq, hsub4M]
    · intro j hj
      have hsame := pde_of_same st.mem pgdir va (va + j) (PDX_same_huge va j hj)
      have hut : user_tile st.mem pgdir (va + j) := by
        unfold user_tile
        rw [hsame]
        have := h
        unfold user_tile at this
        rw [if_pos hps] at this
        rw [if_pos hps]
        exact this
      rw [translate_huge st.mem pgdir (va + j) hut (by rw [hsame]; exact hps), hsame]
      exact congrArg some (by omega)

theorem memmove_outside (m : Nat → Nat) (dst src n x : Nat) (h : ¬ (dst ≤ x ∧ x < dst + n)) :
    memmove m dst src n x = m x := by
  unfold memmove
  rw [if_neg h]

theorem memmove_inside (m : Nat → Nat) (dst src n j : Nat) (h : j < n) :
    memmove m dst src n (dst + j) = m (src + j) := by
  unfold memmove
  rw [if_pos ⟨by omega, by omega⟩, Nat.add_sub_cancel_left]

/-- The loop of `copyout` on a range that satisfies `CopyoutPre`: it returns 0,
every byte of the buffer is stored where the range translates to, and no other
byte changes. -/
theorem copyout_loop_spec (kend pgdir : Nat) :
    ∀ fuel va p len (st : KState), len ≤ fuel → CopyoutPre st.mem pgdir va p len →
      ∃ st2, copyout_loop kend pgdir fuel va p len st = .ok (0, st2) ∧
        st2.fal = st.fal ∧ st2.freed = st.freed ∧
        (∀ j < len, ∀ x, translate st.mem pgdir (va + j) = some x →
          st2.mem x = st.mem (p + j)) ∧
        (∀ x, (∀ j < len, translate st.mem pgdir (va + j) ≠ some x) → st2.mem x = st.mem x) := by
  intro fuel
  induction fuel with
  | zero =>
    intro va p len st hle _
    have : len = 0 := by omega
    subst this
    exact ⟨st, copyout_loop_zero_len _ _ _ _ _ _, rfl, rfl, fun j hj => by omega, fun x _ => rfl⟩
  | succ fuel ih =>
    intro va p len st hle h
    by_cases hlen : len = 0
    · subst hlen
      exact ⟨st, copyout_loop_zero_len _ _ _ _ _ _, rfl, rfl, fun j hj => by omega,
        fun x _ => rfl⟩
    have hpos : 0 < len := Nat.pos_of_ne_zero hlen
    have ht : user_tile st.mem pgdir va := by
      have := h.tiles 0 hpos
      simpa using this
    obtain ⟨D, dst, hD, hstep, hF1⟩ := copyout_step kend pgdir fuel va p len st ht hpos
    have hnw := h.nowrap
    generalize hn : (if D - va % D > len then len else D - va % D) = n at hstep
    have hnle : n ≤ len := by
      rw [← hn]
      split <;> omega
    have hnD : n ≤ D - va % D := by
      rw [← hn]
      split <;> omega
    have hnpos : 0 < n := by
      rw [← hn]
      rcases hD with rfl | rfl <;> split <;> omega
    have hF2a : ∀ x, ¬ (dst ≤ x ∧ x < dst + n) → memmove st.mem dst p n x = st.mem x :=
      fun x hx => memmove_outside _ _ _ _ _ hx
    have hwr : ∀ x, dst ≤ x ∧ x < dst + n →
        ∃ j < n, translate st.mem pgdir (va + j) = some x := by
      intro x hx
      refine ⟨x - dst, by omega, ?_⟩
      rw [hF1 (x - dst) (by omega)]
      exact congrArg some (by omega)
    have hF3 : ∀ i < len,
        pde_of (memmove st.mem dst p n) pgdir (va + i) = pde_of st.mem pgdir (va + i) ∧
        translate (memmove st.mem dst p n) pgdir (va + i) = translate st.mem pgdir (va + i) ∧
        (user_tile (memmove st.mem dst p n) pgdir (va + i) ↔ user_tile st.mem pgdir (va + i)) ∧
        (pde_of st.mem pgdir (va + i) &&& PTE_PS = 0 →
          pte_addr (memmove st.mem dst p n) pgdir (va + i) = pte_addr st.mem pgdir (va + i)) := by
      intro i hi
      apply walk_congr
      · intro b hb
        apply hF2a
        intro hx
        obtain ⟨j, hj, hjt⟩ := hwr _ hx
        exact h.sep_pde i hi j (by omega) b hb hjt
      · intro hps b hb
        apply hF2a
        intro hx
        obtain ⟨j, hj, hjt⟩ := hwr _ hx
        exact h.sep_pte i hi j (by omega) b hb hps hjt
    rw [hstep]
    by_cases hnl : n = len
    · subst hnl
      rw [Nat.sub_self, copyout_loop_zero_len]
      refine ⟨_, rfl, rfl, rfl, ?_, ?_⟩
      · intro j hj x hx
        rw [hF1 j (by omega)] at hx
        cases hx
        exact memmove_inside _ _ _ _ _ hj
      · intro x hx
        apply hF2a
        intro hc
        obtain ⟨j, hj, hjt⟩ := hwr _ hc
        exact hx j hj hjt
    · have hnlt : n < len := lt_of_le_of_ne hnle hnl
      have hnD2 : n = D - va % D := by
        rw [← hn] at hnlt ⊢
        split at hnlt
        · omega
        · rw [if_neg (by assumption)]
      have hva : (va / D * D + D) % 2 ^ 32 = va + n := by
        rcases hD with rfl | rfl <;> omega
      rw [hva]
      have hpre : CopyoutPre (memmove st.mem dst p n) pgdir (va + n) (p + n) (len - n) := by
        constructor
        · omega
        · intro j hj
          rw [Nat.add_assoc va n j]
          exact (hF3 (n + j) (by omega)).2.2.1.mpr (h.tiles (n + j) (by omega))
        · intro i hi j hj b hb
          rw [Nat.add_assoc va n j, Nat.add_assoc va n i, (hF3 (n + j) (by omega)).2.1]
          exact h.sep_pde (n + i) (by omega) (n + j) (by omega) b hb
        · intro i hi j hj b hb hps
          rw [Nat.add_assoc va n i] at hps ⊢
          rw [(hF3 (n + i) (by omega)).1] at hps
          rw [Nat.add_assoc va n j, (hF3 (n + j) (by omega)).2.1,
            (hF3 (n + i) (by omega)).2.2.2 hps]
          exact h.sep_pte (n + i) (by omega) (n + j) (by omega) b hb hps
        · intro i hi j hj
          rw [Nat.add_assoc va n j, Nat.add_assoc p n i, (hF3 (n + j) (by omega)).2.1]
          exact h.sep_buf (n + i) (by omega) (n + j) (by omega)
        · intro i hi j hj he
          rw [Nat.add_assoc va n j, Nat.add_assoc va n i, (hF3 (n + j) (by omega)).2.1,
            (hF3 (n + i) (by omega)).2.1] at he
          have := h.inj (n + i) (by omega) (n + j) (by omega) he
          omega
      obtain ⟨st2, hres, hfal, hfreed, hQ1, hQ2⟩ :=
        ih (va + n) (p + n) (len - n) { st with mem := memmove st.mem dst p n } (by omega) hpre
      refine ⟨st2, hres, hfal, hfreed, ?_, ?_⟩
      · intro j hj x hx
        by_cases hjn : j < n
        · have hxe : x = dst + j := by
            rw [hF1 j (by omega)] at hx
            cases hx
            rfl
          have h1 : st2.mem x = memmove st.mem dst p n x := by
            apply hQ2
            intro j2 hj2 hc
            simp only at hc
            rw [Nat.add_assoc va n j2, (hF3 (n + j2) (by omega)).2.1, ← hx] at hc
            have := h.inj (n + j2) (by omega) j hj hc
            omega
          rw [h1, hxe]
          exact memmove_inside _ _ _ _ _ hjn
        · have hj2 : j = n + (j - n) := by omega
          have h1 : st2.mem x = memmove st.mem dst p n (p + n + (j - n)) := by
            apply hQ1 (j - n) (by omega)
            simp only
            rw [Nat.add_assoc va n (j - n), ← hj2, (hF3 j hj).2.1]
            exact hx
          rw [h1, Nat.add_assoc p n (j - n), ← hj2]
          apply hF2a
          intro hc
          obtain ⟨i, hi, hit⟩ := hwr _ hc
          exact h.sep_buf j hj i (by omega) hit
      · intro x hx
        have h1 : st2.mem x = memmove st.mem dst p n x := by
          apply hQ2
          intro j2 hj2 hc
          simp only at hc
          rw [Nat.add_assoc va n j2, (hF3 (n + j2) (by omega)).2.1] at hc
          exact hx (n + j2) (by omega) hc
        rw [h1]
        apply hF2a
        intro hc
        obtain ⟨j, hj, hjt⟩ := hwr _ hc
        exact hx j (by omega) hjt

/-- C10 (copy_out writes exactly the requested range).  For a range
`[va, va + len)` that does not wrap and lies under present user tiles (huge or
small) of a well-formed address space (`CopyoutPre`: the frames written hold
neither the entries that map the range nor the buffer, and distinct bytes of the
range have distinct frames bytes), `copyout` returns 0, stores the buffer byte
`j` at the physical address `va + j` translates to, changes no other byte of
memory and leaves the allocator alone. -/
theorem copyout_writes_range (kend : Nat) (st : KState) (pgdir va p len : Nat)
    (h : CopyoutPre st.mem pgdir va p len) :
    ∃ st2, copyout kend st pgdir va p len = .ok (0, st2) ∧
      st2.fal = st.fal ∧
      (∀ j < len, ∀ x, translate st.mem pgdir (va + j) = some x →
        st2.mem x = st.mem (p + j)) ∧
      (∀ x, (∀ j < len, translate st.mem pgdir (va + j) ≠ some x) → st2.mem x = st.mem x) := by
  obtain ⟨st2, h1, h2, _, h4, h5⟩ := copyout_loop_spec kend pgdir len va p len st (le_refl _) h
  exact ⟨st2, h1, h2, h4, h5⟩

/-- The concrete machine of the copy-out scenario satisfies `CopyoutPre`: a huge
tile at virtual 0, a small tile at 4 MiB, and 32 bytes to copy to 4 MiB − 16. -/
theorem ex_copyout_pre :
    CopyoutPre ex_state_copyout.mem 0x1400000 (0x400000 - 16) 0x1410000 32 := by
  exact ⟨by decide, by decide!, by decide!, by decide!, by decide!, by decide!⟩

theorem copyout_writes_range_witness :
    CopyoutPre ex_state_copyout.mem 0x1400000 (0x400000 - 16) 0x1410000 32 ∧
    ∃ st2, copyout ex_kend ex_state_copyout 0x1400000 (0x400000 - 16) 0x1410000 32 =
        .ok (0, st2) ∧
      st2.fal = ex_state_copyout.fal ∧
      (∀ j < 32, ∀ x, translate ex_state_copyout.mem 0x1400000 (0x400000 - 16 + j) = some x →
        st2.mem x = ex_state_copyout.mem (0x1410000 + j)) ∧
      (∀ x, (∀ j < 32, translate ex_state_copyout.mem 0x1400000 (0x400000 - 16 + j) ≠ some x) →
        st2.mem x = ex_state_copyout.mem x) :=
  ⟨ex_copyout_pre,
    copyout_writes_range ex_kend ex_state_copyout 0x1400000 (0x400000 - 16) 0x1410000 32
      ex_copyout_pre⟩

/-- The copy-out scenario evaluated: 16 bytes go to the end of the huge frame
`0x1800000`, 16 to the start of the small frame `0x1401000`, and the bytes next
to them are untouched. -/
theorem copyout_straddles_tiles :
    result_value (copyout ex_kend ex_state_copyout 0x1400000 (0x400000 - 16) 0x1410000 32) =
      some 0 ∧
    (List.range 18).map (fun j => (result_state ex_state_copyout
      (copyout ex_kend ex_state_copyout 0x1400000 (0x400000 - 16) 0x1410000 32)).mem
        (0x1800000 + 0x400000 - 17 + j)) =
      [0, 1, 2, 3, 4, 5, 6, 7, 8, 9, 10, 11, 12, 13, 14, 15, 16, 0] ∧
    (List.range 18).map (fun j => (result_state ex_state_copyout
      (copyout ex_kend ex_state_copyout 0x1400000 (0x400000 - 16) 0x1410000 32)).mem
        (0x1401000 + j)) =
      [17, 18, 19, 20, 21, 22, 23, 24, 25, 26, 27, 28, 29, 30, 31, 32, 0, 0] := by
  refine ⟨by decide!, by decide!, by decide!⟩

/-! ## Words of the page tables -/

theorem rd32_wr32_same (m : Nat → Nat) (a v : Nat) : rd32 (wr32 m a v) a = v % 2 ^ 32 := by
  unfold rd32 wr32
  simp only [if_true, Nat.add_right_eq_self, OfNat.ofNat_ne_zero, if_false, Nat.add_right_inj,
    OfNat.ofNat_ne_one, Nat.succ_ne_self, Nat.reduceEqDiff]
  omega

theorem rd32_wr32_other (m : Nat → Nat) (a v w : Nat) (ha : a % 4 = 0) (hw : w % 4 = 0)
    (hne : w ≠ a) : rd32 (wr32 m a v) w = rd32 m w := by
  apply rd32_congr
  intro b hb
  unfold wr32
  rw [if_neg (by omega), if_neg (by omega), if_neg (by omega), if_neg (by omega)]

theorem pte_addr_aligned (m : Nat → Nat) (pgdir va : Nat) : pte_addr m pgdir va % 4 = 0 := by
  unfold pte_addr
  rw [PTE_ADDR_eq]
  omega

theorem walkpgdir_nocreate (kend : Nat) (st : KState) (pgdir va : Nat) :
    walkpgdir kend st pgdir va false =
      if pde_of st.mem pgdir va &&& PTE_P ≠ 0 then .ok (pte_addr st.mem pgdir va, st)
      else .ok (0, st) := by
  unfold walkpgdir pte_addr pde_of
  simp

theorem zero_and_PTE_P : (0 : Nat) &&& PTE_P = 0 := by decide

theorem BLOCKSIZE_mod (k : Nat) : BLOCKSIZE k % 4096 = 0 := by
  unfold BLOCKSIZE
  rw [PGSIZE_eq]
  exact Nat.mul_mod_right _ _

theorem freeAll_split_loop (P : Nat → Nat → Prop) (kend p min : Nat)
    (hhalf : ∀ k q, P (k + 1) q → P k q ∧ P k (q + BLOCKSIZE k)) :
    ∀ d s, FreeAll P s → min + d ≤ MAXSIZE → P (min + d) p →
      FreeAll P (split_loop kend p min d s) ∧ P min p := by
  intro d
  induction d with
  | zero =>
    intro s h _ hp
    exact ⟨by simpa [split_loop] using h, hp⟩
  | succ d ih =>
    intro s h hle hp
    rw [split_loop_succ]
    obtain ⟨hp1, hp2⟩ := hhalf (min + d) p hp
    apply ih _ _ (by omega) hp1
    intro k hk q hq
    rw [split_step_free_list] at hq
    split at hq
    · rename_i hkj
      subst hkj
      rcases List.mem_cons.mp hq with h1 | h1
      · subst h1
        exact hp2
      · exact h _ hk q h1
    · exact h k hk q hq

/-- `buddy_alloc` of at most 4 MiB has a result; a property of the free blocks
that halves inherit holds for the free blocks afterwards and for the block
returned. -/
theorem freeAll_alloc (P : Nat → Nat → Prop) (kend : Nat) (s : FreeAreaList) (n : Nat)
    (hhalf : ∀ k q, P (k + 1) q → P k q ∧ P k (q + BLOCKSIZE k))
    (h : FreeAll P s) (hn : n ≤ MAXPGSIZE) :
    ∃ p s2, buddy_alloc kend s n = some (p, s2) ∧ FreeAll P s2 ∧
      ((p = 0 ∧ s2 = s) ∨ ∃ m, min_order n = some m ∧ P m p) := by
  have hMO : MAXORDER = MAXSIZE + 1 := rfl
  obtain ⟨m, hm, hmle, _, _⟩ := min_order_le_MAXSIZE n hn
  unfold buddy_alloc
  rw [hm]
  simp only
  obtain ⟨h1, h2, h3, _⟩ := scan_free_spec s MAXORDER m (by omega)
  by_cases hi : scan_free s MAXORDER m = MAXORDER
  · rw [if_pos hi]
    exact ⟨0, s, rfl, h, Or.inl ⟨rfl, rfl⟩⟩
  · rw [if_neg hi]
    have hlt : scan_free s MAXORDER m < MAXORDER := lt_of_le_of_ne (h2 (by omega)) hi
    have hne := h3 hlt
    generalize scan_free s MAXORDER m = i at *
    have hile : i ≤ MAXSIZE := by omega
    cases hl : s.free_list i with
    | nil => exact absurd hl hne
    | cons X rest =>
      simp only [list_pop]
      have hX := h i hile X (by rw [hl]; exact List.mem_cons_self _ _)
      have e : m + (i - m) = i := by omega
      obtain ⟨hf, hpm⟩ := freeAll_split_loop P kend X m hhalf (i - m)
        ((s.with_free_list i rest).with_allocated i
          (set_bit ((s.with_free_list i rest).allocated i) (get_index kend X i))) (by
          intro k hk q hq
          simp only [with_allocated_free_list, with_free_list_free_list] at hq
          split at hq
          · rename_i hki
            subst hki
            exact h k hk q (by rw [hl]; exact List.mem_cons_of_mem _ hq)
          · exact h k hk q hq) (by omega) (by rw [e]; exact hX)
      exact ⟨X, _, rfl, hf, Or.inr ⟨m, rfl, hpm⟩⟩

theorem min_order_page : min_order 4096 = some 0 := by decide

/-- `copyout` of at least one byte to an address whose directory entry is not
present: `walkpgdir` returns a null pointer and `uva2ka` reads through it. -/
theorem copyout_absent_entry (kend : Nat) (st : KState) (pgdir va p len : Nat) (hlen : 0 < len)
    (habs : pde_of st.mem pgdir va &&& PTE_P = 0) :
    copyout kend st pgdir va p len = .error (Fault.undefined "uva2ka: null pte") := by
  obtain ⟨n, rfl⟩ : ∃ n, len = n + 1 := ⟨len - 1, by omega⟩
  have e0 : PDX (ROUNDDOWN va MAXSIZE) = PDX va := PDX_ROUNDDOWN va
  have e1 : PDX (PGROUNDDOWN va) = PDX va := PDX_PGROUNDDOWN va
  have habs2 : rd32 st.mem (pgdir + 4 * PDX va) &&& PTE_P = 0 := habs
  unfold copyout
  rw [copyout_loop, if_pos hlen]
  simp only [e0]
  have hc : ¬ (rd32 st.mem (pgdir + 4 * PDX va) &&& PTE_P ≠ 0 ∧
      rd32 st.mem (pgdir + 4 * PDX va) &&& PTE_PS ≠ 0) := fun h => h.1 habs2
  simp only [if_neg hc]
  unfold uva2ka
  simp only [e1]
  have hc2 : ¬ (rd32 st.mem (pgdir + 4 * PDX va) &&& PTE_PS ≠ 0 ∧
      rd32 st.mem (pgdir + 4 * PDX va) &&& PTE_P ≠ 0) := fun h => h.2 habs2
  rw [if_neg hc2, walkpgdir_nocreate]
  have hc3 : ¬ (pde_of st.mem pgdir (PGROUNDDOWN va) &&& PTE_P ≠ 0) := by
    unfold pde_of
    rw [e1]
    exact fun h => h habs2
  rw [if_neg hc3]
  rfl

/-- `copyout` of at least one byte to an address under a present directory
entry whose tile is not a user tile (a huge entry without the user bit, or a
leaf entry that is not present or has no user bit) returns -1 and writes
nothing. -/
theorem copyout_first_tile_rejected (kend : Nat) (st : KState) (pgdir va p len : Nat)
    (hlen : 0 < len) (hpres : pde_of st.mem pgdir va &&& PTE_P ≠ 0)
    (hbad : (pde_of st.mem pgdir va &&& PTE_PS ≠ 0 ∧ pde_of st.mem pgdir va &&& PTE_U = 0) ∨
      (pde_of st.mem pgdir va &&& PTE_PS = 0 ∧ pte_addr st.mem pgdir va ≠ 0 ∧
        (rd32 st.mem (pte_addr st.mem pgdir va) &&& PTE_P = 0 ∨
          rd32 st.mem (pte_addr st.mem pgdir va) &&& PTE_U = 0))) :
    copyout kend st pgdir va p len = .ok (-1, st) := by
  have e0 : PDX (ROUNDDOWN va MAXSIZE) = PDX va := PDX_ROUNDDOWN va
  have e1 : PDX (PGROUNDDOWN va) = PDX va := PDX_PGROUNDDOWN va
  have e2 : PTX (PGROUNDDOWN va) = PTX va := PTX_PGROUNDDOWN va
  have hd : rd32 st.mem (pgdir + 4 * PDX va) = pde_of st.mem pgdir va := rfl
  obtain ⟨n, rfl⟩ : ∃ n, len = n + 1 := ⟨len - 1, by omega⟩
  unfold copyout
  rw [copyout_loop, if_pos hlen]
  simp only [e0, hd]
  rcases hbad with ⟨hps, hu⟩ | ⟨hps, hnz, hleaf⟩
  · simp only [if_pos (And.intro hpres hps)]
    unfold uva2ka
    simp only [e0, hd]
    rw [if_pos ⟨hps, hpres⟩, if_neg hpres, if_pos hu]
    simp
  · have hc : ¬ (pde_of st.mem pgdir va &&& PTE_P ≠ 0 ∧ pde_of st.mem pgdir va &&& PTE_PS ≠ 0) :=
      fun h => h.2 hps
    simp only [if_neg hc]
    unfold uva2ka
    simp only [e1, hd]
    have hc2 : ¬ (pde_of st.mem pgdir va &&& PTE_PS ≠ 0 ∧ pde_of st.mem pgdir va &&& PTE_P ≠ 0) :=
      fun h => h.1 hps
    rw [if_neg hc2, walkpgdir_nocreate]
    have hp2 : pde_of st.mem pgdir (PGROUNDDOWN va) = pde_of st.mem pgdir va := by
      unfold pde_of
      rw [e1]
    have hp3 : pte_addr st.mem pgdir (PGROUNDDOWN va) = pte_addr st.mem pgdir va := by
      unfold pte_addr
      rw [hp2, e2]
    rw [hp2, hp3, if_pos hpres]
    simp only
    rw [if_neg hnz]
    rcases hleaf with h1 | h1
    · rw [if_pos h1]
      simp
    · by_cases h2 : rd32 st.mem (pte_addr st.mem pgdir va) &&& PTE_P = 0
      · rw [if_pos h2]
        simp
      · rw [if_neg h2, if_pos h1]
        simp

/-- C11 (copy_out rejects bad user addresses), evaluated on an empty page
directory: `copyout(pgdir, 0, buf, 1)` finds the directory entry of virtual 0
absent, `walkpgdir` returns the null pointer and `uva2ka` dereferences it
(`*pte & PTE_P`): the call has no defined result instead of returning -1. -/
theorem copyout_derefs_null_pte :
    pde_of ex_state_fresh.mem 0x1400000 0 &&& PTE_P = 0 ∧
    translate ex_state_fresh.mem 0x1400000 0 = none ∧
    copyout ex_kend ex_state_fresh 0x1400000 0 0x1410000 1 =
      .error (Fault.undefined "uva2ka: null pte") :=
  ⟨by decide, by decide, copyout_absent_entry ex_kend ex_state_fresh 0x1400000 0 0x1410000 1
    (by decide) (by decide)⟩

/-- The guard of `kfree` lets every page-aligned pointer of `[end, PHYSTOP)`
through to `buddy_free`. -/
theorem kfree_guard (kend PHYSTOP : Nat) (st : KState) (v : Nat) (hal : v % PGSIZE = 0)
    (h1 : kend ≤ v) (h2 : v < PHYSTOP) :
    kfree kend PHYSTOP st v =
      .ok { st with
        mem := store_words st.mem (buddy_free_stores kend st.fal v),
        fal := buddy_free kend st.fal v, freed := v :: st.freed } := by
  unfold kfree
  rw [if_neg]
  omega

/-- C14 (kfree rejects invalid pointers), evaluated with two huge blocks and one
live allocation of two pages at the base `0x1400000`: the pointer `0x13FF000` is
page aligned and lies in `[end, PHYSTOP)` but below the base of the allocator
region.  `kfree` does not panic; `buddy_free` takes the pointer for the live
block of index 0 (every index it computes is `-4096 / BLOCKSIZE(i) = 0`), clears
its bits, merges it with every free buddy up to the top order and pushes
`0x13FF000` onto the slot `MAXORDER`: all lists of the array are empty
afterwards. -/
theorem kfree_accepts_pointer_below_base :
    0x13FF000 % PGSIZE = 0 ∧ ex_kend ≤ 0x13FF000 ∧ 0x13FF000 < ROUNDUP ex_kend MAXSIZE ∧
    fault_of (kfree ex_kend ex_PHYSTOP2 ex_state_two_pages_live 0x13FF000) = none ∧
    (state_of ex_state_two_pages_live
      (kfree ex_kend ex_PHYSTOP2 ex_state_two_pages_live 0x13FF000)).freed = [0x13FF000] ∧
    Abit ex_state_two_pages_live.fal 1 0 = true ∧
    Abit (state_of ex_state_two_pages_live
      (kfree ex_kend ex_PHYSTOP2 ex_state_two_pages_live 0x13FF000)).fal 1 0 = false ∧
    (List.range 11).map (state_of ex_state_two_pages_live
      (kfree ex_kend ex_PHYSTOP2 ex_state_two_pages_live 0x13FF000)).fal.free_list =
        [[], [], [], [], [], [], [], [], [], [], []] ∧
    (state_of ex_state_two_pages_live
      (kfree ex_kend ex_PHYSTOP2 ex_state_two_pages_live 0x13FF000)).fal.free_list MAXORDER =
        [0x13FF000] := by
  refine ⟨by decide, by decide, by decide, by decide!, by decide!, by decide!, by decide!,
    by decide!, by decide!⟩

/-- C18 (free stays within the order range), evaluated with two huge blocks and
one live allocation of two pages at `0x1400000`: `buddy_free` starts at order 1,
merges up to the top order, finds the allocated bit of the neighbouring huge
block clear, goes round once more and leaves its loop with `i = MAXORDER`
(11, one above the top order `MAXSIZE`): the merged block is pushed onto
`free_areas[MAXORDER]`, past the end of the array, and no list of the array
holds it. -/
theorem free_pushes_past_top_order :
    size_of ex_kend ex_state_two_pages_live.fal 0x1400000 = 1 ∧
    Abit ex_state_two_pages_live.fal MAXSIZE 1 = false ∧
    (free_loop ex_kend MAXORDER 1 0x1400000 ex_state_two_pages_live.fal).1 = MAXORDER ∧
    MAXORDER = MAXSIZE + 1 ∧
    (buddy_free ex_kend ex_state_two_pages_live.fal 0x1400000).free_list MAXORDER =
      [0x1400000] ∧
    (List.range 11).map (buddy_free ex_kend ex_state_two_pages_live.fal 0x1400000).free_list =
      [[], [], [], [], [], [], [], [], [], [], []] := by
  refine ⟨by decide!, by decide!, by decide!, by decide, by decide!, by decide!⟩

/-- C19 (huge-page choice in grow), evaluated on an empty directory with three
free huge blocks: `allocuvm(pgdir, 0, 4 MiB + 4 KiB)` computes `bytes_left` once,
before the loop.  At `a` = 4 MiB only 4 KiB remain up to `PGROUNDUP(newsz)`, but
`bytes_left` still holds 4 MiB + 4 KiB, so a second huge block is requested and
mapped: the call returns `newsz`, directory entry 1 is a huge entry and virtual
`0x7FFFFF`, above `PGROUNDUP(newsz)`, is mapped. -/
theorem allocuvm_stale_bytes_left :
    PGROUNDUP 0x401000 = 0x401000 ∧
    ex_state_fresh.fal.free_list MAXSIZE = [0x1800000, 0x1C00000, 0x2000000] ∧
    result_value (allocuvm ex_kend ex_PHYSTOP4 ex_USERTOP ex_state_fresh 0x1400000 0 0x401000) =
      some 0x401000 ∧
    (result_state ex_state_fresh (allocuvm ex_kend ex_PHYSTOP4 ex_USERTOP ex_state_fresh
      0x1400000 0 0x401000)).fal.free_list MAXSIZE = [0x2000000] ∧
    rd32 (result_state ex_state_fresh (allocuvm ex_kend ex_PHYSTOP4 ex_USERTOP ex_state_fresh
      0x1400000 0 0x401000)).mem (0x1400000 + 4 * 1) =
        0x1C00000 ||| (PTE_W ||| PTE_U) ||| PTE_P ||| PTE_PS ∧
    translate (result_state ex_state_fresh (allocuvm ex_kend ex_PHYSTOP4 ex_USERTOP
      ex_state_fresh 0x1400000 0 0x401000)).mem 0x1400000 0x7FFFFF = some 0x1FFFFFF := by
  refine ⟨by decide, by decide!, by decide!, by decide!, by decide!, by decide!⟩

/-! ## C15: what `buddy_alloc` does to the lists and bitmaps -/

theorem split_loop_free_list (kend p m : Nat) : ∀ d (s : FreeAreaList) (k : Nat),
    (split_loop kend p m d s).free_list k =
      if m ≤ k ∧ k < m + d then (p + BLOCKSIZE k) :: s.free_list k else s.free_list k := by
  intro d
  induction d with
  | zero =>
    intro s k
    rw [if_neg (by omega)]
    rfl
  | succ d ih =>
    intro s k
    rw [split_loop_succ, ih, split_step_free_list]
    by_cases h1 : k = m + d
    · subst h1
      rw [if_neg (by omega), if_pos rfl, if_pos (by omega)]
    · rw [if_neg h1]
      by_cases h2 : m ≤ k ∧ k < m + d
      · rw [if_pos h2, if_pos (by omega)]
      · rw [if_neg h2, if_neg (by omega)]

theorem split_loop_Abit (kend p m : Nat) : ∀ d (s : FreeAreaList) (k j : Nat),
    Abit (split_loop kend p m d s) k j =
      (if m ≤ k ∧ k < m + d ∧ get_index kend p k = j then true else Abit s k j) := by
  intro d
  induction d with
  | zero =>
    intro s k j
    rw [if_neg (by omega)]
    rfl
  | succ d ih =>
    intro s k j
    rw [split_loop_succ, ih, split_step_Abit]
    by_cases h1 : k = m + d ∧ get_index kend p (m + d) = j
    · obtain ⟨h1, h3⟩ := h1
      subst h1
      rw [if_neg (by omega), if_pos ⟨rfl, h3⟩, if_pos ⟨by omega, by omega, h3⟩]
    · rw [if_neg h1]
      by_cases h2 : m ≤ k ∧ k < m + d ∧ get_index kend p k = j
      · rw [if_pos h2, if_pos ⟨h2.1, by omega, h2.2.2⟩]
      · rw [if_neg h2, if_neg]
        rintro ⟨h3, h4, h5⟩
        by_cases h6 : k = m + d
        · subst h6
          exact h1 ⟨rfl, h5⟩
        · exact h2 ⟨h3, by omega, h5⟩

theorem split_loop_Sbit (kend p m : Nat) : ∀ d (s : FreeAreaList) (k j : Nat),
    Sbit (split_loop kend p m d s) k j =
      (if m < k ∧ k ≤ m + d ∧ get_index kend p k = j then true else Sbit s k j) := by
  intro d
  induction d with
  | zero =>
    intro s k j
    rw [if_neg (by omega)]
    rfl
  | succ d ih =>
    intro s k j
    rw [split_loop_succ, ih, split_step_Sbit]
    by_cases h1 : k = m + d + 1 ∧ get_index kend p (m + d + 1) = j
    · obtain ⟨h1, h3⟩ := h1
      subst h1
      rw [if_neg (by omega), if_pos ⟨rfl, h3⟩, if_pos ⟨by omega, by omega, h3⟩]
    · rw [if_neg h1]
      by_cases h2 : m < k ∧ k ≤ m + d ∧ get_index kend p k = j
      · rw [if_pos h2, if_pos ⟨h2.1, by omega, h2.2.2⟩]
      · rw [if_neg h2, if_neg]
        rintro ⟨h3, h4, h5⟩
        by_cases h6 : k = m + d + 1
        · subst h6
          exact h1 ⟨rfl, h5⟩
        · exact h2 ⟨h3, by omega, h5⟩

/-- The scan of `buddy_alloc` stops at the lowest order from `m` on whose list
is not empty. -/
theorem scan_free_eq (s : FreeAreaList) (m i : Nat) (hmi : m ≤ i) (hi : i ≤ MAXSIZE)
    (hlow : ∀ k, m ≤ k → k < i → s.free_list k = []) (hne : s.free_list i ≠ []) :
    scan_free s MAXORDER m = i := by
  have hMO : MAXORDER = MAXSIZE + 1 := rfl
  obtain ⟨h1, h2, h3, h4⟩ := scan_free_spec s MAXORDER m (by omega)
  have hle : scan_free s MAXORDER m ≤ i := by
    by_contra hc
    exact hne (h4 i hmi (by omega) (by omega))
  have hge : i ≤ scan_free s MAXORDER m := by
    by_contra hc
    exact h3 (by omega) (hlow _ h1 (by omega))
  omega

/-- The result of `buddy_alloc` that pops `p` at order `i` and splits it down to
the order `m` of the request, read through the lists and the bits. -/
theorem buddy_alloc_post (kend : Nat) (s : FreeAreaList) (n m i p : Nat)
    (rest : List Nat) (hm : min_order n = some m) (hmi : m ≤ i) (hi : i ≤ MAXSIZE)
    (hlow : ∀ k, m ≤ k → k < i → s.free_list k = [])
    (hhead : s.free_list i = p :: rest) :
    ∃ s2, buddy_alloc kend s n = some (p, s2) ∧
      (∀ k, s2.free_list k = if k = i then rest
        else if m ≤ k ∧ k < i then (p + BLOCKSIZE k) :: s.free_list k else s.free_list k) ∧
      (∀ k j, Abit s2 k j =
        if m ≤ k ∧ k ≤ i ∧ get_index kend p k = j then true else Abit s k j) ∧
      (∀ k j, Sbit s2 k j =
        if m < k ∧ k ≤ i ∧ get_index kend p k = j then true else Sbit s k j) := by
  have hMO : MAXORDER = MAXSIZE + 1 := rfl
  have hscan := scan_free_eq s m i hmi hi hlow (by rw [hhead]; simp)
  have e : m + (i - m) = i := by omega
  unfold buddy_alloc
  rw [hm]
  simp only [hscan]
  rw [if_neg (by omega), hhead]
  simp only [list_pop]
  refine ⟨_, rfl, ?_, ?_, ?_⟩
  · intro k
    rw [split_loop_free_list, e]
    simp only [with_allocated_free_list, with_free_list_free_list]
    by_cases h1 : k = i
    · subst h1
      rw [if_neg (by omega), if_pos rfl, if_pos rfl]
    · rw [if_neg h1, if_neg h1]
  · intro k j
    rw [split_loop_Abit, e, Abit_set]
    simp only [Abit_with_free_list]
    by_cases h1 : m ≤ k ∧ k ≤ i ∧ get_index kend p k = j
    · rw [if_pos h1]
      by_cases h2 : k = i
      · subst h2
        rw [if_neg (by omega), if_pos ⟨rfl, h1.2.2⟩]
      · rw [if_pos ⟨h1.1, by omega, h1.2.2⟩]
    · rw [if_neg h1, if_neg, if_neg]
      · rintro ⟨h2, h3⟩
        subst h2
        exact h1 ⟨hmi, le_rfl, h3⟩
      · rintro ⟨h2, h3, h4⟩
        exact h1 ⟨h2, by omega, h4⟩
  · intro k j
    rw [split_loop_Sbit, e]
    simp only [Sbit_with_allocated, Sbit_with_free_list]

/-- C15 (alloc postcondition).  In every state (reachable or not), when
`min_order(n) = m`, the free lists of the orders `m..i-1` are empty and `p` is
the head of `free_list[i]` (`i` at most `MAXSIZE`), `buddy_alloc(n)` returns `p`;
afterwards `free_list[i]` is its tail, `free_list[k]` has gained the right half
`p + BLOCKSIZE(k)` for every `m ≤ k < i`, the allocated bit of `p` is set at the
orders `m..i`, the split bit of `p` at the orders `m+1..i`, and every other
list and bit is as before. -/
theorem buddy_alloc_postcondition (kend : Nat) (s : FreeAreaList) (n m i p : Nat)
    (rest : List Nat) (hm : min_order n = some m) (hmi : m ≤ i) (hi : i ≤ MAXSIZE)
    (hlow : ∀ k, m ≤ k → k < i → s.free_list k = [])
    (hhead : s.free_list i = p :: rest) :
    ∃ s2, buddy_alloc kend s n = some (p, s2) ∧
      (∀ k, s2.free_list k = if k = i then rest
        else if m ≤ k ∧ k < i then (p + BLOCKSIZE k) :: s.free_list k else s.free_list k) ∧
      (∀ k j, Abit s2 k j =
        if m ≤ k ∧ k ≤ i ∧ get_index kend p k = j then true else Abit s k j) ∧
      (∀ k j, Sbit s2 k j =
        if m < k ∧ k ≤ i ∧ get_index kend p k = j then true else Sbit s k j) :=
  buddy_alloc_post kend s n m i p rest hm hmi hi hlow hhead

theorem buddy_alloc_postcondition_witness :
    ∃ s2, buddy_alloc ex_kend (buddy_init ex_kend ex_PHYSTOP2) 4096 = some (0x1400000, s2) ∧
      (∀ k, s2.free_list k = if k = 10 then [0x1800000]
        else if 0 ≤ k ∧ k < 10 then
          (0x1400000 + BLOCKSIZE k) :: (buddy_init ex_kend ex_PHYSTOP2).free_list k
        else (buddy_init ex_kend ex_PHYSTOP2).free_list k) ∧
      (∀ k j, Abit s2 k j =
        if 0 ≤ k ∧ k ≤ 10 ∧ get_index ex_kend 0x1400000 k = j then true
        else Abit (buddy_init ex_kend ex_PHYSTOP2) k j) ∧
      (∀ k j, Sbit s2 k j =
        if 0 < k ∧ k ≤ 10 ∧ get_index ex_kend 0x1400000 k = j then true
        else Sbit (buddy_init ex_kend ex_PHYSTOP2) k j) :=
  buddy_alloc_postcondition ex_kend (buddy_init ex_kend ex_PHYSTOP2) 4096 0 10 0x1400000
    [0x1800000] (by decide) (by decide) (by decide)
    (fun k _ hk => by
      have h : k ≠ MAXSIZE := by
        unfold MAXSIZE
        omega
      simp [buddy_init, h])
    (by decide)

/-! ## The link words `buddy_free` stores -/

theorem base_mod (kend : Nat) : ROUNDUP kend MAXSIZE % 4096 = 0 := by
  unfold ROUNDUP
  have h : BLOCKSIZE MAXSIZE = 4096 * 1024 := by decide
  rw [h]
  omega

theorem aligned_page (kend k q : Nat) (h : Aligned kend k q) : q % 4096 = 0 := by
  obtain ⟨j, rfl⟩ := h
  unfold get_address
  have h1 := base_mod kend
  have h2 := BLOCKSIZE_mod k
  have h3 : j * BLOCKSIZE k % 4096 = 0 := by
    rw [Nat.mul_mod, h2]
    simp
  omega

theorem free_loop_stores_succ (kend fuel i p : Nat) (s : FreeAreaList) :
    free_loop_stores kend (fuel + 1) i p s =
      if i < MAXORDER then
        if Abit (free_clear kend i p s) i (buddy_of (get_index kend p i)) = true then []
        else
          (list_remove_store ((free_clear kend i p s).free_list i)
            (get_address kend (buddy_of (get_index kend p i)) i)).toList ++
            free_loop_stores kend fuel (i + 1) (free_parent kend i p) (free_merge kend i p s)
      else [] := by
  rfl

/-- The node `list_remove` stores into is a node of the list. -/
theorem list_remove_store_mem (l : List Nat) (p a w : Nat)
    (h : list_remove_store l p = some (a, w)) : a ∈ l := by
  induction l with
  | nil => simp [list_remove_store] at h
  | cons temp rest ih =>
    unfold list_remove_store at h
    by_cases h1 : temp = p
    · rw [if_pos h1] at h
      simp at h
    · rw [if_neg h1] at h
      cases rest with
      | nil => simp at h
      | cons nxt rest2 =>
        simp only at h
        by_cases h2 : nxt = p
        · rw [if_pos h2] at h
          simp only [Option.some.injEq, Prod.mk.injEq] at h
          rw [← h.1]
          exact List.mem_cons_self _ _
        · rw [if_neg h2] at h
          exact List.mem_cons_of_mem _ (ih h)

/-- A block on a free list does not start where an owned block starts. -/
theorem free_ne_owned (kend : Nat) (s : FreeAreaList) (owned : List (Nat × Nat)) (k q T m : Nat)
    (h : Inv kend s owned) (hk : k ≤ MAXSIZE) (hq : q ∈ s.free_list k) (hT : (T, m) ∈ owned) :
    q ≠ T := by
  intro he
  subst he
  obtain ⟨hm, _⟩ := h.own_aligned q m hT
  have hfu := h.free_unalloc k hk q hq
  rcases Nat.lt_trichotomy k m with hlt | heq | hgt
  · have h1 := (h.free_anc k hk q hq m hlt hm).1
    have h2 := owned_split_clear kend s owned q m h hT m (le_refl _)
    rw [h2] at h1
    exact absurd h1 (by simp)
  · subst heq
    rw [h.own_alloc q k hT] at hfu
    exact absurd hfu (by simp)
  · rw [(h.own_anc q m hT k hgt hk).2] at hfu
    exact absurd hfu (by simp)

/-- The block that is being put back does not start where an owned block
starts. -/
theorem hole_ne_owned (kend : Nat) (s : FreeAreaList) (owned : List (Nat × Nat)) (i p T m : Nat)
    (h : Inv kend s owned) (hh : Hole kend s owned i p) (hT : (T, m) ∈ owned) : p ≠ T := by
  intro he
  subst he
  obtain ⟨hm, _⟩ := h.own_aligned p m hT
  rcases Nat.lt_or_ge i m with hlt | hge
  · have h1 := (hh.anc m hlt hm).1
    have h2 := owned_split_clear kend s owned p m h hT m (le_refl _)
    rw [h2] at h1
    exact absurd h1 (by simp)
  · exact hole_no_owned kend s owned i p h hh m p hge hT rfl

/-- The stores of the coalescing loop go to page-aligned addresses, none of them
the start of an owned block. -/
theorem free_loop_stores_off (kend : Nat) (owned : List (Nat × Nat)) :
    ∀ fuel i p s, Inv kend s owned → Hole kend s owned i p →
      ∀ x ∈ free_loop_stores kend fuel i p s,
        x.1 % 4096 = 0 ∧ ∀ T m, (T, m) ∈ owned → x.1 ≠ T := by
  intro fuel
  induction fuel with
  | zero =>
    intro i p s _ _ x hx
    simp [free_loop_stores] at hx
  | succ fuel ih =>
    intro i p s h hh x hx
    have hiM := hh.le
    have hiO : i < MAXORDER := by unfold MAXORDER; unfold MAXSIZE at hiM; omega
    rw [free_loop_stores_succ, if_pos hiO] at hx
    cases hb : Abit (free_clear kend i p s) i (buddy_of (get_index kend p i)) with
    | true =>
      rw [hb] at hx
      simp at hx
    | false =>
      rw [hb] at hx
      simp only [Bool.false_eq_true, if_false, List.mem_append] at hx
      rcases hx with hx | hx
      · rw [free_clear_free_list] at hx
        cases hs : list_remove_store (s.free_list i)
            (get_address kend (buddy_of (get_index kend p i)) i) with
        | none =>
          rw [hs] at hx
          simp at hx
        | some y =>
          rw [hs] at hx
          simp only [Option.toList_some, List.mem_singleton] at hx
          subst hx
          have hmem := list_remove_store_mem _ _ x.1 x.2 hs
          refine ⟨aligned_page kend i x.1 (h.free_aligned i hiM x.1 hmem), ?_⟩
          intro T m hT
          exact free_ne_owned kend s owned i x.1 T m h hiM hmem hT
      · have hm := inv_free_merge kend s owned i p h hh hb
        rcases Nat.eq_or_lt_of_le hiM with heq | hlt
        · have hdone : ¬ i + 1 < MAXORDER := by unfold MAXORDER; unfold MAXSIZE at heq; omega
          cases fuel with
          | zero => simp [free_loop_stores] at hx
          | succ fuel =>
            rw [free_loop_stores_succ, if_neg hdone] at hx
            simp at hx
        · exact ih (i + 1) _ _ hm (hole_free_merge kend s owned i p h hh hlt hb) x hx

/-- The block the coalescing loop ends with starts at a page-aligned address
that is not the start of an owned block. -/
theorem free_loop_final_off (kend : Nat) (owned : List (Nat × Nat)) :
    ∀ fuel i p s, Inv kend s owned → Hole kend s owned i p → MAXORDER ≤ i + fuel →
      (free_loop kend fuel i p s).2.1 % 4096 = 0 ∧
        ∀ T m, (T, m) ∈ owned → (free_loop kend fuel i p s).2.1 ≠ T := by
  intro fuel
  induction fuel with
  | zero =>
    intro i p s _ hh hf
    have := hh.le
    unfold MAXORDER at hf
    unfold MAXSIZE at this
    omega
  | succ fuel ih =>
    intro i p s h hh hf
    have hiM := hh.le
    have hiO : i < MAXORDER := by unfold MAXORDER; unfold MAXSIZE at hiM; omega
    rw [free_loop_succ, if_pos hiO]
    cases hb : Abit (free_clear kend i p s) i (buddy_of (get_index kend p i)) with
    | true =>
      simp only [if_true]
      exact ⟨aligned_page kend i p hh.aligned, fun T m hT => hole_ne_owned kend s owned i p T m h hh hT⟩
    | false =>
      simp only [Bool.false_eq_true, if_false]
      have hm := inv_free_merge kend s owned i p h hh hb
      rcases Nat.eq_or_lt_of_le hiM with heq | hlt
      · have hdone : ¬ i + 1 < MAXORDER := by unfold MAXORDER; unfold MAXSIZE at heq; omega
        rw [free_loop_done kend fuel (i + 1) _ _ hdone]
        simp only
        have hbs : Abit s i (buddy_of (get_index kend p i)) = false := by
          rw [free_clear_Abit, if_neg (fun hc => buddy_of_ne _ hc.2.symm)] at hb
          exact hb
        unfold free_parent
        split
        · refine ⟨aligned_page kend i _ ⟨_, rfl⟩, ?_⟩
          intro T m hT he
          obtain ⟨hmM, _⟩ := h.own_aligned T m hT
          have hidx : get_index kend T i = buddy_of (get_index kend p i) := by
            rw [← he, get_index_get_address]
          have hA : Abit s i (get_index kend T i) = true := by
            rcases Nat.eq_or_lt_of_le hmM with hm10 | hm10
            · rw [heq, ← hm10]
              exact h.own_alloc T m hT
            · exact (h.own_anc T m hT i (by omega) hiM).2
          rw [hidx, hbs] at hA
          exact absurd hA (by simp)
        · exact ⟨aligned_page kend i p hh.aligned,
            fun T m hT => hole_ne_owned kend s owned i p T m h hh hT⟩
      · exact ih (i + 1) _ _ hm (hole_free_merge kend s owned i p h hh hlt hb) (by omega)

/-- An owned block is a `Hole` once it is dropped from the owned list. -/
theorem hole_of_owned (kend : Nat) (s : FreeAreaList) (owned : List (Nat × Nat)) (p m : Nat)
    (h : Inv kend s owned) (hp : (p, m) ∈ owned) :
    Hole kend s (owned.filter (fun a => decide (a.1 ≠ p))) m p := by
  constructor
  · exact (h.own_aligned p m hp).1
  · exact (h.own_aligned p m hp).2
  · exact h.own_anc p m hp
  · exact h.own_alloc p m hp
  · exact owned_split_clear kend s owned p m h hp m (le_refl _)
  · exact (h.zero m (h.own_aligned p m hp).1 _ (Or.inr ⟨p, hp, rfl⟩)).2
  · intro q hq he
    obtain ⟨hq1, hq2⟩ := List.mem_filter.mp hq
    have : q = p := aligned_eq_of_index kend m q p (h.own_aligned q m hq1).2
      (h.own_aligned p m hp).2 he
    simp [this] at hq2

/-- Every store of `buddy_free` of an owned block below the top order goes to a
page-aligned address that is not the start of another owned block. -/
theorem buddy_free_stores_off (kend : Nat) (s : FreeAreaList) (owned : List (Nat × Nat))
    (p m : Nat) (h : Inv kend s owned) (hp : (p, m) ∈ owned) (hm : m < MAXSIZE) :
    ∀ x ∈ buddy_free_stores kend s p,
      x.1 % 4096 = 0 ∧ ∀ T k, (T, k) ∈ owned → T ≠ p → x.1 ≠ T := by
  have h2 : Inv kend s (owned.filter (fun a => decide (a.1 ≠ p))) :=
    inv_owned_sublist kend s owned _ h (List.filter_sublist _)
  have hh := hole_of_owned kend s owned p m h hp
  have hin : ∀ T k, (T, k) ∈ owned → T ≠ p →
      (T, k) ∈ owned.filter (fun a => decide (a.1 ≠ p)) := by
    intro T k hT hne
    exact List.mem_filter.mpr ⟨hT, by simpa using hne⟩
  intro x hx
  unfold buddy_free_stores at hx
  simp only [] at hx
  rw [size_of_owned kend s owned p m h hp hm] at hx
  have hg : bit_is_set (s.allocated m) (get_index kend p m) = true := h.own_alloc p m hp
  rw [hg] at hx
  simp only [if_true, List.mem_append, List.mem_singleton] at hx
  rcases hx with hx | hx
  · obtain ⟨h3, h4⟩ := free_loop_stores_off kend _ MAXORDER m p s h2 hh x hx
    exact ⟨h3, fun T k hT hne => h4 T k (hin T k hT hne)⟩
  · subst hx
    obtain ⟨h3, h4⟩ := free_loop_final_off kend _ MAXORDER m p s h2 hh (by omega)
    exact ⟨h3, fun T k hT hne => h4 T k (hin T k hT hne)⟩

/-- `buddy_free` of an owned block of the top order stores nothing. -/
theorem buddy_free_stores_top (kend : Nat) (s : FreeAreaList) (owned : List (Nat × Nat))
    (p : Nat) (h : Inv kend s owned) (hp : (p, MAXSIZE) ∈ owned) :
    buddy_free_stores kend s p = [] := by
  unfold buddy_free_stores
  simp only []
  rw [size_of_owned_top kend s owned p h hp]
  have : bit_is_set (s.allocated 0) (get_index kend p 0) = false :=
    owned_alloc_clear kend s owned p MAXSIZE h hp 0 (by decide)
  rw [this]
  simp

/-- Stores to 4-byte aligned addresses other than `w` keep the word at `w`. -/
theorem rd32_store_words (l : List (Nat × Nat)) : ∀ (m : Nat → Nat) (w : Nat), w % 4 = 0 →
    (∀ x ∈ l, x.1 % 4 = 0 ∧ x.1 ≠ w) → rd32 (store_words m l) w = rd32 m w := by
  induction l with
  | nil =>
    intro m w _ _
    rfl
  | cons x rest ih =>
    intro m w hw h
    rw [store_words, ih _ w hw (fun y hy => h y (List.mem_cons_of_mem _ hy))]
    obtain ⟨h1, h2⟩ := h x (List.mem_cons_self _ _)
    exact rd32_wr32_other _ _ _ _ h1 hw (Ne.symm h2)

/-! ## The free blocks lie in the region of the allocator -/

/-- `buddy_free` of an owned block below the top order runs the coalescing loop
from the order of the block. -/
theorem buddy_free_owned (kend : Nat) (s : FreeAreaList) (owned : List (Nat × Nat)) (p m : Nat)
    (h : Inv kend s owned) (hp : (p, m) ∈ owned) (hm : m < MAXSIZE) :
    buddy_free kend s p =
      (free_loop kend MAXORDER m p s).2.2.with_free_list (free_loop kend MAXORDER m p s).1
        (list_push ((free_loop kend MAXORDER m p s).2.2.free_list (free_loop kend MAXORDER m p s).1)
          (free_loop kend MAXORDER m p s).2.1) := by
  unfold buddy_free
  simp only []
  rw [size_of_owned kend s owned p m h hp hm]
  have : bit_is_set (s.allocated m) (get_index kend p m) = true := h.own_alloc p m hp
  rw [this]
  simp only [if_true]

theorem init_chain_le (PHYSTOP : Nat) : ∀ (fuel off q : Nat),
    q ∈ init_chain PHYSTOP fuel off → q + MAXPGSIZE ≤ PHYSTOP := by
  intro fuel
  induction fuel with
  | zero => intro off q h; simp [init_chain] at h
  | succ fuel ih =>
    intro off q h
    unfold init_chain at h
    split at h
    · rcases List.mem_cons.mp h with h1 | h1
      · subst h1
        assumption
      · exact ih _ q h1
    · simp at h

theorem region_in_half (kend PHYSTOP k q : Nat) (h : region_in kend PHYSTOP (k + 1) q) :
    region_in kend PHYSTOP k q ∧ region_in kend PHYSTOP k (q + BLOCKSIZE k) := by
  obtain ⟨h1, h2, h3⟩ := h
  refine ⟨⟨by omega, aligned_pred kend k q h2, h3⟩,
    ⟨by omega, aligned_right_half kend k q h2, ?_⟩⟩
  unfold top_in at h3 ⊢
  rw [get_index_right_half_anc kend k q MAXSIZE h2 (by omega)]
  exact h3

/-- A block that starts a block of its order ends inside its ancestor of a
higher order. -/
theorem aligned_end_le (kend q k d : Nat) (h : Aligned kend k q) :
    q + BLOCKSIZE k ≤
      get_address kend (get_index kend q (k + d)) (k + d) + BLOCKSIZE (k + d) := by
  obtain ⟨j, rfl⟩ := h
  rw [get_index_add, get_index_get_address]
  unfold get_address
  rw [BLOCKSIZE_add]
  have hpos : 0 < 2 ^ d := Nat.two_pow_pos d
  have h1 : j + 1 ≤ (j / 2 ^ d + 1) * 2 ^ d := by
    have := Nat.div_add_mod j (2 ^ d)
    have := Nat.mod_lt j hpos
    have e : (j / 2 ^ d + 1) * 2 ^ d = 2 ^ d * (j / 2 ^ d) + 2 ^ d := by ring
    omega
  have h2 := Nat.mul_le_mul_right (BLOCKSIZE k) h1
  have e1 : (j + 1) * BLOCKSIZE k = j * BLOCKSIZE k + BLOCKSIZE k := by ring
  have e2 : (j / 2 ^ d + 1) * 2 ^ d * BLOCKSIZE k =
      j / 2 ^ d * (BLOCKSIZE k * 2 ^ d) + BLOCKSIZE k * 2 ^ d := by ring
  omega

theorem region_in_block (kend PHYSTOP k q : Nat) (h : region_in kend PHYSTOP k q) :
    region_block PHYSTOP k q := by
  obtain ⟨h1, h2, h3⟩ := h
  have h4 := aligned_end_le kend q k (MAXSIZE - k) h2
  have e : k + (MAXSIZE - k) = MAXSIZE := by omega
  rw [e] at h4
  unfold top_in at h3
  unfold region_block
  have e2 : MAXPGSIZE = BLOCKSIZE MAXSIZE := rfl
  omega

theorem freeAll_init (kend PHYSTOP : Nat) :
    FreeAll (region_in kend PHYSTOP) (buddy_init kend PHYSTOP) := by
  intro k hk q hq
  unfold buddy_init at hq
  simp only at hq
  split at hq
  · rename_i hkM
    subst hkM
    have hle := init_chain_le PHYSTOP _ _ q hq
    rw [base_eq_get_address] at hq
    obtain ⟨j, _, hj⟩ := init_chain_mem PHYSTOP kend _ 0 q hq
    have hal : Aligned kend MAXSIZE q := ⟨j, hj⟩
    refine ⟨le_refl _, hal, ?_⟩
    unfold top_in
    rw [get_address_get_index kend MAXSIZE q hal]
    exact hle
  · simp at hq

/-- The coalescing loop of `buddy_free` followed by the final push keeps the
free blocks in the region. -/
theorem freeAll_free_loop (kend PHYSTOP : Nat) (owned : List (Nat × Nat)) :
    ∀ fuel i p s, Inv kend s owned → Hole kend s owned i p →
      FreeAll (region_in kend PHYSTOP) s → top_in kend PHYSTOP p → MAXORDER ≤ i + fuel →
      FreeAll (region_in kend PHYSTOP)
        ((free_loop kend fuel i p s).2.2.with_free_list (free_loop kend fuel i p s).1
          (list_push ((free_loop kend fuel i p s).2.2.free_list (free_loop kend fuel i p s).1)
            (free_loop kend fuel i p s).2.1)) := by
  intro fuel
  induction fuel with
  | zero =>
    intro i p s _ hh _ _ hf
    have := hh.le
    unfold MAXORDER at hf
    unfold MAXSIZE at this
    omega
  | succ fuel ih =>
    intro i p s h hh hfa htop hf
    have hiM := hh.le
    have hiO : i < MAXORDER := by unfold MAXORDER; unfold MAXSIZE at hiM; omega
    rw [free_loop_succ, if_pos hiO]
    cases hb : Abit (free_clear kend i p s) i (buddy_of (get_index kend p i)) with
    | true =>
      simp only [if_true]
      intro k hk q hq
      rw [with_free_list_free_list] at hq
      split at hq
      · rename_i hki
        subst hki
        rcases List.mem_cons.mp hq with h1 | h1
        · subst h1
          exact ⟨hiM, hh.aligned, htop⟩
        · rw [free_clear_free_list] at h1
          exact hfa k hk q h1
      · rw [free_clear_free_list] at hq
        exact hfa k hk q hq
    | false =>
      simp only [Bool.false_eq_true, if_false]
      have hm := inv_free_merge kend s owned i p h hh hb
      have hfm : FreeAll (region_in kend PHYSTOP) (free_merge kend i p s) := by
        intro k hk q hq
        rw [free_merge_free_list] at hq
        split at hq
        · rename_i hki
          subst hki
          exact hfa k hk q ((list_remove_sublist _ _).subset hq)
        · exact hfa k hk q hq
      rcases Nat.eq_or_lt_of_le hiM with heq | hlt
      · have hdone : ¬ i + 1 < MAXORDER := by unfold MAXORDER; unfold MAXSIZE at heq; omega
        rw [free_loop_done kend fuel (i + 1) _ _ hdone]
        intro k hk q hq
        rw [with_free_list_free_list, if_neg (by omega)] at hq
        exact hfm k hk q hq
      · have htop2 : top_in kend PHYSTOP (free_parent kend i p) := by
          unfold top_in at htop ⊢
          rw [free_parent_index kend i p MAXSIZE hh.aligned hlt]
          exact htop
        exact ih (i + 1) _ _ hm (hole_free_merge kend s owned i p h hh hlt hb) hfm htop2
          (by omega)

/-- Along every history the free blocks and the blocks handed out lie in the
region of the allocator. -/
theorem reach_region (kend PHYSTOP : Nat) (s : FreeAreaList) (live : List (Nat × Nat))
    (hr : Reach kend PHYSTOP s live) :
    ∃ owned, Inv kend s owned ∧
      (∀ p n, (p, n) ∈ live → ∃ m, min_order n = some m ∧ (p, m) ∈ owned) ∧
      FreeAll (region_in kend PHYSTOP) s ∧
      (∀ q k, (q, k) ∈ owned → top_in kend PHYSTOP q) := by
  induction hr with
  | init => exact ⟨[], inv_init kend PHYSTOP, by simp, freeAll_init kend PHYSTOP, by simp⟩
  | alloc s s2 live n p _ hn ha hp ih =>
    obtain ⟨owned, hinv, hlive, hfa, hown⟩ := ih
    obtain ⟨p2, s3, hb, hfa2, hcase⟩ := freeAll_alloc (region_in kend PHYSTOP) kend s n
      (region_in_half kend PHYSTOP) hfa hn
    rw [ha] at hb
    simp only [Option.some.injEq, Prod.mk.injEq] at hb
    obtain ⟨e1, e2⟩ := hb
    subst e1 e2
    rcases inv_alloc kend s s2 owned n p hinv hn ha with ⟨h0, _⟩ | ⟨m, hm, _, hinv2⟩
    · exact absurd h0 hp
    · refine ⟨(p, m) :: owned, hinv2, ?_, hfa2, ?_⟩
      · intro q n2 hq
        rcases List.mem_cons.mp hq with h1 | h1
        · cases h1
          exact ⟨m, hm, List.mem_cons_self _ _⟩
        · obtain ⟨m2, hm2, ho⟩ := hlive q n2 h1
          exact ⟨m2, hm2, List.mem_cons_of_mem _ ho⟩
      · intro q k hq
        rcases List.mem_cons.mp hq with h1 | h1
        · cases h1
          rcases hcase with ⟨h0, _⟩ | ⟨m2, _, hr2⟩
          · exact absurd h0 hp
          · exact hr2.2.2
        · exact hown q k h1
  | alloc_null s s2 live n _ hn ha ih =>
    obtain ⟨owned, hinv, hlive, hfa, hown⟩ := ih
    obtain ⟨p2, s3, hb, hfa2, hcase⟩ := freeAll_alloc (region_in kend PHYSTOP) kend s n
      (region_in_half kend PHYSTOP) hfa hn
    rw [ha] at hb
    simp only [Option.some.injEq, Prod.mk.injEq] at hb
    obtain ⟨e1, e2⟩ := hb
    subst e1 e2
    rcases hcase with ⟨_, h0⟩ | ⟨m2, _, hr2⟩
    · subst h0
      exact ⟨owned, hinv, hlive, hfa, hown⟩
    · rcases inv_alloc kend s s2 owned n 0 hinv hn ha with ⟨_, h0⟩ | ⟨m, hm, _, hinv2⟩
      · subst h0
        exact ⟨owned, hinv, hlive, hfa, hown⟩
      · refine ⟨(0, m) :: owned, hinv2, ?_, hfa2, ?_⟩
        · intro q n2 hq
          obtain ⟨m3, hm3, ho⟩ := hlive q n2 hq
          exact ⟨m3, hm3, List.mem_cons_of_mem _ ho⟩
        · intro q k hq
          rcases List.mem_cons.mp hq with h1 | h1
          · cases h1
            exact hr2.2.2
          · exact hown q k h1
  | free s live p n _ hp _ ih =>
    obtain ⟨owned, hinv, hlive, hfa, hown⟩ := ih
    obtain ⟨m, hm, ho⟩ := hlive p n hp
    have hmle := (hinv.own_aligned p m ho).1
    rcases Nat.eq_or_lt_of_le hmle with heq | hlt
    · subst heq
      rw [buddy_free_owned_top kend s owned p hinv ho]
      refine ⟨owned, hinv, ?_, hfa, hown⟩
      intro q n2 hq
      exact hlive q n2 (List.mem_filter.mp hq).1
    · refine ⟨_, inv_free kend s owned p m hinv ho hlt, ?_, ?_, ?_⟩
      · intro q n2 hq
        obtain ⟨hq1, hq2⟩ := List.mem_filter.mp hq
        obtain ⟨m2, hm2, ho2⟩ := hlive q n2 hq1
        refine ⟨m2, hm2, List.mem_filter.mpr ⟨ho2, ?_⟩⟩
        simpa using hq2
      · rw [buddy_free_owned kend s owned p m hinv ho hlt]
        exact freeAll_free_loop kend PHYSTOP _ MAXORDER m p s
          (inv_owned_sublist kend s owned _ hinv (List.filter_sublist _))
          (hole_of_owned kend s owned p m hinv ho) hfa (hown p m ho) (by omega)
      · intro q k hq
        exact hown q k (List.mem_filter.mp hq).1

/-! ## `kfree` of an owned block -/

theorem slot_eq_split (T1 T2 v a : Nat) (hT1 : T1 % 4096 = 0) (hT2 : T2 % 4096 = 0)
    (h : T1 + 4 * PTX v = T2 + 4 * PTX a) : T1 = T2 ∧ PTX v = PTX a := by
  rw [PTX_eq, PTX_eq] at *
  omega

theorem same_page_of_index (v a : Nat) (hv : v < 2 ^ 32) (ha : a < 2 ^ 32) (hal : a % 4096 = 0)
    (h1 : PDX v = PDX a) (h2 : PTX v = PTX a) : PGROUNDDOWN v = a := by
  rw [PDX_eq, PDX_eq] at h1
  rw [PTX_eq, PTX_eq] at h2
  rw [PGROUNDDOWN_eq]
  omega

theorem PDX_lt (v : Nat) : PDX v < NPDENTRIES := by
  rw [PDX_eq]
  unfold NPDENTRIES
  omega

theorem base_ge (kend : Nat) : kend ≤ ROUNDUP kend MAXSIZE := by
  unfold ROUNDUP
  have h : BLOCKSIZE MAXSIZE = 4194304 := by decide
  rw [h]
  omega

theorem aligned_ge (kend k q : Nat) (h : Aligned kend k q) : kend ≤ q := by
  obtain ⟨j, rfl⟩ := h
  have := base_ge kend
  unfold get_address
  omega

/-- An address is owned at one order only. -/
theorem owned_order_unique (kend : Nat) (s : FreeAreaList) (owned : List (Nat × Nat))
    (q k k2 : Nat) (h : Inv kend s owned) (h1 : (q, k) ∈ owned) (h2 : (q, k2) ∈ owned) :
    k = k2 := by
  have := List.inj_on_of_nodup_map h.nodup_owned h1 h2 rfl
  exact (Prod.mk.inj this).2

/-- `kfree` of an owned page: it returns, the allocator state is that of
`buddy_free`, the page is no longer owned, and the words in the first page of
every other owned block are as before. -/
theorem kfree_small (kend PHYSTOP : Nat) (st : KState) (owned : List (Nat × Nat)) (f : Nat)
    (hinv : Inv kend st.fal owned) (hf : (f, 0) ∈ owned) (hphys : f < PHYSTOP) :
    ∃ st1, kfree kend PHYSTOP st f = .ok st1 ∧ st1.fal = buddy_free kend st.fal f ∧
      st1.freed = f :: st.freed ∧
      Inv kend st1.fal (owned.filter (fun a => decide (a.1 ≠ f))) ∧
      ∀ T m, (T, m) ∈ owned → T ≠ f → ∀ w, w % 4 = 0 → T ≤ w → w < T + 4096 →
        rd32 st1.mem w = rd32 st.mem w := by
  have hal := (hinv.own_aligned f 0 hf).2
  have h1 := aligned_page kend 0 f hal
  have h2 := aligned_ge kend 0 f hal
  refine ⟨{ st with
      mem := store_words st.mem (buddy_free_stores kend st.fal f),
      fal := buddy_free kend st.fal f, freed := f :: st.freed },
    ?_, rfl, rfl, inv_free kend st.fal owned f 0 hinv hf (by decide), ?_⟩
  · unfold kfree
    rw [if_neg]
    rw [PGSIZE_eq]
    omega
  · intro T m hT hne w hw hw1 hw2
    have hTal := aligned_page kend m T (hinv.own_aligned T m hT).2
    apply rd32_store_words _ _ w hw
    intro x hx
    obtain ⟨h3, h4⟩ := buddy_free_stores_off kend st.fal owned f 0 hinv hf (by decide) x hx
    refine ⟨by omega, ?_⟩
    intro hc
    have := h4 T m hT hne
    omega

/-- `kfree` of an owned block of the top order: it returns and changes nothing
but the record of its arguments. -/
theorem kfree_huge (kend PHYSTOP : Nat) (st : KState) (owned : List (Nat × Nat)) (H : Nat)
    (hinv : Inv kend st.fal owned) (hH : (H, MAXSIZE) ∈ owned) (hphys : H < PHYSTOP) :
    kfree kend PHYSTOP st H = .ok { st with freed := H :: st.freed } := by
  have hal := (hinv.own_aligned H MAXSIZE hH).2
  have h1 := aligned_page kend MAXSIZE H hal
  have h2 := aligned_ge kend MAXSIZE H hal
  unfold kfree
  rw [if_neg (by rw [PGSIZE_eq]; omega), buddy_free_stores_top kend st.fal owned H hinv hH,
    buddy_free_owned_top kend st.fal owned H hinv hH]
  rfl

/-- `SpaceWF` for a range is `SpaceWF` for a part of the range. -/
theorem spaceWF_shrink (kend PHYSTOP : Nat) (m : Nat → Nat) (s : FreeAreaList)
    (owned : List (Nat × Nat)) (pgdir lo hi lo2 : Nat) (hle : lo ≤ lo2)
    (h : SpaceWF kend PHYSTOP m s owned pgdir lo hi) :
    SpaceWF kend PHYSTOP m s owned pgdir lo2 hi where
  inv := h.inv
  dir := h.dir
  apart := h.apart
  tab := h.tab
  frm := fun a ha h1 h2 hm => h.frm a ha (by omega) h2 hm
  inj := fun a b ha hb h1 h2 h3 h4 hma hmb he =>
    h.inj a b ha hb (by omega) h2 (by omega) h4 hma hmb he
  huge := fun a ha h1 h2 hp hs => h.huge a ha (by omega) h2 hp hs

/-- After `buddy_free` of the frame of the first page of the range the rest of
the range is well formed over the new allocator state. -/
theorem spaceWF_free (kend PHYSTOP : Nat) (m : Nat → Nat) (s s2 : FreeAreaList)
    (owned : List (Nat × Nat)) (pgdir a hi : Nat) (ha : a % PGSIZE = 0)
    (hlt : a < hi) (hm : mapped_small m pgdir a)
    (h : SpaceWF kend PHYSTOP m s owned pgdir a hi)
    (hinv2 : Inv kend s2 (owned.filter (fun x => decide (x.1 ≠ frame_of m pgdir a)))) :
    SpaceWF kend PHYSTOP m s2 (owned.filter (fun x => decide (x.1 ≠ frame_of m pgdir a)))
      pgdir (a + 4096) hi := by
  obtain ⟨hf1, hf2, hf3, hf4⟩ := h.frm a ha le_rfl hlt hm
  have hin : ∀ T k, (T, k) ∈ owned → T ≠ frame_of m pgdir a →
      (T, k) ∈ owned.filter (fun x => decide (x.1 ≠ frame_of m pgdir a)) := by
    intro T k hT hne
    exact List.mem_filter.mpr ⟨hT, by simpa using hne⟩
  have ha2 : a % 4096 = 0 := ha
  refine ⟨hinv2, hin _ _ h.dir (Ne.symm hf3), h.apart, ?_, ?_, ?_, ?_⟩
  · intro T hT
    refine hin _ _ (h.tab T hT) ?_
    intro hc
    rw [← hc] at hf4
    exact hf4 hT
  · intro b hb h1 h2 hmb
    obtain ⟨g1, g2, g3, g4⟩ := h.frm b hb (by omega) h2 hmb
    refine ⟨hin _ _ g1 ?_, g2, g3, g4⟩
    intro hc
    have := h.inj b a hb ha (by omega) h2 le_rfl hlt hmb hm hc
    omega
  · intro b c hb hc h1 h2 h3 h4 hmb hmc he
    exact h.inj b c hb hc (by omega) h2 (by omega) h4 hmb hmc he
  · intro b hb h1 h2 hp hs
    obtain ⟨g1, g2⟩ := h.huge b hb (by omega) h2 hp hs
    refine ⟨hin _ _ g1 ?_, g2⟩
    intro hc
    rw [hc] at g1
    have := owned_order_unique kend s owned _ _ _ h.inv hf1 g1
    exact absurd this (by decide)

theorem min_order_huge : min_order MAXPGSIZE = some MAXSIZE := by decide

/-- A well-formed address space in the sense of `SpaceLive` is one in the sense
of `SpaceWF`, for some list of owned blocks. -/
theorem spaceWF_of_live (kend PHYSTOP : Nat) (st : KState) (live : List (Nat × Nat))
    (pgdir lo hi : Nat) (h : SpaceLive kend PHYSTOP st live pgdir lo hi) :
    ∃ owned, SpaceWF kend PHYSTOP st.mem st.fal owned pgdir lo hi := by
  obtain ⟨owned, hinv, hlive, _, hown⟩ := reach_region kend PHYSTOP st.fal live h.reach
  have hbelow : ∀ q k, (q, k) ∈ owned → q < PHYSTOP := by
    intro q k hq
    obtain ⟨h1, h2⟩ := hinv.own_aligned q k hq
    have h3 := region_in_block kend PHYSTOP k q ⟨h1, h2, hown q k hq⟩
    have h4 := BLOCKSIZE_pos k
    unfold region_block at h3
    omega
  have hpage : ∀ p, (p, PGSIZE) ∈ live → (p, 0) ∈ owned := by
    intro p hp
    obtain ⟨m, hm, ho⟩ := hlive p PGSIZE hp
    have e : min_order PGSIZE = some 0 := min_order_page
    rw [e] at hm
    simp only [Option.some.injEq] at hm
    rw [hm]
    exact ho
  have hhuge : ∀ p, (p, MAXPGSIZE) ∈ live → (p, MAXSIZE) ∈ owned := by
    intro p hp
    obtain ⟨m, hm, ho⟩ := hlive p MAXPGSIZE hp
    rw [min_order_huge] at hm
    simp only [Option.some.injEq] at hm
    rw [hm]
    exact ho
  refine ⟨owned, hinv, hpage _ h.dir, h.apart, fun T hT => hpage _ (h.tab T hT), ?_, h.inj, ?_⟩
  · intro a ha h1 h2 hm
    obtain ⟨g1, g3, g4⟩ := h.frm a ha h1 h2 hm
    exact ⟨hpage _ g1, hbelow _ _ (hpage _ g1), g3, g4⟩
  · intro a ha h1 h2 hp hs
    have g1 := h.huge a ha h1 h2 hp hs
    exact ⟨hhuge _ g1, hbelow _ _ (hhuge _ g1)⟩

theorem size_of_loop_lt (kend : Nat) (s : FreeAreaList) (p : Nat) :
    ∀ fuel i, size_of_loop kend s p fuel i < MAXSIZE := by
  intro fuel
  induction fuel with
  | zero =>
    intro i
    unfold size_of_loop
    decide
  | succ fuel ih =>
    intro i
    unfold size_of_loop
    by_cases hi : i < MAXSIZE
    · rw [if_pos hi]
      split
      · exact hi
      · exact ih (i + 1)
    · rw [if_neg hi]
      decide

/-- The coalescing loop does not touch the slot `free_list MAXORDER`, and it
ends with an index of at most `MAXORDER`. -/
theorem free_loop_slot (kend : Nat) :
    ∀ fuel i p s, (free_loop kend fuel i p s).2.2.free_list MAXORDER = s.free_list MAXORDER ∧
      (i ≤ MAXORDER → (free_loop kend fuel i p s).1 ≤ MAXORDER) := by
  intro fuel
  induction fuel with
  | zero =>
    intro i p s
    exact ⟨rfl, fun h => h⟩
  | succ fuel ih =>
    intro i p s
    rw [free_loop_succ]
    by_cases hi : i < MAXORDER
    · rw [if_pos hi]
      cases hb : Abit (free_clear kend i p s) i (buddy_of (get_index kend p i)) with
      | true =>
        simp only [if_true]
        exact ⟨by rw [free_clear_free_list], fun h => h⟩
      | false =>
        simp only [Bool.false_eq_true, if_false]
        obtain ⟨h1, h2⟩ := ih (i + 1) (free_parent kend i p) (free_merge kend i p s)
        refine ⟨?_, fun _ => h2 (by omega)⟩
        rw [h1, free_merge_free_list, if_neg (by omega)]
    · rw [if_neg hi]
      exact ⟨rfl, fun h => h⟩

/-- A call of `buddy_free` stays inside the array exactly when it leaves the
slot `free_list MAXORDER` of the embedding as it was. -/
theorem frees_in_array_iff (kend : Nat) (s : FreeAreaList) (p : Nat) :
    frees_in_array s (buddy_free kend s p) ↔ free_in_array kend s p := by
  unfold frees_in_array free_in_array free_order buddy_free
  simp only []
  cases hg : bit_is_set (s.allocated (size_of kend s p))
      (get_index kend p (size_of kend s p)) with
  | false => simp
  | true =>
    simp only [if_true, forall_const]
    have hsz : size_of kend s p ≤ MAXORDER := by
      have := size_of_loop_lt kend s p MAXSIZE 0
      unfold size_of
      unfold MAXORDER
      unfold MAXSIZE at this ⊢
      omega
    obtain ⟨h1, h2⟩ := free_loop_slot kend MAXORDER (size_of kend s p) p s
    have h3 := h2 hsz
    rw [with_free_list_free_list]
    by_cases he : MAXORDER = (free_loop kend MAXORDER (size_of kend s p) p s).1
    · rw [if_pos he, ← he, h1]
      unfold list_push
      constructor
      · intro hc
        exact absurd hc (List.cons_ne_self _ _)
      · intro hc
        unfold MAXORDER MAXSIZE at *
        omega
    · rw [if_neg he, h1]
      constructor
      · intro _
        unfold MAXORDER MAXSIZE at *
        omega
      · intro _
        trivial

/-! ## C20: what `deallocuvm` writes -/

/-- The walk of `deallocuvm` over a well-formed address space returns; the
directory entries stay, and a leaf entry either stays or belongs to a page of
the range, was present and is 0 afterwards. -/
theorem deallocuvm_loop_frame (kend PHYSTOP pgdir lo oldsz : Nat) (m0 : Nat → Nat)
    (hk0 : 0 < kend) (hwrap : oldsz + MAXPGSIZE ≤ 2 ^ 32) :
    ∀ fuel a (st : KState) (owned : List (Nat × Nat)), a % PGSIZE = 0 → lo ≤ a →
      1 ≤ fuel → (a < oldsz → oldsz + 4096 ≤ a + 4096 * fuel) →
      SpaceWF kend PHYSTOP m0 st.fal owned pgdir a oldsz →
      (∀ k, k < NPDENTRIES → rd32 st.mem (pgdir + 4 * k) = rd32 m0 (pgdir + 4 * k)) →
      (∀ v, v < 2 ^ 32 → pde_of m0 pgdir v &&& PTE_P ≠ 0 → pde_of m0 pgdir v &&& PTE_PS = 0 →
        rd32 st.mem (pte_addr m0 pgdir v) = rd32 m0 (pte_addr m0 pgdir v) ∨
        (lo ≤ PGROUNDDOWN v ∧ PGROUNDDOWN v < oldsz ∧
          rd32 m0 (pte_addr m0 pgdir v) &&& PTE_P ≠ 0 ∧ rd32 st.mem (pte_addr m0 pgdir v) = 0)) →
      ∃ st2, deallocuvm_loop kend PHYSTOP pgdir oldsz fuel a st = .ok st2 ∧
        (∀ k, k < NPDENTRIES → rd32 st2.mem (pgdir + 4 * k) = rd32 m0 (pgdir + 4 * k)) ∧
        (∀ v, v < 2 ^ 32 → pde_of m0 pgdir v &&& PTE_P ≠ 0 → pde_of m0 pgdir v &&& PTE_PS = 0 →
          rd32 st2.mem (pte_addr m0 pgdir v) = rd32 m0 (pte_addr m0 pgdir v) ∨
          (lo ≤ PGROUNDDOWN v ∧ PGROUNDDOWN v < oldsz ∧
            rd32 m0 (pte_addr m0 pgdir v) &&& PTE_P ≠ 0 ∧
            rd32 st2.mem (pte_addr m0 pgdir v) = 0)) := by
  have hw2 : oldsz + 4194304 ≤ 2 ^ 32 := by
    rw [MAXPGSIZE_eq] at hwrap
    exact hwrap
  intro fuel
  induction fuel with
  | zero =>
    intro a st owned _ _ h1
    omega
  | succ fuel ih =>
    intro a st owned ha hlo _ hfuel hwf hD hL
    have ha2 : a % 4096 = 0 := ha
    have hpg2 : pgdir % 4096 = 0 := aligned_page kend 0 pgdir (hwf.inv.own_aligned _ _ hwf.dir).2
    have hpg : pgdir % PGSIZE = 0 := hpg2
    rw [deallocuvm_loop]
    by_cases hlt : a < oldsz
    · rw [if_pos hlt]
      simp only []
      have hf1 : 1 ≤ fuel := by
        have := hfuel hlt
        omega
      have hpde : pde_of st.mem pgdir a = pde_of m0 pgdir a := hD _ (PDX_lt a)
      have hpte : pte_addr st.mem pgdir a = pte_addr m0 pgdir a :=
        congrArg (fun x => PTE_ADDR x + 4 * PTX a) hpde
      by_cases hh : rd32 st.mem (pgdir + 4 * PDX a) &&& PTE_PS ≠ 0 ∧
          rd32 st.mem (pgdir + 4 * PDX a) &&& PTE_P ≠ 0
      · rw [if_pos hh]
        have hh0 : pde_of m0 pgdir a &&& PTE_PS ≠ 0 ∧ pde_of m0 pgdir a &&& PTE_P ≠ 0 := by
          rw [← hpde]
          exact hh
        obtain ⟨g1, g2⟩ := hwf.huge a ha le_rfl hlt hh0.2 hh0.1
        have hH : PTE_ADDR (rd32 st.mem (pgdir + 4 * PDX a)) = PTE_ADDR (pde_of m0 pgdir a) :=
          congrArg PTE_ADDR hpde
        have hge := aligned_ge kend MAXSIZE _ (hwf.inv.own_aligned _ _ g1).2
        rw [hH, if_neg (by omega), kfree_huge kend PHYSTOP st owned _ hwf.inv g1 g2]
        simp only
        have hnext : (a + MAXPGSIZE) % 2 ^ 32 = a + 4194304 := by
          rw [MAXPGSIZE_eq]
          exact Nat.mod_eq_of_lt (by omega)
        rw [hnext]
        have hf2 := hfuel hlt
        exact ih (a + 4194304) _ owned (by rw [PGSIZE_eq]; omega) (by omega) hf1
          (fun _ => by omega)
          (spaceWF_shrink kend PHYSTOP m0 st.fal owned pgdir a oldsz _ (by omega) hwf) hD hL
      · rw [if_neg hh, walkpgdir_nocreate]
        have hnext : (a + PGSIZE) % 2 ^ 32 = a + 4096 := by
          rw [PGSIZE_eq]
          exact Nat.mod_eq_of_lt (by omega)
        rw [hnext]
        have hnal : (a + 4096) % PGSIZE = 0 := by
          rw [PGSIZE_eq]
          omega
        have hf2 := hfuel hlt
        have hskip : ∃ st2, deallocuvm_loop kend PHYSTOP pgdir oldsz fuel (a + 4096) st =
              .ok st2 ∧
            (∀ k, k < NPDENTRIES → rd32 st2.mem (pgdir + 4 * k) = rd32 m0 (pgdir + 4 * k)) ∧
            (∀ v, v < 2 ^ 32 → pde_of m0 pgdir v &&& PTE_P ≠ 0 →
              pde_of m0 pgdir v &&& PTE_PS = 0 →
              rd32 st2.mem (pte_addr m0 pgdir v) = rd32 m0 (pte_addr m0 pgdir v) ∨
              (lo ≤ PGROUNDDOWN v ∧ PGROUNDDOWN v < oldsz ∧
                rd32 m0 (pte_addr m0 pgdir v) &&& PTE_P ≠ 0 ∧
                rd32 st2.mem (pte_addr m0 pgdir v) = 0)) :=
          ih (a + 4096) st owned hnal (by omega) hf1 (fun _ => by omega)
            (spaceWF_shrink kend PHYSTOP m0 st.fal owned pgdir a oldsz _ (by omega) hwf) hD hL
        by_cases hP : pde_of st.mem pgdir a &&& PTE_P ≠ 0
        · rw [if_pos hP]
          simp only
          by_cases hpp : pte_addr st.mem pgdir a ≠ 0 ∧
              rd32 st.mem (pte_addr st.mem pgdir a) &&& PTE_P ≠ 0
          · rw [if_pos hpp]
            have hP0 : pde_of m0 pgdir a &&& PTE_P ≠ 0 := by
              rw [← hpde]
              exact hP
            have hS0 : pde_of m0 pgdir a &&& PTE_PS = 0 := by
              rw [← hpde]
              by_contra hc
              exact hh ⟨hc, hP⟩
            have hleaf : rd32 st.mem (pte_addr st.mem pgdir a) = rd32 m0 (pte_addr m0 pgdir a) := by
              rcases hL a (by omega) hP0 hS0 with h5 | ⟨_, _, _, h5⟩
              · rw [hpte]
                exact h5
              · exfalso
                apply hpp.2
                rw [hpte, h5]
                exact zero_and_PTE_P
            have hm : mapped_small m0 pgdir a := by
              refine ⟨hP0, hS0, ?_⟩
              rw [← hleaf]
              exact hpp.2
            have hfe : PTE_ADDR (rd32 st.mem (pte_addr st.mem pgdir a)) = frame_of m0 pgdir a :=
              congrArg PTE_ADDR hleaf
            obtain ⟨q1, q2, q3, q4⟩ := hwf.frm a ha le_rfl hlt hm
            have hge := aligned_ge kend 0 _ (hwf.inv.own_aligned _ _ q1).2
            obtain ⟨st1, hk, hfal, _, hinv1, hprot⟩ :=
              kfree_small kend PHYSTOP st owned _ hwf.inv q1 q2
            rw [hfe, if_neg (by omega), hk]
            simp only
            have hT : is_table m0 pgdir (PTE_ADDR (pde_of m0 pgdir a)) :=
              ⟨PDX a, PDX_lt a, hP0, hS0, rfl⟩
            obtain ⟨hT1, hT2⟩ := hwf.apart _ (PDX_lt a) hP0 hS0
            have hSal := pte_addr_aligned m0 pgdir a
            have hdirw : ∀ k, k < NPDENTRIES →
                rd32 st1.mem (pgdir + 4 * k) = rd32 st.mem (pgdir + 4 * k) := by
              intro k hk2
              unfold NPDENTRIES at hk2
              exact hprot pgdir 0 hwf.dir (Ne.symm q3) _ (by omega) (by omega) (by omega)
            have hleafw : ∀ v, pde_of m0 pgdir v &&& PTE_P ≠ 0 →
                pde_of m0 pgdir v &&& PTE_PS = 0 →
                rd32 st1.mem (pte_addr m0 pgdir v) = rd32 st.mem (pte_addr m0 pgdir v) := by
              intro v hvP hvS
              have hTv : is_table m0 pgdir (PTE_ADDR (pde_of m0 pgdir v)) :=
                ⟨PDX v, PDX_lt v, hvP, hvS, rfl⟩
              have hx := PTX_eq v
              have hy : PTE_ADDR (pde_of m0 pgdir v) % 4096 = 0 := by
                rw [PTE_ADDR_eq]
                omega
              refine hprot _ 0 (hwf.tab _ hTv) ?_ _ (pte_addr_aligned m0 pgdir v) ?_ ?_
              · intro hc
                rw [hc] at hTv
                exact q4 hTv
              · unfold pte_addr
                omega
              · unfold pte_addr
                omega
            apply ih (a + 4096) _ _ hnal (by omega) hf1 (fun _ => by omega)
            · have := spaceWF_free kend PHYSTOP m0 st.fal st1.fal owned pgdir a oldsz ha hlt hm
                hwf hinv1
              exact this
            · intro k hk2
              simp only
              rw [hpte, rd32_wr32_other _ _ _ _ hSal (by omega)]
              · rw [hdirw k hk2]
                exact hD k hk2
              · intro hc
                have hx : PTE_ADDR (pde_of m0 pgdir a) + 4 * PTX a = pgdir + 4 * k := hc.symm
                have hy := PTX_eq a
                rw [PTE_ADDR_eq] at hx hT1
                unfold NPDENTRIES at hk2
                unfold pde_of at hx
                omega
            · intro v hv hvP hvS
              simp only
              rw [hpte]
              by_cases hsame : pte_addr m0 pgdir v = pte_addr m0 pgdir a
              · right
                obtain ⟨e1, e2⟩ := slot_eq_split _ _ v a
                  (by rw [PTE_ADDR_eq]; omega) (by rw [PTE_ADDR_eq]; omega) hsame
                have e3 : PDX v = PDX a := by
                  by_contra hne
                  exact hT2 (PDX v) (PDX_lt v) hne hvP hvS e1
                have e4 := same_page_of_index v a hv (by omega) ha2 e3 e2
                rw [hsame, rd32_wr32_same, e4]
                exact ⟨hlo, hlt, hm.2.2, rfl⟩
              · rw [rd32_wr32_other _ _ _ _ hSal (pte_addr_aligned m0 pgdir v) hsame,
                  hleafw v hvP hvS]
                exact hL v hv hvP hvS
          · rw [if_neg hpp]
            exact hskip
        · rw [if_neg hP]
          simp only [ne_eq, not_true_eq_false, false_and, if_false]
          exact hskip
    · rw [if_neg hlt]
      exact ⟨st, rfl, hD, hL⟩

/-- C20 (frame of `deallocuvm`).  For `oldsz ≤ newsz`, `deallocuvm` changes
nothing and returns `oldsz`.  For `newsz < oldsz ≤ 2^32 − MAXPGSIZE` on a
well-formed address space (`SpaceLive`: the directory, the tables and the frames
of the range are live allocations of their own), with the kernel image ending
above address 0: the call returns `newsz`, and when none of its `kfree`s stored
past the array `free_areas[MAXORDER]`, each of the 1024 directory entries is as
it was (so a present huge entry is still present, with the same frame) and
every leaf entry is as it was, except leaf entries of pages in
`[PGROUNDUP(newsz), oldsz)` that were present: these may be 0 afterwards. -/
theorem deallocuvm_frame (kend PHYSTOP : Nat) (st : KState) (pgdir oldsz newsz : Nat) :
    (oldsz ≤ newsz → deallocuvm kend PHYSTOP st pgdir oldsz newsz = .ok (oldsz, st)) ∧
    (newsz < oldsz → ∀ live, 0 < kend → oldsz + MAXPGSIZE ≤ 2 ^ 32 →
      SpaceLive kend PHYSTOP st live pgdir (PGROUNDUP newsz) oldsz →
      ∃ st2, deallocuvm kend PHYSTOP st pgdir oldsz newsz = .ok (newsz, st2) ∧
        (frees_in_array st.fal st2.fal →
          (∀ k, k < NPDENTRIES → rd32 st2.mem (pgdir + 4 * k) = rd32 st.mem (pgdir + 4 * k)) ∧
          (∀ v, v < 2 ^ 32 → pde_of st.mem pgdir v &&& PTE_P ≠ 0 →
            pde_of st.mem pgdir v &&& PTE_PS = 0 →
            rd32 st2.mem (pte_addr st.mem pgdir v) = rd32 st.mem (pte_addr st.mem pgdir v) ∨
            (PGROUNDUP newsz ≤ PGROUNDDOWN v ∧ PGROUNDDOWN v < oldsz ∧
              rd32 st.mem (pte_addr st.mem pgdir v) &&& PTE_P ≠ 0 ∧
              rd32 st2.mem (pte_addr st.mem pgdir v) = 0)))) := by
  constructor
  · intro hle
    unfold deallocuvm
    rw [if_pos hle]
  · intro hlt live hk0 hwrap hlive
    obtain ⟨owned, hwf⟩ := spaceWF_of_live kend PHYSTOP st live pgdir _ _ hlive
    have hal : PGROUNDUP newsz % PGSIZE = 0 := by
      unfold PGROUNDUP
      rw [PGSIZE_eq]
      omega
    have hw2 : oldsz + 4194304 ≤ 2 ^ 32 := by
      rw [MAXPGSIZE_eq] at hwrap
      exact hwrap
    obtain ⟨st2, hl, hD, hL⟩ := deallocuvm_loop_frame kend PHYSTOP pgdir (PGROUNDUP newsz) oldsz
      st.mem hk0 hwrap (2 ^ 20 + 1) (PGROUNDUP newsz) st owned hal le_rfl (by norm_num)
      (fun _ => by omega) hwf (fun _ _ => rfl) (fun _ _ _ _ => Or.inl rfl)
    refine ⟨st2, ?_, fun _ => ⟨hD, hL⟩⟩
    unfold deallocuvm
    rw [if_neg (by omega), hl]

theorem rd32_zero (a : Nat) : rd32 (fun _ => 0) a = 0 := by
  simp [rd32]

theorem ex_small_tile_pde (k : Nat) (hk : k < NPDENTRIES) :
    rd32 ex_state_small_tile.mem (0x1400000 + 4 * k) = if k = 1 then 0x1402007 else 0 := by
  unfold NPDENTRIES at hk
  unfold ex_state_small_tile
  simp only
  rw [rd32_wr32_other _ _ _ _ (by decide) (by omega) (by omega)]
  by_cases h1 : k = 1
  · subst h1
    rw [if_pos rfl, rd32_wr32_same]
    decide
  · rw [if_neg h1, rd32_wr32_other _ _ _ _ (by decide) (by omega) (by omega), rd32_zero]

theorem ex_small_tile_apart : TablesApart ex_state_small_tile.mem 0x1400000 := by
  intro k hk hP hS
  rw [ex_small_tile_pde k hk] at hP ⊢
  by_cases h1 : k = 1
  · subst h1
    refine ⟨by decide, ?_⟩
    intro k2 hk2 hne hP2 _
    rw [ex_small_tile_pde k2 hk2, if_neg hne] at hP2
    exact absurd zero_and_PTE_P hP2
  · rw [if_neg h1] at hP
    exact absurd zero_and_PTE_P hP

theorem ex_small_tile_table (T : Nat) (h : is_table ex_state_small_tile.mem 0x1400000 T) :
    T = 0x1402000 := by
  obtain ⟨k, hk, hP, _, hT⟩ := h
  rw [ex_small_tile_pde k hk] at hP hT
  by_cases h1 : k = 1
  · rw [if_pos h1] at hT
    rw [← hT]
    decide
  · rw [if_neg h1] at hP
    exact absurd zero_and_PTE_P hP

/-- The address space of `ex_state_small_tile` is well formed over the page at
virtual 4 MiB: the directory `0x1400000`, the frame `0x1401000` and the table
`0x1402000` are the three live pages. -/
theorem ex_small_tile_live : SpaceLive ex_kend ex_PHYSTOP2 ex_state_small_tile
    [(0x1402000, 4096), (0x1401000, 4096), (0x1400000, 4096)] 0x1400000 0x400000 0x401000 := by
  have hfr : frame_of ex_state_small_tile.mem 0x1400000 0x400000 = 0x1401000 := by decide!
  have hone : ∀ a, a % PGSIZE = 0 → 0x400000 ≤ a → a < 0x401000 → a = 0x400000 := by
    intro a h1 h2 h3
    rw [PGSIZE_eq] at h1
    omega
  refine ⟨?_, by decide, ex_small_tile_apart, ?_, ?_, ?_, ?_⟩
  · exact Reach.alloc (alloc_many ex_kend (buddy_init ex_kend ex_PHYSTOP2) [4096, 4096]) _ _
      4096 0x1402000
      (Reach.alloc (alloc_state ex_kend (buddy_init ex_kend ex_PHYSTOP2) 4096) _ _ 4096
        0x1401000
        (Reach.alloc (buddy_init ex_kend ex_PHYSTOP2) _ _ 4096 0x1400000 Reach.init
          (by decide) rfl (by decide))
        (by decide) rfl (by decide))
      (by decide) rfl (by decide)
  · intro T hT
    rw [ex_small_tile_table T hT]
    decide
  · intro a h1 h2 h3 _
    rw [hone a h1 h2 h3, hfr]
    refine ⟨by decide, by decide, ?_⟩
    intro hc
    exact absurd (ex_small_tile_table _ hc) (by decide)
  · intro a b ha hb h1 h2 h3 h4 _ _ _
    rw [hone a ha h1 h2, hone b hb h3 h4]
  · intro a h1 h2 h3 _ hS
    rw [hone a h1 h2 h3] at hS
    exact absurd (by decide!) hS

/-- C20 (witness).  On `ex_state_small_tile` the call
`deallocuvm(pgdir, 0x401000, 0x400000)` returns `0x400000`; its one `kfree`
leaves its loop at order 0 and stores the old head `0x1403000` of `free_list[0]`
in the first word of the frame `0x1401000`; the leaf entry of the page at 4 MiB
is 0 afterwards and the directory entry 1 is as before. -/
theorem deallocuvm_frame_witness :
    rd32 ex_state_small_tile.mem (pte_addr ex_state_small_tile.mem 0x1400000 0x400000) =
      0x1401007 ∧
    free_order ex_kend ex_state_small_tile.fal 0x1401000 = 0 ∧
    rd32 (result_state ex_state_small_tile (deallocuvm ex_kend ex_PHYSTOP2 ex_state_small_tile
      0x1400000 0x401000 0x400000)).mem 0x1401000 = 0x1403000 ∧
    rd32 (result_state ex_state_small_tile (deallocuvm ex_kend ex_PHYSTOP2 ex_state_small_tile
      0x1400000 0x401000 0x400000)).mem (pte_addr ex_state_small_tile.mem 0x1400000 0x400000) =
        0 ∧
    rd32 (result_state ex_state_small_tile (deallocuvm ex_kend ex_PHYSTOP2 ex_state_small_tile
      0x1400000 0x401000 0x400000)).mem (0x1400000 + 4 * 1) =
        rd32 ex_state_small_tile.mem (0x1400000 + 4 * 1) := by
  obtain ⟨st2, h1, h2⟩ := (deallocuvm_frame ex_kend ex_PHYSTOP2 ex_state_small_tile 0x1400000
    0x401000 0x400000).2 (by decide) _ (by decide) (by decide) ex_small_tile_live
  have e : result_state ex_state_small_tile (deallocuvm ex_kend ex_PHYSTOP2 ex_state_small_tile
      0x1400000 0x401000 0x400000) = st2 := by
    rw [h1]
    rfl
  have hin : frees_in_array ex_state_small_tile.fal st2.fal := by
    rw [← e]
    decide!
  refine ⟨by decide!, by decide!, by decide!, by decide!, ?_⟩
  rw [e]
  exact (h2 hin).1 1 (by decide)

/-! ## C7: the words that one round of `allocuvm` writes -/

/-- The small-page branch of `mappages` under a present huge directory entry:
`walkpgdir` does not look at the page-size bit and takes the huge frame
`0x1800000` for a table; the word at `0x1800004` of the frame is 0, so no
"remap" is seen, the leaf entry is written into the frame and the call returns
0.  Virtual `0x1000` is mapped by the huge entry before and after. -/
theorem mappages_writes_into_huge_frame :
    translate ex_state_huge.mem 0x1400000 0x1000 = some 0x1801000 ∧
    rd32 ex_state_huge.mem 0x1800004 = 0 ∧
    result_value (mappages ex_kend ex_state_huge 0x1400000 0x1000 4096 0x1401000
      (PTE_W ||| PTE_U)) = some 0 ∧
    rd32 (result_state ex_state_huge (mappages ex_kend ex_state_huge 0x1400000 0x1000 4096
      0x1401000 (PTE_W ||| PTE_U))).mem 0x1800004 = 0x1401007 := by
  refine ⟨by decide!, by decide!, by decide!, by decide!⟩

/-- Where the coalescing loop leaves the block: at some order `i2` from `i` to
`MAXSIZE` the allocated bit over `p` is clear and, below the top order, the
split bit of the next order over `p` is set. -/
theorem free_loop_post (kend : Nat) (owned : List (Nat × Nat)) :
    ∀ fuel i p s, Inv kend s owned → Hole kend s owned i p → MAXORDER ≤ i + fuel →
      ∃ i2, i ≤ i2 ∧ i2 ≤ MAXSIZE ∧
        Abit (free_loop kend fuel i p s).2.2 i2 (get_index kend p i2) = false ∧
        (i2 < MAXSIZE →
          Sbit (free_loop kend fuel i p s).2.2 (i2 + 1) (get_index kend p (i2 + 1)) = true) := by
  intro fuel
  induction fuel with
  | zero =>
    intro i p s _ hh hf
    have := hh.le
    unfold MAXORDER at hf
    unfold MAXSIZE at this
    omega
  | succ fuel ih =>
    intro i p s h hh hf
    have hiM := hh.le
    have hiO : i < MAXORDER := by unfold MAXORDER; unfold MAXSIZE at hiM; omega
    rw [free_loop_succ, if_pos hiO]
    cases hb : Abit (free_clear kend i p s) i (buddy_of (get_index kend p i)) with
    | true =>
      simp only [if_true]
      refine ⟨i, le_rfl, hiM, ?_, ?_⟩
      · rw [free_clear_Abit, if_pos ⟨rfl, rfl⟩]
      · intro hlt
        rw [free_clear_Sbit]
        exact (hh.anc (i + 1) (by omega) (by omega)).1
    | false =>
      simp only [Bool.false_eq_true, if_false]
      have hm := inv_free_merge kend s owned i p h hh hb
      rcases Nat.eq_or_lt_of_le hiM with heq | hlt
      · have hdone : ¬ i + 1 < MAXORDER := by unfold MAXORDER; unfold MAXSIZE at heq; omega
        rw [free_loop_done kend fuel (i + 1) _ _ hdone]
        refine ⟨i, le_rfl, hiM, ?_, fun hc => by omega⟩
        simp only
        rw [free_merge_Abit, if_pos ⟨rfl, rfl⟩]
      · obtain ⟨i2, h1, h2, h3, h4⟩ :=
          ih (i + 1) _ _ hm (hole_free_merge kend s owned i p h hh hlt hb) (by omega)
        refine ⟨i2, by omega, h2, ?_, ?_⟩
        · rw [← free_parent_index kend i p i2 hh.aligned (by omega)]
          exact h3
        · intro hc
          rw [← free_parent_index kend i p (i2 + 1) hh.aligned (by omega)]
          exact h4 hc

/-- The guard of `buddy_free` fails for a block whose allocated bit is clear at
the order its split bits point to. -/
theorem free_guard_clear (kend : Nat) (s : FreeAreaList) (owned : List (Nat × Nat))
    (p i : Nat) (h : Inv kend s owned) (hi : i ≤ MAXSIZE)
    (hA : Abit s i (get_index kend p i) = false)
    (hS : i < MAXSIZE → Sbit s (i + 1) (get_index kend p (i + 1)) = true) :
    bit_is_set (s.allocated (size_of kend s p)) (get_index kend p (size_of kend s p)) = false := by
  obtain ⟨z1, z2⟩ := h.zero i hi _ (Or.inl hA)
  have hlow : ∀ k, k ≤ i →
      Abit s k (get_index kend p k) = false ∧ Sbit s k (get_index kend p k) = false := by
    intro k hk
    rcases Nat.eq_or_lt_of_le hk with heq | hlt
    · subst heq
      exact ⟨hA, z1⟩
    · exact z2 k hlt _ (get_index_of_le kend p k i hk).symm
  rcases Nat.eq_or_lt_of_le hi with heq | hlt
  · have hsz : size_of kend s p = 0 := by
      unfold size_of
      apply size_of_loop_none
      intro k _ hk
      exact (hlow (k + 1) (by omega)).2
    rw [hsz]
    exact (hlow 0 (by omega)).1
  · have hsz : size_of kend s p = i := by
      unfold size_of
      apply size_of_loop_found kend s p i hlt (hS hlt)
      · omega
      · omega
      · intro k _ hk
        exact (hlow (k + 1) (by omega)).2
    rw [hsz]
    exact hA

/-- `buddy_free` of a block whose allocated bit is clear at the order its split
bits point to changes nothing. -/
theorem buddy_free_clear_noop (kend : Nat) (s : FreeAreaList) (owned : List (Nat × Nat))
    (p i : Nat) (h : Inv kend s owned) (hi : i ≤ MAXSIZE)
    (hA : Abit s i (get_index kend p i) = false)
    (hS : i < MAXSIZE → Sbit s (i + 1) (get_index kend p (i + 1)) = true) :
    buddy_free kend s p = s := by
  have hg := free_guard_clear kend s owned p i h hi hA hS
  unfold buddy_free
  simp only []
  rw [hg]
  simp

/-- C13 (double free ignored).  In every state that `buddy_alloc` (requests of
at most `MAXPGSIZE` bytes) and `buddy_free` (of live allocations, each call
staying inside the array `free_areas[MAXORDER]`) reach from the state left by
`buddy_init`, and for every live allocation `p` whose `buddy_free(p)` stays
inside the array: a second `buddy_free(p)` right after the first stays inside
the array too (it returns at the guard or ends as the first did) and leaves the
state of the first: the free lists and both bitmaps are the same. -/
theorem double_free_ignored (kend PHYSTOP : Nat) (s : FreeAreaList) (live : List (Nat × Nat))
    (p n : Nat) (hr : Reach kend PHYSTOP s live) (hp : (p, n) ∈ live)
    (hin : free_in_array kend s p) :
    free_in_array kend (buddy_free kend s p) p ∧
      buddy_free kend (buddy_free kend s p) p = buddy_free kend s p := by
  obtain ⟨owned, hinv, hlive, _⟩ := reach_inv kend PHYSTOP s live hr
  obtain ⟨m, _, ho⟩ := hlive p n hp
  have hmle := (hinv.own_aligned p m ho).1
  rcases Nat.eq_or_lt_of_le hmle with heq | hlt
  · subst heq
    rw [buddy_free_owned_top kend s owned p hinv ho, buddy_free_owned_top kend s owned p hinv ho]
    exact ⟨hin, rfl⟩
  · have hinv2 := inv_free kend s owned p m hinv ho hlt
    have h2 : Inv kend s (owned.filter (fun a => decide (a.1 ≠ p))) :=
      inv_owned_sublist kend s owned _ hinv (List.filter_sublist _)
    obtain ⟨i2, _, hi2, hA, hS⟩ := free_loop_post kend _ MAXORDER m p s h2
      (hole_of_owned kend s owned p m hinv ho) (by omega)
    have hA2 : Abit (buddy_free kend s p) i2 (get_index kend p i2) = false := by
      rw [buddy_free_owned kend s owned p m hinv ho hlt, Abit_with_free_list]
      exact hA
    have hS2 : i2 < MAXSIZE →
        Sbit (buddy_free kend s p) (i2 + 1) (get_index kend p (i2 + 1)) = true := by
      intro hc
      rw [buddy_free_owned kend s owned p m hinv ho hlt, Sbit_with_free_list]
      exact hS hc
    refine ⟨?_, buddy_free_clear_noop kend _ _ p i2 hinv2 hi2 hA2 hS2⟩
    intro hg
    rw [free_guard_clear kend _ _ p i2 hinv2 hi2 hA2 hS2] at hg
    exact absurd hg (by decide)

/-- C13 (witness).  After `buddy_alloc(4096)` and `buddy_alloc(8192)` on a region
of two huge blocks, the first `buddy_free(0x1400000)` leaves its loop at order 1
and puts the block of two pages at `0x1400000` on `free_list[1]`, and the second
one changes nothing. -/
theorem double_free_ignored_witness :
    free_order ex_kend (alloc_many ex_kend (buddy_init ex_kend ex_PHYSTOP2) [4096, 8192])
      0x1400000 = 1 ∧
    (buddy_free ex_kend (alloc_many ex_kend (buddy_init ex_kend ex_PHYSTOP2) [4096, 8192])
      0x1400000).free_list 1 = [0x1400000] ∧
    free_in_array ex_kend
      (buddy_free ex_kend (alloc_many ex_kend (buddy_init ex_kend ex_PHYSTOP2) [4096, 8192])
        0x1400000) 0x1400000 ∧
    buddy_free ex_kend
      (buddy_free ex_kend (alloc_many ex_kend (buddy_init ex_kend ex_PHYSTOP2) [4096, 8192])
        0x1400000) 0x1400000 =
      buddy_free ex_kend (alloc_many ex_kend (buddy_init ex_kend ex_PHYSTOP2) [4096, 8192])
        0x1400000 :=
  ⟨by decide, by decide,
    double_free_ignored ex_kend ex_PHYSTOP2
      (alloc_many ex_kend (buddy_init ex_kend ex_PHYSTOP2) [4096, 8192])
      [(0x1402000, 8192), (0x1400000, 4096)] 0x1400000 4096
      (Reach.alloc (alloc_state ex_kend (buddy_init ex_kend ex_PHYSTOP2) 4096) _ _ 8192 0x1402000
        (Reach.alloc (buddy_init ex_kend ex_PHYSTOP2) _ _ 4096 0x1400000 Reach.init
          (by decide) rfl (by decide))
        (by decide) rfl (by decide))
      (by decide) (by decide)⟩

/-! ## C16: buddy pairing -/

theorem buddy_of_buddy_of (j : Nat) : buddy_of (buddy_of j) = j := by
  by_cases h : j % 2 = 0
  · have e : buddy_of j = j + 1 := by
      unfold buddy_of
      rw [if_pos h]
    rw [e]
    unfold buddy_of
    rw [if_neg (by omega)]
    omega
  · have e : buddy_of j = j - 1 := by
      unfold buddy_of
      rw [if_neg h]
    rw [e]
    unfold buddy_of
    rw [if_pos (by omega)]
    omega

theorem aligned_of_le (kend q : Nat) : ∀ d k, Aligned kend (k + d) q → Aligned kend k q := by
  intro d
  induction d with
  | zero => exact fun _ h => h
  | succ d ih => exact fun k h => ih k (aligned_pred kend (k + d) q h)

/-- The two ways `buddy_alloc` returns for a request of at most `MAXPGSIZE`
bytes: null with the state unchanged, or the head of the first non-empty list
from the order of the request on. -/
theorem buddy_alloc_cases (kend : Nat) (s s2 : FreeAreaList) (n p : Nat) (hn : n ≤ MAXPGSIZE)
    (ha : buddy_alloc kend s n = some (p, s2)) :
    (p = 0 ∧ s2 = s) ∨
      ∃ m i rest, min_order n = some m ∧ m ≤ i ∧ i ≤ MAXSIZE ∧
        (∀ k, m ≤ k → k < i → s.free_list k = []) ∧ s.free_list i = p :: rest := by
  obtain ⟨m, hm, hmle, _, _⟩ := min_order_le_MAXSIZE n hn
  have hMO : MAXORDER = MAXSIZE + 1 := rfl
  unfold buddy_alloc at ha
  rw [hm] at ha
  simp only at ha
  obtain ⟨h1, h2, h3, h4⟩ := scan_free_spec s MAXORDER m (by omega)
  by_cases hi : scan_free s MAXORDER m = MAXORDER
  · rw [if_pos hi] at ha
    left
    simp only [Option.some.injEq, Prod.mk.injEq] at ha
    exact ⟨ha.1.symm, ha.2.symm⟩
  · rw [if_neg hi] at ha
    right
    have hlt : scan_free s MAXORDER m < MAXORDER := lt_of_le_of_ne (h2 (by omega)) hi
    have hne := h3 hlt
    generalize scan_free s MAXORDER m = i at *
    cases hl : s.free_list i with
    | nil => exact absurd hl hne
    | cons X rest =>
      rw [hl] at ha
      simp only [list_pop, Option.some.injEq, Prod.mk.injEq] at ha
      obtain ⟨hp, _⟩ := ha
      subst hp
      exact ⟨m, i, rest, hm, h1, by omega, fun k hk1 hk2 => h4 k hk1 hk2 (by omega), hl⟩

theorem buddy_of_right_half (kend k p : Nat) (h : Aligned kend (k + 1) p) :
    buddy_of (get_index kend (p + BLOCKSIZE k) k) = get_index kend p k := by
  rw [get_index_right_half kend k p h, get_index_left_half kend k p h]
  unfold buddy_of
  rw [if_neg (by omega)]
  omega

/-- `buddy_alloc` keeps `Pair`. -/
theorem pair_alloc (kend : Nat) (s s2 : FreeAreaList) (owned : List (Nat × Nat)) (n p : Nat)
    (h : Inv kend s owned) (hP : Pair kend s) (hn : n ≤ MAXPGSIZE)
    (ha : buddy_alloc kend s n = some (p, s2)) : Pair kend s2 := by
  rcases buddy_alloc_cases kend s s2 n p hn ha with ⟨_, h0⟩ | ⟨m, i, rest, hm, hmi, hi, hlow, hhead⟩
  · rw [h0]
    exact hP
  · obtain ⟨s3, ha3, hL, hA, _⟩ := buddy_alloc_post kend s n m i p rest hm hmi hi hlow hhead
    rw [ha3] at ha
    simp only [Option.some.injEq, Prod.mk.injEq, true_and] at ha
    subst ha
    have hpal : Aligned kend i p := h.free_aligned i hi p (by rw [hhead]; exact List.mem_cons_self _ _)
    intro k hk q hq
    rw [hL] at hq
    rw [hA]
    have hold : q ∈ s.free_list k →
        (if m ≤ k ∧ k ≤ i ∧ get_index kend p k = buddy_of (get_index kend q k) then true
          else Abit s k (buddy_of (get_index kend q k))) = true := by
      intro hq0
      split
      · rfl
      · exact hP k hk q hq0
    by_cases h1 : k = i
    · rw [if_pos h1] at hq
      apply hold
      rw [h1, hhead]
      exact List.mem_cons_of_mem _ hq
    · rw [if_neg h1] at hq
      by_cases h2 : m ≤ k ∧ k < i
      · rw [if_pos h2] at hq
        rcases List.mem_cons.mp hq with h3 | h3
        · subst h3
          have hal : Aligned kend (k + 1) p :=
            aligned_of_le kend p (i - (k + 1)) (k + 1) (by
              have e : k + 1 + (i - (k + 1)) = i := by omega
              rw [e]
              exact hpal)
          rw [buddy_of_right_half kend k p hal, if_pos ⟨h2.1, by omega, rfl⟩]
        · exact hold h3
      · rw [if_neg h2] at hq
        exact hold hq

/-- The loop of `buddy_free` stops at order `i` and pushes the block: `Pair` holds. -/
theorem pair_free_stop (kend : Nat) (s : FreeAreaList) (owned : List (Nat × Nat)) (i p : Nat)
    (h : Inv kend s owned) (hh : Hole kend s owned i p) (hP : Pair kend s)
    (hb : Abit (free_clear kend i p s) i (buddy_of (get_index kend p i)) = true) :
    Pair kend ((free_clear kend i p s).with_free_list i
      (list_push ((free_clear kend i p s).free_list i) p)) := by
  intro k hk q hq
  rw [Abit_with_free_list, free_clear_Abit]
  rw [with_free_list_free_list, free_clear_free_list] at hq
  rw [free_clear_Abit] at hb
  by_cases hki : k = i
  · subst hki
    rw [if_pos rfl] at hq
    rcases List.mem_cons.mp hq with h1 | h1
    · subst h1
      exact hb
    · rw [if_neg]
      · exact hP k hk q h1
      · rintro ⟨_, he⟩
        have e : buddy_of (get_index kend p k) = get_index kend q k := by
          rw [he, buddy_of_buddy_of]
        rw [e] at hb
        have hf := h.free_unalloc k hh.le q h1
        split at hb
        · exact absurd hb (by simp)
        · rw [hf] at hb
          exact absurd hb (by simp)
  · rw [if_neg hki] at hq
    rw [if_neg (fun hc => hki hc.1)]
    exact hP k hk q hq

/-- One merging round of the loop of `buddy_free` keeps `Pair`. -/
theorem pair_free_merge (kend : Nat) (s : FreeAreaList) (owned : List (Nat × Nat)) (i p : Nat)
    (h : Inv kend s owned) (hh : Hole kend s owned i p) (hP : Pair kend s) :
    Pair kend (free_merge kend i p s) := by
  intro k hk q hq
  rw [free_merge_Abit]
  rw [free_merge_free_list] at hq
  by_cases hki : k = i
  · subst hki
    rw [if_pos rfl] at hq
    have hq0 : q ∈ s.free_list k := (list_remove_sublist _ _).subset hq
    rw [if_neg]
    · exact hP k hk q hq0
    · rintro ⟨_, he⟩
      have e : get_index kend q k = buddy_of (get_index kend p k) := by
        rw [he, buddy_of_buddy_of]
      have hqa := h.free_aligned k hh.le q hq0
      have e2 : q = get_address kend (buddy_of (get_index kend p k)) k := by
        rw [← e]
        exact (get_address_get_index kend k q hqa).symm
      rw [e2] at hq
      exact list_remove_not_mem _ _ (h.nodup_free k hh.le) hq
  · rw [if_neg hki] at hq
    rw [if_neg (fun hc => hki hc.1)]
    exact hP k hk q hq

theorem pair_with_free_list_high (kend : Nat) (s : FreeAreaList) (i : Nat) (l : List Nat)
    (hP : Pair kend s) (hi : MAXSIZE ≤ i) : Pair kend (s.with_free_list i l) := by
  intro k hk q hq
  rw [with_free_list_free_list, if_neg (by omega)] at hq
  rw [Abit_with_free_list]
  exact hP k hk q hq

/-- The coalescing loop followed by the final push keeps `Pair`. -/
theorem pair_free_loop (kend : Nat) (owned : List (Nat × Nat)) :
    ∀ fuel i p s, Inv kend s owned → Hole kend s owned i p → Pair kend s → MAXORDER ≤ i + fuel →
      Pair kend ((free_loop kend fuel i p s).2.2.with_free_list (free_loop kend fuel i p s).1
        (list_push ((free_loop kend fuel i p s).2.2.free_list (free_loop kend fuel i p s).1)
          (free_loop kend fuel i p s).2.1)) := by
  intro fuel
  induction fuel with
  | zero =>
    intro i p s _ hh _ hf
    have := hh.le
    unfold MAXORDER at hf
    unfold MAXSIZE at this
    omega
  | succ fuel ih =>
    intro i p s h hh hP hf
    have hiM := hh.le
    have hiO : i < MAXORDER := by unfold MAXORDER; unfold MAXSIZE at hiM; omega
    rw [free_loop_succ, if_pos hiO]
    cases hb : Abit (free_clear kend i p s) i (buddy_of (get_index kend p i)) with
    | true =>
      simp only [if_true]
      exact pair_free_stop kend s owned i p h hh hP hb
    | false =>
      simp only [Bool.false_eq_true, if_false]
      have hm := inv_free_merge kend s owned i p h hh hb
      have hPm := pair_free_merge kend s owned i p h hh hP
      rcases Nat.eq_or_lt_of_le hiM with heq | hlt
      · have hdone : ¬ i + 1 < MAXORDER := by unfold MAXORDER; unfold MAXSIZE at heq; omega
        rw [free_loop_done kend fuel (i + 1) _ _ hdone]
        exact pair_with_free_list_high kend _ (i + 1) _ hPm (by omega)
      · exact ih (i + 1) _ _ hm (hole_free_merge kend s owned i p h hh hlt hb) hPm (by omega)

/-- `Pair` holds along every history. -/
theorem reach_pair (kend PHYSTOP : Nat) (s : FreeAreaList) (live : List (Nat × Nat))
    (hr : Reach kend PHYSTOP s live) : Pair kend s := by
  induction hr with
  | init =>
    intro k hk q hq
    have hne : k ≠ MAXSIZE := by omega
    simp [buddy_init, hne] at hq
  | alloc s s2 live n p hr hn ha _ ih =>
    obtain ⟨owned, hinv, _, _⟩ := reach_inv kend PHYSTOP s live hr
    exact pair_alloc kend s s2 owned n p hinv ih hn ha
  | alloc_null s s2 live n hr hn ha ih =>
    obtain ⟨owned, hinv, _, _⟩ := reach_inv kend PHYSTOP s live hr
    exact pair_alloc kend s s2 owned n 0 hinv ih hn ha
  | free s live p n hr hp _ ih =>
    obtain ⟨owned, hinv, hlive, _⟩ := reach_inv kend PHYSTOP s live hr
    obtain ⟨m, _, ho⟩ := hlive p n hp
    have hmle := (hinv.own_aligned p m ho).1
    rcases Nat.eq_or_lt_of_le hmle with heq | hlt
    · subst heq
      rw [buddy_free_owned_top kend s owned p hinv ho]
      exact ih
    · rw [buddy_free_owned kend s owned p m hinv ho hlt]
      exact pair_free_loop kend _ MAXORDER m p s
        (inv_owned_sublist kend s owned _ hinv (List.filter_sublist _))
        (hole_of_owned kend s owned p m hinv ho) ih (by omega)

/-- C16 (buddy pairing).  In every state that `buddy_alloc` (requests of at
most `MAXPGSIZE` bytes) and `buddy_free` (of live allocations, each call
staying inside the array `free_areas[MAXORDER]`) reach from the state left by
`buddy_init`, and for every order `k` below `MAXSIZE`: the buddy of a block of
`free_list[k]` is not in `free_list[k]`, and no other block of `free_list[k]`
lies in the same block of order `k + 1`. -/
theorem buddy_pairing (kend PHYSTOP : Nat) (s : FreeAreaList) (live : List (Nat × Nat))
    (k q : Nat) (hr : Reach kend PHYSTOP s live) (hk : k < MAXSIZE) (hq : q ∈ s.free_list k) :
    buddy_address kend q k ∉ s.free_list k ∧
    ∀ q2 ∈ s.free_list k, q2 ≠ q → get_index kend q2 (k + 1) ≠ get_index kend q (k + 1) := by
  obtain ⟨owned, hinv, _, _⟩ := reach_inv kend PHYSTOP s live hr
  have hP := reach_pair kend PHYSTOP s live hr
  have hset := hP k hk q hq
  constructor
  · intro hb
    have hf := hinv.free_unalloc k (by omega) _ hb
    unfold buddy_address at hf
    rw [get_index_get_address, hset] at hf
    exact absurd hf (by simp)
  · intro q2 hq2 hne he
    rw [get_index_succ, get_index_succ] at he
    have hf := hinv.free_unalloc k (by omega) q2 hq2
    rcases half_eq_cases _ _ he with h1 | h1
    · exact hne (aligned_eq_of_index kend k q2 q (hinv.free_aligned k (by omega) q2 hq2)
        (hinv.free_aligned k (by omega) q hq) h1)
    · rw [h1, hset] at hf
      exact absurd hf (by simp)

/-- C16 (witness).  After `buddy_alloc(4096)`, `buddy_alloc(8192)` and
`buddy_free(0x1400000)` on a region of two huge blocks: the free merges the page
with its free buddy `0x1401000`, leaves its loop at order 1 and puts the block of
two pages at `0x1400000` on `free_list[1]`; its buddy `0x1402000` is allocated
and not on the list. -/
theorem buddy_pairing_witness :
    free_order ex_kend (alloc_many ex_kend (buddy_init ex_kend ex_PHYSTOP2) [4096, 8192])
      0x1400000 = 1 ∧
    (buddy_free ex_kend (alloc_many ex_kend (buddy_init ex_kend ex_PHYSTOP2) [4096, 8192])
      0x1400000).free_list 1 = [0x1400000] ∧
    buddy_address ex_kend 0x1400000 1 = 0x1402000 ∧
    (buddy_address ex_kend 0x1400000 1 ∉
        (buddy_free ex_kend (alloc_many ex_kend (buddy_init ex_kend ex_PHYSTOP2) [4096, 8192])
          0x1400000).free_list 1 ∧
      ∀ q2 ∈ (buddy_free ex_kend
          (alloc_many ex_kend (buddy_init ex_kend ex_PHYSTOP2) [4096, 8192])
          0x1400000).free_list 1,
        q2 ≠ 0x1400000 → get_index ex_kend q2 (1 + 1) ≠ get_index ex_kend 0x1400000 (1 + 1)) :=
  ⟨by decide, by decide, by decide,
    buddy_pairing ex_kend ex_PHYSTOP2
      (buddy_free ex_kend (alloc_many ex_kend (buddy_init ex_kend ex_PHYSTOP2) [4096, 8192])
        0x1400000)
      [(0x1402000, 8192)] 1 0x1400000
      (Reach.free (alloc_many ex_kend (buddy_init ex_kend ex_PHYSTOP2) [4096, 8192])
        [(0x1402000, 8192), (0x1400000, 4096)] 0x1400000 4096
        (Reach.alloc (alloc_state ex_kend (buddy_init ex_kend ex_PHYSTOP2) 4096) _ _ 8192
          0x1402000
          (Reach.alloc (buddy_init ex_kend ex_PHYSTOP2) _ _ 4096 0x1400000 Reach.init
            (by decide) rfl (by decide))
          (by decide) rfl (by decide))
        (by decide) (by decide))
      (by decide) (by decide)⟩

/-! ## C17: the coalesce chain -/

theorem alloc_pages_succ (kend n : Nat) (s s1 s2 : FreeAreaList) (p : Nat) (ps : List Nat)
    (h1 : buddy_alloc kend s PGSIZE = some (p, s1))
    (h2 : alloc_pages kend n s1 = some (ps, s2)) :
    alloc_pages kend (n + 1) s = some (p :: ps, s2) := by
  simp only [alloc_pages, h1, h2]

theorem alloc_pages_succ_inv (kend n : Nat) (s u : FreeAreaList) (l : List Nat)
    (h : alloc_pages kend (n + 1) s = some (l, u)) :
    ∃ p s1 ps, buddy_alloc kend s PGSIZE = some (p, s1) ∧
      alloc_pages kend n s1 = some (ps, u) ∧ l = p :: ps := by
  simp only [alloc_pages] at h
  cases hb : buddy_alloc kend s PGSIZE with
  | none =>
    rw [hb] at h
    exact absurd h (by simp)
  | some r =>
    obtain ⟨p, s1⟩ := r
    rw [hb] at h
    simp only at h
    cases hr : alloc_pages kend n s1 with
    | none =>
      rw [hr] at h
      exact absurd h (by simp)
    | some r2 =>
      obtain ⟨ps, s2⟩ := r2
      rw [hr] at h
      simp only [Option.some.injEq, Prod.mk.injEq] at h
      obtain ⟨h1, h2⟩ := h
      subst h2
      exact ⟨p, s1, ps, rfl, hr, h1.symm⟩

/-- Two runs of `alloc_pages` in a row are one run. -/
theorem alloc_pages_append (kend m : Nat) (v : FreeAreaList) (qs : List Nat) :
    ∀ n (s u : FreeAreaList) (ps : List Nat), alloc_pages kend n s = some (ps, u) →
      alloc_pages kend m u = some (qs, v) →
      alloc_pages kend (n + m) s = some (ps ++ qs, v) := by
  intro n
  induction n with
  | zero =>
    intro s u ps h1 h2
    simp only [alloc_pages, Option.some.injEq, Prod.mk.injEq] at h1
    obtain ⟨h3, h4⟩ := h1
    subst h3
    subst h4
    rw [Nat.zero_add]
    exact h2
  | succ n ih =>
    intro s u ps h1 h2
    obtain ⟨p, s1, ps1, hb, hr, hl⟩ := alloc_pages_succ_inv kend n s u ps h1
    subst hl
    have e : n + 1 + m = (n + m) + 1 := by omega
    rw [e]
    exact alloc_pages_succ kend (n + m) s s1 v p (ps1 ++ qs) hb (ih s1 u ps1 hr h2)

theorem pages_add (X a b : Nat) : pages X (a + b) = pages X a ++ pages (X + a * PGSIZE) b := by
  unfold pages
  rw [List.range_add, List.map_append, List.map_map]
  congr 1
  apply List.map_congr_left
  intro t _
  simp only [Function.comp]
  ring

theorem pages_double (X i : Nat) :
    pages X (2 ^ (i + 1)) = pages X (2 ^ i) ++ pages (X + BLOCKSIZE i) (2 ^ i) := by
  have e : 2 ^ (i + 1) = 2 ^ i + 2 ^ i := by
    rw [pow_succ]
    omega
  have e2 : BLOCKSIZE i = 2 ^ i * PGSIZE := by
    unfold BLOCKSIZE
    ring
  rw [e, pages_add, e2]

theorem free_pages_append (kend : Nat) (s : FreeAreaList) (a b : List Nat) :
    free_pages kend s (a ++ b) = free_pages kend (free_pages kend s a) b := by
  unfold free_pages
  rw [List.foldl_append]

theorem obs_refl (s : FreeAreaList) : Obs s s := ⟨fun _ => rfl, fun _ _ => rfl, fun _ _ => rfl⟩

/-- The index of an aligned block at a lower order. -/
theorem get_index_aligned_mul (kend i d X : Nat) (h : Aligned kend (i + d) X) :
    get_index kend X i = get_index kend X (i + d) * 2 ^ d := by
  obtain ⟨j, rfl⟩ := h
  rw [get_index_get_address]
  unfold get_index get_address
  rw [Nat.add_sub_cancel_left, BLOCKSIZE_add]
  have e : j * (BLOCKSIZE i * 2 ^ d) = j * 2 ^ d * BLOCKSIZE i := by ring
  rw [e]
  exact Nat.mul_div_cancel _ (BLOCKSIZE_pos i)

/-- The block next to the first block of order `i` of a block of order `j`
lies in the same block of order `j`. -/
theorem get_index_next_div (kend X i j : Nat) (h : Aligned kend j X) (hij : i < j) :
    (get_index kend X i + 1) / 2 ^ (j - i) = get_index kend X j := by
  obtain ⟨d, rfl⟩ : ∃ d, j = i + d := ⟨j - i, by omega⟩
  rw [Nat.add_sub_cancel_left, get_index_aligned_mul kend i d X h, Nat.mul_comm,
    Nat.mul_add_div (by positivity), Nat.div_eq_of_lt (Nat.one_lt_two_pow (by omega)),
    Nat.add_zero]

theorem aligned_lower (kend X k j : Nat) (h : Aligned kend j X) (hk : k ≤ j) :
    Aligned kend k X := by
  obtain ⟨d, rfl⟩ : ∃ d, j = k + d := ⟨j - k, by omega⟩
  exact aligned_of_le kend X d k h

/-- The blocks inside the right half of order `i` of a block at `X`. -/
theorem insub_right_iff (kend X i j k2 i2 : Nat) (h : Aligned kend j X) (hij : i < j) :
    InSub kend (X + BLOCKSIZE i) i k2 i2 ↔
      k2 ≤ i ∧ i2 / 2 ^ (i - k2) = get_index kend X i + 1 := by
  unfold InSub
  rw [get_index_right_half kend i X (aligned_lower kend X (i + 1) j h (by omega))]

/-- The right half lies inside the block. -/
theorem insub_right_sub (kend X i j k2 i2 : Nat) (h : Aligned kend j X) (hij : i < j)
    (hs : InSub kend (X + BLOCKSIZE i) i k2 i2) : InSub kend X j k2 i2 := by
  obtain ⟨h1, h2⟩ := (insub_right_iff kend X i j k2 i2 h hij).mp hs
  refine ⟨by omega, ?_⟩
  have e : j - k2 = (i - k2) + (j - i) := by omega
  rw [e, div_pow_trans, h2, get_index_next_div kend X i j h hij]

/-- The right halves of different orders do not overlap. -/
theorem insub_right_disjoint (kend X i k j k2 i2 : Nat) (h : Aligned kend j X) (hik : i < k)
    (hkj : k < j) (hs : InSub kend (X + BLOCKSIZE i) i k2 i2) :
    ¬ InSub kend (X + BLOCKSIZE k) k k2 i2 := by
  obtain ⟨h1, h2⟩ := (insub_right_iff kend X i j k2 i2 h (by omega)).mp hs
  intro hc
  obtain ⟨h3, h4⟩ := (insub_right_iff kend X k j k2 i2 h hkj).mp hc
  have e : k - k2 = (i - k2) + (k - i) := by omega
  rw [e, div_pow_trans, h2,
    get_index_next_div kend X i k (aligned_lower kend X k j h (by omega)) hik] at h4
  omega

/-- The blocks that start at `X` do not lie in a right half. -/
theorem insub_right_not_left (kend X i j k2 : Nat) (h : Aligned kend j X) (hij : i < j) :
    ¬ InSub kend (X + BLOCKSIZE i) i k2 (get_index kend X k2) := by
  intro hc
  obtain ⟨h1, h2⟩ := (insub_right_iff kend X i j k2 _ h hij).mp hc
  rw [← get_index_of_le kend X k2 i h1] at h2
  omega

/-- The blocks that start at `X` lie in the block at `X`. -/
theorem insub_left (kend X j k : Nat) (hk : k ≤ j) : InSub kend X j k (get_index kend X k) :=
  ⟨hk, (get_index_of_le kend X k j hk).symm⟩

/-- The first `buddy_alloc(PGSIZE)` on a `Ready` state returns `X` and splits the
block down to a page. -/
theorem ready_first_alloc (kend : Nat) (s : FreeAreaList) (j X : Nat) (rest : List Nat)
    (h : Ready kend s j X rest) :
    ∃ u, buddy_alloc kend s PGSIZE = some (X, u) ∧ Unwind kend s u j X rest 0 := by
  have hm : min_order PGSIZE = some 0 := min_order_page
  obtain ⟨u, hu, hL, hA, hS⟩ := buddy_alloc_post kend s PGSIZE 0 j X rest hm (Nat.zero_le _)
    (Nat.le_of_lt h.lt) (fun k _ hk => h.low k hk) h.head
  refine ⟨u, hu, ⟨?_, hA, hS⟩⟩
  intro k
  rw [hL]
  by_cases h1 : k = j
  · rw [if_pos h1, if_pos h1]
  · rw [if_neg h1, if_neg h1]
    by_cases h2 : 0 ≤ k ∧ k < j
    · rw [if_pos h2, if_pos h2, h.low k h2.2]
    · rw [if_neg h2, if_neg h2]

theorem unwind_obs (kend : Nat) (s u t : FreeAreaList) (j X : Nat) (rest : List Nat) (i : Nat)
    (h : Unwind kend s u j X rest i) (ho : Obs u t) : Unwind kend s t j X rest i :=
  ⟨fun k => (ho.lists k).trans (h.lists k), fun k i2 => (ho.abits k i2).trans (h.abits k i2),
    fun k i2 => (ho.sbits k i2).trans (h.sbits k i2)⟩

/-- The coalescing loop on the first page of a block that was split down to a
page: it merges the halves up to the order of the block, stops there and the
final push gives back the lists and bits from before the allocation. -/
theorem unwind_loop (kend : Nat) (s : FreeAreaList) (j X : Nat) (rest : List Nat)
    (hr : Ready kend s j X rest) :
    ∀ d i t fuel, i + d = j → Unwind kend s t j X rest i → MAXORDER ≤ i + fuel →
      Obs s ((free_loop kend fuel i X t).2.2.with_free_list (free_loop kend fuel i X t).1
        (list_push ((free_loop kend fuel i X t).2.2.free_list (free_loop kend fuel i X t).1)
          (free_loop kend fuel i X t).2.1)) := by
  have hlt := hr.lt
  have hMO : MAXORDER = MAXSIZE + 1 := rfl
  intro d
  induction d with
  | zero =>
    intro i t fuel hij hu hf
    have hij2 : i = j := by omega
    obtain ⟨f, rfl⟩ : ∃ f, fuel = f + 1 := ⟨fuel - 1, by omega⟩
    have hb : Abit (free_clear kend i X t) i (buddy_of (get_index kend X i)) = true := by
      have hne := buddy_of_ne (get_index kend X i)
      rw [free_clear_Abit, if_neg (by intro hc; exact hne hc.2.symm), hu.abits,
        if_neg (by intro hc; exact hne hc.2.2.symm), hij2]
      exact hr.bud
    rw [free_loop_succ, if_pos (by omega), if_pos hb]
    simp only
    refine ⟨?_, ?_, ?_⟩
    · intro k
      rw [with_free_list_free_list, free_clear_free_list]
      by_cases hk : k = i
      · rw [hk, if_pos rfl, hu.lists, if_pos hij2, hij2, hr.head]
        rfl
      · rw [if_neg hk, hu.lists, if_neg (by omega), if_neg (by omega)]
    · intro k i2
      rw [Abit_with_free_list, free_clear_Abit, hu.abits]
      by_cases h1 : k = i ∧ get_index kend X i = i2
      · rw [if_pos h1]
        obtain ⟨h1a, h1b⟩ := h1
        rw [h1a, ← h1b]
        exact ((hr.clear i _ (insub_left kend X j i (by omega))).1).symm
      · rw [if_neg h1, if_neg]
        rintro ⟨h2, h3, h4⟩
        have hk : k = i := by omega
        rw [hk] at h4
        exact h1 ⟨hk, h4⟩
    · intro k i2
      rw [Sbit_with_free_list, free_clear_Sbit, hu.sbits, if_neg (by omega)]
  | succ d ih =>
    intro i t fuel hij hu hf
    have hij2 : i < j := by omega
    obtain ⟨f, rfl⟩ : ∃ f, fuel = f + 1 := ⟨fuel - 1, by omega⟩
    have hal1 : Aligned kend (i + 1) X := aligned_lower kend X (i + 1) j hr.al (by omega)
    have hal0 : Aligned kend i X := aligned_lower kend X i j hr.al (by omega)
    have heven : get_index kend X i = 2 * get_index kend X (i + 1) :=
      get_index_left_half kend i X hal1
    have hbud : buddy_of (get_index kend X i) = get_index kend X i + 1 := by
      unfold buddy_of
      rw [if_pos (by omega)]
    have hb : Abit (free_clear kend i X t) i (buddy_of (get_index kend X i)) = false := by
      rw [hbud, free_clear_Abit, if_neg (by omega), hu.abits, if_neg (by omega)]
      exact (hr.clear i _ ⟨by omega, get_index_next_div kend X i j hr.al hij2⟩).1
    have hpar : free_parent kend i X = X := by
      rw [free_parent_eq kend i X hal0, ← get_index_succ,
        get_address_get_index kend (i + 1) X hal1]
    have haddr : get_address kend (buddy_of (get_index kend X i)) i = X + BLOCKSIZE i := by
      rw [hbud, get_address_succ, get_address_get_index kend i X hal0]
    rw [free_loop_succ, if_pos (by omega), hb]
    simp only [Bool.false_eq_true, if_false]
    rw [hpar]
    refine ih (i + 1) _ f (by omega) ⟨?_, ?_, ?_⟩ (by omega)
    · intro k
      rw [free_merge_free_list]
      by_cases hk : k = i
      · have hne : i ≠ j := by omega
        have e1 : t.free_list i = [X + BLOCKSIZE i] := by
          rw [hu.lists, if_neg hne, if_pos ⟨le_refl _, hij2⟩]
        rw [hk, if_pos rfl, haddr, e1, if_neg hne, if_neg (by omega), hr.low i hij2]
        simp [list_remove]
      · rw [if_neg hk, hu.lists]
        by_cases h1 : k = j
        · rw [if_pos h1, if_pos h1]
        · rw [if_neg h1, if_neg h1]
          by_cases h2 : i ≤ k ∧ k < j
          · rw [if_pos h2, if_pos (by omega)]
          · rw [if_neg h2, if_neg (by omega)]
    · intro k i2
      rw [free_merge_Abit, hu.abits]
      by_cases h1 : k = i ∧ get_index kend X i = i2
      · rw [if_pos h1, if_neg (by omega)]
        obtain ⟨h1a, h1b⟩ := h1
        rw [h1a, ← h1b]
        exact ((hr.clear i _ (insub_left kend X j i (by omega))).1).symm
      · rw [if_neg h1]
        by_cases h2 : i ≤ k ∧ k ≤ j ∧ get_index kend X k = i2
        · have hk : k ≠ i := by
            intro hc
            rw [hc] at h2
            exact h1 ⟨hc, h2.2.2⟩
          rw [if_pos h2, if_pos ⟨by omega, h2.2.1, h2.2.2⟩]
        · rw [if_neg h2, if_neg]
          rintro ⟨h3, h4, h5⟩
          exact h2 ⟨by omega, h4, h5⟩
    · intro k i2
      rw [free_merge_Sbit, hpar, hu.sbits]
      by_cases h1 : i < MAXSIZE ∧ k = i + 1 ∧ get_index kend X (i + 1) = i2
      · rw [if_pos h1, if_neg (by omega)]
        obtain ⟨_, h1a, h1b⟩ := h1
        rw [h1a, ← h1b]
        exact ((hr.clear (i + 1) _ (insub_left kend X j (i + 1) (by omega))).2).symm
      · rw [if_neg h1]
        by_cases h2 : i < k ∧ k ≤ j ∧ get_index kend X k = i2
        · have hk : k ≠ i + 1 := by
            intro hc
            rw [hc] at h2
            exact h1 ⟨by omega, hc, h2.2.2⟩
          rw [if_pos h2, if_pos ⟨by omega, h2.2.1, h2.2.2⟩]
        · rw [if_neg h2, if_neg]
          rintro ⟨h3, h4, h5⟩
          exact h2 ⟨by omega, h4, h5⟩

/-- `buddy_free` of the first page of a block that was split down to a page
gives back the lists and bits from before the allocation. -/
theorem free_first_page (kend : Nat) (s : FreeAreaList) (j X : Nat) (rest : List Nat)
    (hr : Ready kend s j X rest) (t : FreeAreaList) (hu : Unwind kend s t j X rest 0) :
    Obs s (buddy_free kend t X) := by
  have hMO : MAXORDER = MAXSIZE + 1 := rfl
  have hS1 : Sbit t 1 (get_index kend X 1) = true := by
    rw [hu.sbits]
    by_cases hj : 1 ≤ j
    · rw [if_pos ⟨by omega, hj, rfl⟩]
    · rw [if_neg (by omega)]
      have e : j = 0 := by omega
      have hp := hr.par
      rw [e] at hp
      exact hp
  have hsz : size_of kend t X = 0 := by
    unfold size_of
    exact size_of_loop_found kend t X 0 (by decide) hS1 MAXSIZE 0 (le_refl _) (by decide)
      (fun k h1 h2 => by omega)
  have hA0 : bit_is_set (t.allocated 0) (get_index kend X 0) = true := by
    have h0 := hu.abits 0 (get_index kend X 0)
    rw [if_pos ⟨le_refl _, Nat.zero_le _, rfl⟩] at h0
    exact h0
  unfold buddy_free
  simp only []
  rw [hsz, hA0]
  simp only [if_true]
  exact unwind_loop kend s j X rest hr j 0 t MAXORDER (by omega) hu (by omega)

/-- The first page: one call returns `X`, and `buddy_free(X)` undoes it. -/
theorem prefix_zero (kend : Nat) (s : FreeAreaList) (j X : Nat) (rest : List Nat)
    (hr : Ready kend s j X rest) : Prefix kend s j X rest 0 := by
  obtain ⟨u, ha, hu⟩ := ready_first_alloc kend s j X rest hr
  have e : pages X (2 ^ 0) = [X] := by
    unfold pages
    rw [pow_zero]
    have e0 : List.range 1 = [0] := rfl
    rw [e0, List.map_cons, List.map_nil, Nat.zero_mul, Nat.add_zero]
  refine ⟨u, ?_, ⟨hu.lists, ?_, ?_, ?_, ?_⟩, ?_⟩
  · rw [e]
    exact alloc_pages_succ kend 0 s u u X [] ha rfl
  · intro k i2 hn
    constructor
    · rw [hu.abits, if_neg]
      rintro ⟨_, h2, h3⟩
      rw [← h3] at hn
      exact hn (insub_left kend X j k h2)
    · rw [hu.sbits, if_neg]
      rintro ⟨_, h2, h3⟩
      rw [← h3] at hn
      exact hn (insub_left kend X j k h2)
  · intro k _ hk k2 i2 hs
    have h1 := insub_right_sub kend X k j k2 i2 hr.al hk hs
    have h2 : get_index kend X k2 ≠ i2 := by
      intro hc
      rw [← hc] at hs
      exact insub_right_not_left kend X k j k2 hr.al hk hs
    constructor
    · rw [hu.abits, if_neg (by intro hc; exact h2 hc.2.2)]
      exact (hr.clear k2 i2 h1).1
    · rw [hu.sbits, if_neg (by intro hc; exact h2 hc.2.2)]
      exact (hr.clear k2 i2 h1).2
  · intro k _ hk
    rw [hu.abits, if_pos ⟨Nat.zero_le _, by omega, rfl⟩]
  · intro k _ hk
    rw [hu.sbits, if_pos ⟨by omega, by omega, rfl⟩]
  · intro t ho
    rw [e, List.reverse_singleton]
    exact free_first_page kend s j X rest hr t (unwind_obs kend s u t j X rest 0 hu ho)

/-- After the first `2 ^ i` pages the right half of order `i` is `Ready`. -/
theorem ready_right (kend : Nat) (s u : FreeAreaList) (j X : Nat) (rest : List Nat) (i : Nat)
    (hr : Ready kend s j X rest) (hm : Mid kend s u j X rest i) (hij : i < j) :
    Ready kend u i (X + BLOCKSIZE i) [] := by
  have hlt := hr.lt
  have hal1 : Aligned kend (i + 1) X := aligned_lower kend X (i + 1) j hr.al (by omega)
  refine ⟨by omega, ?_, ?_, aligned_right_half kend i X hal1, ?_, hm.clear i le_rfl hij, ?_⟩
  · intro k hk
    rw [hm.lists, if_neg (by omega), if_neg (by omega)]
    exact hr.low k (by omega)
  · rw [hm.lists, if_neg (by omega), if_pos ⟨le_refl _, hij⟩]
  · rw [buddy_of_right_half kend i X hal1]
    exact hm.left i le_rfl hij
  · rw [get_index_right_half_anc kend i X (i + 1) hal1 (by omega)]
    exact hm.par i le_rfl hij

/-- Handing out the right half of order `i` leads from `Mid … i` to `Mid … (i + 1)`. -/
theorem mid_step (kend : Nat) (s u v : FreeAreaList) (j X : Nat) (rest : List Nat) (i : Nat)
    (hr : Ready kend s j X rest) (hm : Mid kend s u j X rest i)
    (hf : Frame kend u v i (X + BLOCKSIZE i) []) (hij : i < j) :
    Mid kend s v j X rest (i + 1) := by
  refine ⟨?_, ?_, ?_, ?_, ?_⟩
  · intro k
    rw [hf.lists]
    by_cases hk : k = i
    · rw [if_pos hk, if_neg (by omega), if_neg (by omega), hk, hr.low i hij]
    · rw [if_neg hk, hm.lists]
      by_cases h1 : k = j
      · rw [if_pos h1, if_pos h1]
      · rw [if_neg h1, if_neg h1]
        by_cases h2 : i ≤ k ∧ k < j
        · rw [if_pos h2, if_pos (by omega)]
        · rw [if_neg h2, if_neg (by omega)]
  · intro k i2 hn
    have h1 : ¬ InSub kend (X + BLOCKSIZE i) i k i2 :=
      fun hc => hn (insub_right_sub kend X i j k i2 hr.al hij hc)
    obtain ⟨a1, a2⟩ := hf.bits k i2 h1
    obtain ⟨b1, b2⟩ := hm.bits k i2 hn
    exact ⟨a1.trans b1, a2.trans b2⟩
  · intro k hk1 hk2 k2 i2 hs
    have h1 : ¬ InSub kend (X + BLOCKSIZE i) i k2 i2 :=
      fun hc => insub_right_disjoint kend X i k j k2 i2 hr.al (by omega) hk2 hc hs
    obtain ⟨a1, a2⟩ := hf.bits k2 i2 h1
    obtain ⟨b1, b2⟩ := hm.clear k (by omega) hk2 k2 i2 hs
    exact ⟨a1.trans b1, a2.trans b2⟩
  · intro k hk1 hk2
    rw [(hf.bits k _ (insub_right_not_left kend X i j k hr.al hij)).1]
    exact hm.left k (by omega) hk2
  · intro k hk1 hk2
    rw [(hf.bits (k + 1) _ (insub_right_not_left kend X i j (k + 1) hr.al hij)).2]
    exact hm.par k (by omega) hk2

/-- From the first `2 ^ i` pages to the first `2 ^ (i + 1)` pages. -/
theorem prefix_step (kend : Nat) (s : FreeAreaList) (j X : Nat) (rest : List Nat) (i : Nat)
    (hr : Ready kend s j X rest) (hij : i < j) (hp : Prefix kend s j X rest i)
    (hc : ∀ u, Ready kend u i (X + BLOCKSIZE i) [] → Cycle kend u i (X + BLOCKSIZE i) []) :
    Prefix kend s j X rest (i + 1) := by
  obtain ⟨u, ha, hm, hfree⟩ := hp
  obtain ⟨v, ha2, hf, hfree2⟩ := hc u (ready_right kend s u j X rest i hr hm hij)
  refine ⟨v, ?_, mid_step kend s u v j X rest i hr hm hf hij, ?_⟩
  · have e : 2 ^ (i + 1) = 2 ^ i + 2 ^ i := by
      rw [pow_succ]
      omega
    rw [pages_double, e]
    exact alloc_pages_append kend (2 ^ i) v _ (2 ^ i) s u _ ha ha2
  · intro t ho
    rw [pages_double, List.reverse_append, free_pages_append]
    exact hfree _ (hfree2 t ho)

/-- The whole block: `2 ^ j` calls return its pages in ascending order and the
frees in reverse order undo them. -/
theorem cycle_of_ready (kend : Nat) :
    ∀ j (s : FreeAreaList) (X : Nat) (rest : List Nat),
      Ready kend s j X rest → Cycle kend s j X rest := by
  intro j
  induction j using Nat.strong_induction_on with
  | _ j ih =>
    intro s X rest hr
    have hpre : ∀ i, i ≤ j → Prefix kend s j X rest i := by
      intro i
      induction i with
      | zero => exact fun _ => prefix_zero kend s j X rest hr
      | succ i ihi =>
        intro hi
        exact prefix_step kend s j X rest i hr (by omega) (ihi (by omega))
          (fun u hu => ih i (by omega) u _ _ hu)
    obtain ⟨u, ha, hm, hfree⟩ := hpre j le_rfl
    refine ⟨u, ha, ⟨?_, hm.bits⟩, hfree⟩
    intro k
    rw [hm.lists]
    by_cases h1 : k = j
    · rw [if_pos h1, if_pos h1]
    · rw [if_neg h1, if_neg h1, if_neg (by omega)]

/-- The head of a free list below the top order of a reachable state is `Ready`
when the lists below are empty. -/
theorem ready_of_reach (kend PHYSTOP : Nat) (s : FreeAreaList) (live : List (Nat × Nat))
    (k B : Nat) (rest : List Nat) (hr : Reach kend PHYSTOP s live) (hk : k < MAXSIZE)
    (hlow : ∀ j, j < k → s.free_list j = []) (hhead : s.free_list k = B :: rest) :
    Ready kend s k B rest := by
  obtain ⟨owned, hinv, _, _⟩ := reach_inv kend PHYSTOP s live hr
  have hP := reach_pair kend PHYSTOP s live hr
  have hmem : B ∈ s.free_list k := by
    rw [hhead]
    exact List.mem_cons_self _ _
  have hfree := hinv.free_unalloc k (by omega) B hmem
  refine ⟨hk, hlow, hhead, hinv.free_aligned k (by omega) B hmem, hP k hk B hmem, ?_,
    (hinv.free_anc k (by omega) B hmem (k + 1) (by omega) (by omega)).1⟩
  rintro k2 i2 ⟨h1, h2⟩
  obtain ⟨z1, z2⟩ := hinv.zero k (by omega) _ (Or.inl hfree)
  rcases Nat.eq_or_lt_of_le h1 with heq | hlt
  · rw [heq, Nat.sub_self, pow_zero, Nat.div_one] at h2
    rw [heq, h2]
    exact ⟨hfree, z1⟩
  · exact z2 k2 hlt i2 h2

/-- C17 (coalesce chain).  In every state that `buddy_alloc` (requests of at
most `MAXPGSIZE` bytes) and `buddy_free` (of live allocations, each call
staying inside the array `free_areas[MAXORDER]`) reach from the state left by
`buddy_init`, for every order `k` below `MAXSIZE` (the claim's
orders `1..MAXSIZE-1`, and order 0 as well): when the free lists of the orders
below `k` are empty and `B` heads `free_list[k]`, `2 ^ k` consecutive calls
`buddy_alloc(PGSIZE)` return the pages `B`, `B + PGSIZE`, …,
`B + (2 ^ k - 1) * PGSIZE` in that order, and `buddy_free` of these pages in
reverse order leaves every free list as it was before the allocations (so `B`
heads `free_list[k]` again and none of the pages is on a list of a lower order)
and every allocated bit and every split bit as it was. -/
theorem coalesce_chain (kend PHYSTOP : Nat) (s : FreeAreaList) (live : List (Nat × Nat))
    (k B : Nat) (rest : List Nat) (hr : Reach kend PHYSTOP s live) (hk : k < MAXSIZE)
    (hlow : ∀ j, j < k → s.free_list j = []) (hhead : s.free_list k = B :: rest) :
    ∃ u, alloc_pages kend (2 ^ k) s = some (pages B (2 ^ k), u) ∧
      (∀ j, (free_pages kend u (pages B (2 ^ k)).reverse).free_list j = s.free_list j) ∧
      (free_pages kend u (pages B (2 ^ k)).reverse).free_list k = B :: rest ∧
      (∀ j, j < k → ∀ p ∈ pages B (2 ^ k),
        p ∉ (free_pages kend u (pages B (2 ^ k)).reverse).free_list j) ∧
      (∀ o i, Abit (free_pages kend u (pages B (2 ^ k)).reverse) o i = Abit s o i) ∧
      (∀ o i, Sbit (free_pages kend u (pages B (2 ^ k)).reverse) o i = Sbit s o i) := by
  obtain ⟨u, ha, _, hfree⟩ := cycle_of_ready kend k s B rest
    (ready_of_reach kend PHYSTOP s live k B rest hr hk hlow hhead)
  have ho := hfree u (obs_refl u)
  refine ⟨u, ha, ho.lists, ?_, ?_, ho.abits, ho.sbits⟩
  · rw [ho.lists, hhead]
  · intro j hj p _
    rw [ho.lists, hlow j hj]
    exact List.not_mem_nil _

/-- C17 (witness, `k = 3`).  After `buddy_alloc(0x8000)` on a region of two huge
blocks the block of eight pages at `0x1408000` heads `free_list[3]` and the
lists below are empty: eight calls `buddy_alloc(PGSIZE)` return the pages
`0x1408000` to `0x140F000` in ascending order and the eight frees in reverse
order restore the lists and the bits. -/
theorem coalesce_chain_witness :
    pages 0x1408000 (2 ^ 3) = [0x1408000, 0x1409000, 0x140A000, 0x140B000, 0x140C000,
      0x140D000, 0x140E000, 0x140F000] ∧
    ∃ u, alloc_pages ex_kend (2 ^ 3) ex_eight_pages_free = some (pages 0x1408000 (2 ^ 3), u) ∧
      (∀ j, (free_pages ex_kend u (pages 0x1408000 (2 ^ 3)).reverse).free_list j =
        ex_eight_pages_free.free_list j) ∧
      (free_pages ex_kend u (pages 0x1408000 (2 ^ 3)).reverse).free_list 3 = 0x1408000 :: [] ∧
      (∀ j, j < 3 → ∀ p ∈ pages 0x1408000 (2 ^ 3),
        p ∉ (free_pages ex_kend u (pages 0x1408000 (2 ^ 3)).reverse).free_list j) ∧
      (∀ o i, Abit (free_pages ex_kend u (pages 0x1408000 (2 ^ 3)).reverse) o i =
        Abit ex_eight_pages_free o i) ∧
      (∀ o i, Sbit (free_pages ex_kend u (pages 0x1408000 (2 ^ 3)).reverse) o i =
        Sbit ex_eight_pages_free o i) :=
  ⟨by decide,
    coalesce_chain ex_kend ex_PHYSTOP2 ex_eight_pages_free [(0x1400000, 0x8000)] 3 0x1408000 []
      (Reach.alloc (buddy_init ex_kend ex_PHYSTOP2) _ _ 0x8000 0x1400000 Reach.init
        (by decide) rfl (by decide))
      (by decide)
      (fun j hj => by
        interval_cases j <;> decide)
      (by decide)⟩

/-! ## C22: `list_remove` -/

/-- A chain only depends on the `next` fields of its nodes. -/
theorem linked_congr (next next2 : Nat → Nat) : ∀ (l : List Nat) (head : Nat),
    (∀ a ∈ l, next2 a = next a) → Linked next head l → Linked next2 head l := by
  intro l
  induction l with
  | nil => exact fun _ _ h => h
  | cons a rest ih =>
    intro head hc h
    obtain ⟨h1, h2, h3⟩ := h
    refine ⟨h1, h2, ?_⟩
    rw [hc a (List.mem_cons_self _ _)]
    exact ih _ (fun b hb => hc b (List.mem_cons_of_mem _ hb)) h3

/-- The walk of `list_remove` from a node `b` other than `p`: it ends at the null
pointer when `p` is not in the chain, and else at the node before `p`, and
unlinking `p` there leaves the chain without `p`. -/
theorem list_remove_walk_spec (next : Nat → Nat) (p : Nat) (hp : p ≠ 0) :
    ∀ (rest : List Nat) (b fuel : Nat), Linked next b (b :: rest) → (b :: rest).Nodup →
      b ≠ p → rest.length + 1 < fuel →
      ∃ temp, list_remove_walk next p fuel b = some temp ∧
        ((p ∉ rest ∧ temp = 0) ∨
          (p ∈ rest ∧ temp ≠ 0 ∧ next temp = p ∧
            Linked (Function.update next temp (next p)) b ((b :: rest).erase p))) := by
  intro rest
  induction rest with
  | nil =>
    intro b fuel hl _ hbp hf
    obtain ⟨_, hb0, hn⟩ := hl
    have hn0 : next b = 0 := hn
    obtain ⟨f, rfl⟩ : ∃ f, fuel = f + 2 := ⟨fuel - 2, by simp at hf; omega⟩
    refine ⟨0, ?_, Or.inl ⟨List.not_mem_nil _, rfl⟩⟩
    rw [list_remove_walk, if_pos ⟨hb0, by rw [hn0]; exact fun h => hp h.symm⟩, hn0,
      list_remove_walk, if_neg (by simp)]
  | cons c rest2 ih =>
    intro b fuel hl hnd hbp hf
    obtain ⟨_, hb0, hc1, hc0, hrest⟩ := hl
    have hnb : next b = c := hc1
    obtain ⟨f, rfl⟩ : ∃ f, fuel = f + 1 := ⟨fuel - 1, by simp at hf; omega⟩
    rw [List.nodup_cons] at hnd
    obtain ⟨hbn, hnd2⟩ := hnd
    by_cases hcp : c = p
    · refine ⟨b, ?_, Or.inr ⟨by rw [hcp]; exact List.mem_cons_self _ _, hb0,
        by rw [hnb, hcp], ?_⟩⟩
      · rw [list_remove_walk, if_neg (by rw [hnb, hcp]; simp)]
      · have he : (b :: c :: rest2).erase p = b :: rest2 := by
          rw [List.erase_cons_tail (by simpa using hbp), ← hcp, List.erase_cons_head]
        rw [he]
        refine ⟨rfl, hb0, ?_⟩
        rw [Function.update_same, ← hcp]
        apply linked_congr next _ rest2 (next c) _ hrest
        intro a ha
        rw [Function.update_noteq]
        intro hab
        rw [hab] at ha
        exact hbn (List.mem_cons_of_mem _ ha)
    · have hl2 : Linked next c (c :: rest2) := ⟨rfl, hc0, hrest⟩
      obtain ⟨temp, hw, hcase⟩ := ih c f hl2 hnd2 hcp (by simp at hf ⊢; omega)
      refine ⟨temp, ?_, ?_⟩
      · rw [list_remove_walk, if_pos ⟨hb0, by rw [hnb]; exact hcp⟩, hnb]
        exact hw
      · rcases hcase with ⟨h1, h2⟩ | ⟨h1, h2, h3, h4⟩
        · left
          refine ⟨?_, h2⟩
          intro hm
          rcases List.mem_cons.mp hm with h5 | h5
          · exact hcp h5.symm
          · exact h1 h5
        · right
          refine ⟨List.mem_cons_of_mem _ h1, h2, h3, ?_⟩
          have he : (b :: c :: rest2).erase p = b :: (c :: rest2).erase p := by
            rw [List.erase_cons_tail (by simpa using hbp)]
          rw [he]
          refine ⟨rfl, hb0, ?_⟩
          have htb : temp ≠ b := by
            intro hc2
            have hpm : p ∈ c :: rest2 := List.mem_cons_of_mem _ h1
            rw [hc2, hnb] at h3
            exact hcp h3
          rw [Function.update_noteq (Ne.symm htb), hnb]
          exact h4

theorem erase_eq_filter_ne (p : Nat) : ∀ (l : List Nat), l.Nodup →
    l.erase p = l.filter (fun a => decide (a ≠ p)) := by
  intro l
  induction l with
  | nil => exact fun _ => rfl
  | cons a rest ih =>
    intro hnd
    rw [List.nodup_cons] at hnd
    by_cases hap : a = p
    · rw [hap, List.erase_cons_head, List.filter_cons_of_neg (by simp)]
      rw [hap] at hnd
      symm
      rw [List.filter_eq_self]
      intro b hb
      have : b ≠ p := fun hc => hnd.1 (hc ▸ hb)
      simpa using this
    · rw [List.erase_cons_tail (by simpa using hap), List.filter_cons_of_pos (by simpa using hap),
        ih hnd.2]

theorem filter_ne_of_not_mem (p : Nat) (l : List Nat) (h : p ∉ l) :
    l.filter (fun a => decide (a ≠ p)) = l := by
  rw [List.filter_eq_self]
  intro b hb
  have : b ≠ p := fun hc => h (hc ▸ hb)
  simpa using this

/-- C22 (`list_remove` removes exactly `p`).  For a chain of nodes without
duplicates that starts at `head` and a non-null `p`, `list_remove` returns, and
afterwards the chain from the head pointer is the old list without `p`, the
other nodes in their old order; when `p` is not in the list the head pointer
and every `next` field are as before (also for the empty list).  The list
function `list_remove` of the allocator model computes the same list. -/
theorem list_remove_exact (next : Nat → Nat) (head p fuel : Nat) (l : List Nat)
    (hl : Linked next head l) (hnd : l.Nodup) (hp : p ≠ 0) (hf : l.length + 1 < fuel) :
    ∃ head2 next2, list_remove_nodes next head p fuel = some (head2, next2) ∧
      Linked next2 head2 (l.filter (fun a => decide (a ≠ p))) ∧
      (p ∉ l → head2 = head ∧ next2 = next) ∧
      list_remove l p = l.filter (fun a => decide (a ≠ p)) := by
  have habs : list_remove l p = l.filter (fun a => decide (a ≠ p)) := by
    rw [list_remove_eq_erase, erase_eq_filter_ne p l hnd]
  cases l with
  | nil =>
    have h0 : head = 0 := hl
    obtain ⟨f, rfl⟩ : ∃ f, fuel = f + 1 := ⟨fuel - 1, by omega⟩
    refine ⟨head, next, ?_, ?_, fun _ => ⟨rfl, rfl⟩, habs⟩
    · unfold list_remove_nodes
      rw [if_neg (by rw [h0]; exact fun h => hp h.symm), h0, list_remove_walk,
        if_neg (by simp)]
      simp
    · rw [h0]
      rfl
  | cons a rest =>
    obtain ⟨ha, ha0, hrest⟩ := hl
    rw [List.nodup_cons] at hnd
    by_cases hap : a = p
    · refine ⟨next head, next, ?_, ?_, ?_, habs⟩
      · unfold list_remove_nodes
        rw [if_pos (by rw [ha, hap]), if_neg (by rw [ha]; exact ha0)]
      · rw [List.filter_cons_of_neg (by simp [hap]), ← hap,
          filter_ne_of_not_mem a rest hnd.1, ha]
        exact hrest
      · intro hn
        exact absurd (by rw [hap]; exact List.mem_cons_self _ _) hn
    · have hl2 : Linked next a (a :: rest) := ⟨rfl, ha0, hrest⟩
      obtain ⟨temp, hw, hcase⟩ := list_remove_walk_spec next p hp rest a fuel hl2
        (List.nodup_cons.mpr hnd) hap (by simp only [List.length_cons] at hf; omega)
      rcases hcase with ⟨h1, h2⟩ | ⟨h1, h2, h3, h4⟩
      · have hnm : p ∉ a :: rest := by
          intro hm
          rcases List.mem_cons.mp hm with h5 | h5
          · exact hap h5.symm
          · exact h1 h5
        refine ⟨head, next, ?_, ?_, fun _ => ⟨rfl, rfl⟩, habs⟩
        · unfold list_remove_nodes
          rw [if_neg (by rw [ha]; exact hap), ha, hw]
          simp only
          rw [if_pos h2]
        · rw [filter_ne_of_not_mem p _ hnm, ha]
          exact hl2
      · refine ⟨head, Function.update next temp (next p), ?_, ?_, ?_, habs⟩
        · unfold list_remove_nodes
          rw [if_neg (by rw [ha]; exact hap), ha, hw]
          simp only
          rw [if_neg h2, if_neg (by rw [h3]; exact hp), h3]
        · rw [← erase_eq_filter_ne p _ (List.nodup_cons.mpr hnd), ha]
          exact h4
        · intro hn
          exact absurd (List.mem_cons_of_mem _ h1) hn

/-- C22 (witness).  On the chain `0x1000`, `0x2000`, `0x3000`, `list_remove` of
the middle node returns and leaves the chain `0x1000`, `0x3000`. -/
theorem list_remove_exact_witness :
    [(0x1000 : Nat), 0x2000, 0x3000].filter (fun a => decide (a ≠ 0x2000)) = [0x1000, 0x3000] ∧
    ∃ head2 next2, list_remove_nodes ex_next 0x1000 0x2000 5 = some (head2, next2) ∧
      Linked next2 head2 ([(0x1000 : Nat), 0x2000, 0x3000].filter (fun a => decide (a ≠ 0x2000))) ∧
      (0x2000 ∉ [(0x1000 : Nat), 0x2000, 0x3000] → head2 = 0x1000 ∧ next2 = ex_next) ∧
      list_remove [0x1000, 0x2000, 0x3000] 0x2000 =
        [(0x1000 : Nat), 0x2000, 0x3000].filter (fun a => decide (a ≠ 0x2000)) :=
  ⟨by decide,
    list_remove_exact ex_next 0x1000 0x2000 5 [0x1000, 0x2000, 0x3000]
      ⟨rfl, by decide, rfl, by decide, rfl, by decide, rfl⟩ (by decide) (by decide) (by decide)⟩

/-! ## C23: the bit-vector laws -/

/-- C23 (bit-vector laws).  For every byte array and all indices `i` and `j`
(the bytes are `char`s, sign-extended when they are promoted, so bit 7 is
covered): `bit_is_set` answers 1 for `i` after `set_bit(arr, i)` and 0 for `i`
after `clear_bit(arr, i)`, and for `j` other than `i` the answer of
`bit_is_set(arr, j)` is not changed by `set_bit(arr, i)` or `clear_bit(arr, i)`. -/
theorem bit_vector_laws (arr : Nat → Nat) (i j : Nat) :
    bit_is_set (set_bit arr i) i = true ∧
    bit_is_set (clear_bit arr i) i = false ∧
    (j ≠ i → bit_is_set (set_bit arr i) j = bit_is_set arr j) ∧
    (j ≠ i → bit_is_set (clear_bit arr i) j = bit_is_set arr j) := by
  refine ⟨?_, ?_, ?_, ?_⟩
  · rw [bit_is_set_set_bit, if_pos rfl]
  · rw [bit_is_set_clear_bit, if_pos rfl]
  · intro h
    rw [bit_is_set_set_bit, if_neg (Ne.symm h)]
  · intro h
    rw [bit_is_set_clear_bit, if_neg (Ne.symm h)]

/-- C23 (witness).  Bit 7 of byte 1 (index 15) next to bit 6 (index 14) in an
array of bytes `0x40`: setting and clearing bit 7 is seen at index 15 and leaves
the set bit at index 14 alone. -/
theorem bit_vector_laws_witness :
    bit_is_set (fun _ => 0x40) 14 = true ∧
    bit_is_set (set_bit (fun _ => 0x40) 15) 15 = true ∧
    bit_is_set (clear_bit (fun _ => 0x40) 15) 15 = false ∧
    (14 ≠ 15 → bit_is_set (set_bit (fun _ => 0x40) 15) 14 = bit_is_set (fun _ => 0x40) 14) ∧
    (14 ≠ 15 → bit_is_set (clear_bit (fun _ => 0x40) 15) 14 = bit_is_set (fun _ => 0x40) 14) :=
  ⟨by decide, bit_vector_laws (fun _ => 0x40) 15 14⟩

/-! ## C24: `min_order` -/

theorem BLOCKSIZE_le (a b : Nat) (h : a ≤ b) : BLOCKSIZE a ≤ BLOCKSIZE b :=
  Nat.mul_le_mul_left _ (Nat.pow_le_pow_right (by norm_num) h)

theorem BLOCKSIZE_lt (a b : Nat) (h : a < b) : BLOCKSIZE a < BLOCKSIZE b :=
  Nat.mul_lt_mul_of_pos_left (Nat.pow_lt_pow_right (by norm_num) h) (by decide)

/-- C24 (`min_order` is the smallest fitting order).  For every request of at
most `2 ^ 30` bytes `min_order` returns, and the order `m` it returns is the
smallest one with `PGSIZE * 2 ^ m ≥ n`: 0 for `n ≤ PGSIZE`, `j` for
`n = PGSIZE * 2 ^ j`, `MAXSIZE` for `n = MAXPGSIZE`.  The order is at most 18, so
`size` stays at or below `2 ^ 30` and the doubling of the `int` does not
overflow. -/
theorem min_order_smallest (n : Nat) (hn : n ≤ 2 ^ 30) :
    ∃ m, min_order n = some m ∧ m ≤ 18 ∧ n ≤ PGSIZE * 2 ^ m ∧
      (∀ k, n ≤ PGSIZE * 2 ^ k → m ≤ k) ∧
      (n ≤ PGSIZE → m = 0) ∧
      (∀ j, n = PGSIZE * 2 ^ j → m = j) ∧
      (n = MAXPGSIZE → m = MAXSIZE) := by
  have h18 : BLOCKSIZE 18 = 2 ^ 30 := by decide
  obtain ⟨m, h1, h2, h3, h4⟩ := min_order_spec n 18 (by decide) (by rw [h18]; exact hn)
  have hsmall : ∀ k, n ≤ PGSIZE * 2 ^ k → m ≤ k := by
    intro k hk
    by_contra hc
    have h5 := h4 (by omega)
    have h6 := BLOCKSIZE_le k (m - 1) (by omega)
    unfold BLOCKSIZE at h5 h6
    omega
  have hpow : ∀ j, n = PGSIZE * 2 ^ j → m = j := by
    intro j hj
    have h5 := hsmall j (le_of_eq hj)
    by_contra hc
    have h6 := BLOCKSIZE_lt m j (by omega)
    unfold BLOCKSIZE at h3 h6
    omega
  refine ⟨m, h1, h2, h3, hsmall, ?_, hpow, ?_⟩
  · intro h0
    have := hsmall 0 (by rw [pow_zero, Nat.mul_one]; exact h0)
    omega
  · intro hh
    exact hpow MAXSIZE hh

/-- C24 (witness).  A request of 5000 bytes: `min_order` returns 1, the smallest
order whose block of 8192 bytes holds it. -/
theorem min_order_smallest_witness :
    min_order 5000 = some 1 ∧
    ∃ m, min_order 5000 = some m ∧ m ≤ 18 ∧ 5000 ≤ PGSIZE * 2 ^ m ∧
      (∀ k, 5000 ≤ PGSIZE * 2 ^ k → m ≤ k) ∧
      (5000 ≤ PGSIZE → m = 0) ∧
      (∀ j, 5000 = PGSIZE * 2 ^ j → m = j) ∧
      (5000 = MAXPGSIZE → m = MAXSIZE) :=
  ⟨by decide, min_order_smallest 5000 (by norm_num)⟩

/-! ## C21: the small-page loop of `mappages` -/

end HugePages
